import Mathlib

/-!
# KintaMed Edge: the MedGemma inference runtime

A shallow embedding of `src/lib/cpp/medgemma_inference.cpp`.

Conventions of the embedding.

* `float` values are elements of a linearly ordered field `α` with an
  exponential `exp : α → α` passed explicitly (exact arithmetic: the
  literals `0.75f`, `0.29f`, `1.30f`, `-1e9f` are the fractions they denote;
  the greedy threshold `0.01f` is the `float` itself, `5368709 / 2 ^ 29`).
  The statements that depend on the exponential are made at `ℝ` with `Real.exp`.
  The statements on the sampler that hold in this arithmetic only say so;
  `float32` below rounds sums and quotients as the hardware does.
* `int64_t` token ids are `Int`; sizes, indices and `kv_len` are `Nat`.
* C strings are lists of bytes (`List Nat`, the bytes before the terminating NUL).
* The ONNX sessions, the tokenizer and the image codec are external: they are
  fields of the engine handle, functions that may throw (`Except String`).
* The callback is observed through the list of its invocations (`Event`).
-/

namespace MedGemma

/-! ## Constants (lines 99-103) -/

/-- The ids that end generation: `EOS_IDS = {1, 106}`. -/
def EOS_IDS : List Int := [1, 106]

/-- Rows of patch embeddings per image. -/
def num_patches : Nat := 256

/-- Width of one embedding row. -/
@[irreducible] def embed_dim : Nat := 2560

/-- Bytes of an ASCII literal, as a C string. -/
def cstr (s : String) : List Nat := s.toList.map Char.toNat

/-! ## Language filter (lines 118-180) -/

/-- The body of `is_english_token` on the bytes before the NUL. A lead byte
`110xxxxx` reads the following byte without checking it (`*(p + 1)`, the NUL
when the lead byte is the last one) and advances by two; the scan ends when
that step passes the NUL (what the C code reads beyond it is not modelled). -/
def is_english_token : List Nat → Bool
  | [] => true
  | [b] =>
    if b < 0x80 then true
    else if b &&& 0xE0 = 0xC0 then
      let cp := ((b &&& 0x1F) <<< 6) ||| (0 &&& 0x3F)
      if cp > 0x024F then false else true
    else if b &&& 0xF0 = 0xE0 then false
    else if b &&& 0xF8 = 0xF0 then false
    else true
  | b :: n :: rest =>
    if b < 0x80 then is_english_token (n :: rest)
    else if b &&& 0xE0 = 0xC0 then
      let cp := ((b &&& 0x1F) <<< 6) ||| (n &&& 0x3F)
      if cp > 0x024F then false else is_english_token rest
    else if b &&& 0xF0 = 0xE0 then false
    else if b &&& 0xF8 = 0xF0 then false
    else is_english_token (n :: rest)

/-- The tokenizer of the runtime: `encode` is `OgaTokenizerEncode` followed by
reading sequence 0, `decode` is `OgaTokenizerDecode` on one id (`none` when the
call fails or leaves the pointer null). -/
structure OgaTokenizer where
  encode : List Nat → List Int
  decode : Int → Option (List Nat)

/-- The entry of `g_foreign_token_cache` for the tokenizer in use: built on the
first call with that call's `vocab_size`, returned unchanged afterwards. -/
def get_foreign_mask (tok : OgaTokenizer) (vocab_size : Nat)
    (cache : Option (List Bool)) : List Bool × Option (List Bool) :=
  match cache with
  | some mask => (mask, some mask)
  | none =>
    let mask := (List.range vocab_size).map fun i =>
      match tok.decode (i : Int) with
      | some decoded => !is_english_token decoded
      | none => false
    (mask, some mask)

/-- The UTF-8 encoding of one code point (RFC 3629, section 3): one byte below
U+0080, two below U+0800, three below U+10000, four from there on. -/
def utf8_encode (cp : Nat) : List Nat :=
  if cp < 0x80 then [cp]
  else if cp < 0x800 then [0xC0 + cp / 64, 0x80 + cp % 64]
  else if cp < 0x10000 then [0xE0 + cp / 4096, 0x80 + cp / 64 % 64, 0x80 + cp % 64]
  else [0xF0 + cp / 262144, 0x80 + cp / 4096 % 64, 0x80 + cp / 64 % 64, 0x80 + cp % 64]

/-- The well-formed UTF-8 string that spells a sequence of code points. -/
def utf8_string (cps : List Nat) : List Nat :=
  cps.flatMap utf8_encode

/-! ## Sampler (lines 182-236) -/

section Sampler

variable {α : Type} [LinearOrderedField α]

/-- Lines 193-196: `penalized[i] = -1e9f` for `i` below both sizes with `foreign[i]`. -/
def mask_foreign : List α → List Bool → List α
  | [], _ => []
  | x :: xs, [] => x :: xs
  | x :: xs, f :: fs => (if f then -1000000000 else x) :: mask_foreign xs fs

/-- Lines 202-207: one entry of the generated window, in exact arithmetic
(`penalize_with` takes the arithmetic as a parameter). -/
def penalize (rep_penalty : α) (penalized : List α) (tok : Int) : List α :=
  if 0 ≤ tok ∧ tok < (penalized.length : Int) then
    if penalized.getD tok.toNat 0 > 0 then
      penalized.set tok.toNat (penalized.getD tok.toNat 0 / rep_penalty)
    else
      penalized.set tok.toNat (penalized.getD tok.toNat 0 * rep_penalty)
  else penalized

/-- Lines 200-209: the repetition penalty over the window, in order. -/
def rep_penalize (generated : Option (List Int)) (rep_penalty : α)
    (penalized : List α) : List α :=
  match generated with
  | some window =>
    if rep_penalty > 1 then window.foldl (penalize rep_penalty) penalized else penalized
  | none => penalized

/-- The scan of `std::max_element`: the running best is replaced only by a
strictly greater element. -/
def max_element_loop : List α → Nat → Nat → α → Nat
  | [], _, best, _ => best
  | x :: xs, i, best, best_val =>
    if best_val < x then max_element_loop xs (i + 1) i x
    else max_element_loop xs (i + 1) best best_val

/-- The value of `std::max_element(begin, end) - begin` (0 on an empty range). -/
def max_element : List α → Nat
  | [] => 0
  | x :: xs => max_element_loop xs 1 0 x

/-- Lines 220-224: the pairs `(exp(l / temp), i)` and their sum. -/
def exp_loop (exp : α → α) (temp : α) (penalized : List α) : List (α × Int) × α :=
  penalized.enum.foldl
    (fun acc ie => (acc.1 ++ [(exp (ie.2 / temp), (ie.1 : Int))], acc.2 + exp (ie.2 / temp)))
    ([], 0)

/-- The `operator<` of `std::pair<float, int>`. -/
def pair_lt (a b : α × Int) : Bool :=
  decide (a.1 < b.1) || (!decide (b.1 < a.1) && decide (a.2 < b.2))

/-- The order in which `std::sort(probs.rbegin(), probs.rend())` leaves the
vector: no element is `operator<` an element after it. -/
def desc (a b : α × Int) : Prop := pair_lt a b = false

instance desc_decidable : DecidableRel (desc : α × Int → α × Int → Prop) :=
  fun a b => inferInstanceAs (Decidable (pair_lt a b = false))

/-- Line 227: the sort by `operator<` on the reversed range. The pairs carry
distinct ids, so the sorted vector is the same for every sorting algorithm. -/
def sort_probs (probs : List (α × Int)) : List (α × Int) :=
  probs.insertionSort desc

/-- Lines 229-234: the first id at which the running sum is at least `p`, the
sum taken exactly (`nucleus_scan_with` takes the arithmetic as a parameter). -/
def nucleus_scan (p : α) : List (α × Int) → α → Option Int
  | [], _ => none
  | pr :: rest, cumulative =>
    if cumulative + pr.1 ≥ p then some pr.2 else nucleus_scan p rest (cumulative + pr.1)

/-- Lines 216-235 in exact arithmetic: softmax at temperature `temp`, sort,
scan; `probs[0].second` when the scan ends without a return (0 stands for the
read of an empty vector). `top_p_with` takes the arithmetic as a parameter. -/
def top_p (exp : α → α) (penalized : List α) (p temp : α) : Int :=
  let el := exp_loop exp temp penalized
  let probs := el.1.map fun pr => (pr.1 / el.2, pr.2)
  let sorted := sort_probs probs
  match nucleus_scan p sorted 0 with
  | some id => id
  | none => (sorted.head?.map Prod.snd).getD 0

/-- The function `sample_top_p`, with the tokenizer's cache entry passed in and out.
The threshold of line 212 is the `float` that the literal `0.01f` denotes,
`5368709 / 2 ^ 29`, which is below `1 / 100`. -/
def sample_top_p (exp : α → α) (logits : List α) (p temp : α)
    (generated : Option (List Int)) (rep_penalty : α)
    (tokenizer : Option OgaTokenizer) (cache : Option (List Bool)) :
    Int × Option (List Bool) :=
  let masked : List α × Option (List Bool) :=
    match tokenizer with
    | some tok =>
      let fm := get_foreign_mask tok logits.length cache
      (mask_foreign logits fm.1, fm.2)
    | none => (logits, cache)
  let penalized := rep_penalize generated rep_penalty masked.1
  if temp < 5368709 / 536870912 then ((max_element penalized : Nat), masked.2)
  else (top_p exp penalized p temp, masked.2)

/-- The vector `penalized` of `sample_top_p` once the language mask and the
repetition penalty are applied. -/
def penalized_logits (logits : List α) (generated : Option (List Int)) (rep_penalty : α)
    (tokenizer : Option OgaTokenizer) (cache : Option (List Bool)) : List α :=
  rep_penalize generated rep_penalty
    (match tokenizer with
     | some tok => mask_foreign logits (get_foreign_mask tok logits.length cache).1
     | none => logits)

/-- The softmax probability of id `i` at temperature `temp`. -/
def softmax (exp : α → α) (temp : α) (l : List α) (i : Nat) : α :=
  exp (l.getD i 0 / temp) / (l.map fun x => exp (x / temp)).sum

/-- The mass of the first `k` ids of an order. -/
def prefix_mass (prob : Nat → α) (ord : List Nat) (k : Nat) : α :=
  ((ord.take k).map prob).sum

/-- The order of step 5: probability descending, the larger id first among equals. -/
def ranks_before (prob : Nat → α) (i j : Nat) : Prop :=
  prob j < prob i ∨ (prob i = prob j ∧ j < i)

/-- The operations of `float` arithmetic that `sample_top_p` uses: `+`, `*`,
`/` and `std::exp`. -/
structure FloatOps (α : Type) where
  add : α → α → α
  mul : α → α → α
  div : α → α → α
  exp : α → α

/-- Exact arithmetic with a given exponential. -/
def exact_ops (exp : α → α) : FloatOps α :=
  ⟨fun a b => a + b, fun a b => a * b, fun a b => a / b, exp⟩

/-- Lines 202-207 with the arithmetic of `A`. -/
def penalize_with (A : FloatOps α) (rep_penalty : α) (penalized : List α) (tok : Int) :
    List α :=
  if 0 ≤ tok ∧ tok < (penalized.length : Int) then
    if penalized.getD tok.toNat 0 > 0 then
      penalized.set tok.toNat (A.div (penalized.getD tok.toNat 0) rep_penalty)
    else
      penalized.set tok.toNat (A.mul (penalized.getD tok.toNat 0) rep_penalty)
  else penalized

/-- Lines 200-209 with the arithmetic of `A`. -/
def rep_penalize_with (A : FloatOps α) (generated : Option (List Int)) (rep_penalty : α)
    (penalized : List α) : List α :=
  match generated with
  | some window =>
    if rep_penalty > 1 then window.foldl (penalize_with A rep_penalty) penalized
    else penalized
  | none => penalized

/-- Lines 220-224 with the arithmetic of `A`. -/
def exp_loop_with (A : FloatOps α) (temp : α) (penalized : List α) : List (α × Int) × α :=
  penalized.enum.foldl
    (fun acc ie =>
      (acc.1 ++ [(A.exp (A.div ie.2 temp), (ie.1 : Int))],
       A.add acc.2 (A.exp (A.div ie.2 temp))))
    ([], 0)

/-- Lines 229-234 with the arithmetic of `A`. -/
def nucleus_scan_with (A : FloatOps α) (p : α) : List (α × Int) → α → Option Int
  | [], _ => none
  | pr :: rest, cumulative =>
    if A.add cumulative pr.1 ≥ p then some pr.2
    else nucleus_scan_with A p rest (A.add cumulative pr.1)

/-- Lines 216-235 with the arithmetic of `A`. -/
def top_p_with (A : FloatOps α) (penalized : List α) (p temp : α) : Int :=
  let el := exp_loop_with A temp penalized
  let probs := el.1.map fun pr => (A.div pr.1 el.2, pr.2)
  let sorted := sort_probs probs
  match nucleus_scan_with A p sorted 0 with
  | some id => id
  | none => (sorted.head?.map Prod.snd).getD 0

/-- The function `sample_top_p` with the arithmetic of `A`: the same steps as
`sample_top_p`, every sum, product and quotient taken with `A`. -/
def sample_top_p_with (A : FloatOps α) (logits : List α) (p temp : α)
    (generated : Option (List Int)) (rep_penalty : α)
    (tokenizer : Option OgaTokenizer) (cache : Option (List Bool)) :
    Int × Option (List Bool) :=
  let masked : List α × Option (List Bool) :=
    match tokenizer with
    | some tok =>
      let fm := get_foreign_mask tok logits.length cache
      (mask_foreign logits fm.1, fm.2)
    | none => (logits, cache)
  let penalized := rep_penalize_with A generated rep_penalty masked.1
  if temp < 5368709 / 536870912 then ((max_element penalized : Nat), masked.2)
  else (top_p_with A penalized p temp, masked.2)

end Sampler

/-! ## The engine handle and what an inference leaves behind -/

/-- A runtime tensor: its shape and its elements in row-major order. -/
structure Tensor (α : Type) where
  shape : List Nat
  data : List α

/-- The outputs of one run of the decoder session: `logits`, then the 68
`present.*` tensors. -/
structure DecoderOut (α : Type) where
  logits : Tensor α
  present : List (Tensor α)

/-- The engine handle (`MedGemmaState`) with its sessions and its tokenizer
loaded. The embedding session returns the row of one id, the projection
session the `256 * embed_dim` floats that line 606 copies. -/
structure MedGemmaState (α : Type) where
  tokenizer : OgaTokenizer
  image_token_id : Int
  v_sess : List α → Except String (Tensor α)
  p_sess : Tensor α → Except String (Fin (256 * embed_dim) → α)
  e_sess : Int → Except String (Fin embed_dim → α)
  m_sess : Tensor α → Tensor Int → List (Tensor α) → Except String (DecoderOut α)

/-- What `/proc/meminfo` reports: before the vision encoder, and at a decode
step. A build without `ANDROID` behaves as with `0` everywhere. -/
structure Platform where
  avail_kb : Int
  ram_kb : Nat → Int

/-- One invocation of the callback. A token fragment is recorded with the id
it decodes and with what `check_stop` returned for it (the callback itself
receives the text only). -/
inductive Event where
  | token (id : Int) (text : List Nat) (stop : Bool)
  | diag (msg : String)
  deriving DecidableEq

/-- Whether an invocation is a token fragment. -/
def Event.isToken : Event → Bool
  | .token _ _ _ => true
  | .diag _ => false

/-- One run of the decoder session: the value of `kv_len` at the call and the inputs. -/
structure DecoderCall (α : Type) where
  kv_len : Nat
  inputs_embeds : Tensor α
  attention_mask : Tensor Int
  past : List (Tensor α)

/-- The variables of `run_medgemma_inference` from step 6 on, with the record
of the callback invocations, of the sampled ids, of the decoder runs and of
the successive values of `kv_len`. -/
structure Inference (α : Type) where
  events : List Event
  sampled : List Int
  calls : List (DecoderCall α)
  kv_hist : List Nat
  next_id : Int
  kv_len : Nat
  generated_ids : List Int
  stop_buf : List Nat
  stop_triggered : Bool
  kv : List (Tensor α)
  foreign_cache : Option (List Bool)
  thrown : Option String

/-! ## Engine loader (lines 264-360, 466-476) -/

section Loader
variable {α : Type}

/-- What the constructor of `MedGemmaState` meets in the model directory:
whether `OgaCreateConfig` and `OgaCreateModelFromConfig` return 0, the
tokenizer `OgaCreateTokenizer` yields (`none` when it fails), whether
`OgaTokenizerEncode` returns 0 on the probe, and the four sessions, each of
which may throw when it is loaded. -/
structure ModelFiles (α : Type) where
  create_config : Bool
  create_model : Bool
  create_tokenizer : Option OgaTokenizer
  encode_probe : Bool
  v_sess : Except String (List α → Except String (Tensor α))
  p_sess : Except String (Tensor α → Except String (Fin (256 * embed_dim) → α))
  e_sess : Except String (Int → Except String (Fin embed_dim → α))
  m_sess : Except String
    (Tensor α → Tensor Int → List (Tensor α) → Except String (DecoderOut α))

/-- The object the constructor leaves: the fields of `MedGemmaState`, with a
tokenizer that is null when it could not be created. -/
structure EngineHandle (α : Type) where
  tokenizer : Option OgaTokenizer
  image_token_id : Int
  v_sess : List α → Except String (Tensor α)
  p_sess : Tensor α → Except String (Fin (256 * embed_dim) → α)
  e_sess : Int → Except String (Fin embed_dim → α)
  m_sess : Tensor α → Tensor Int → List (Tensor α) → Except String (DecoderOut α)

/-- Lines 322-327: the first id of the probe that is not 2 replaces
`image_token_id`. -/
def probe_image_token : List Int → Int → Int
  | [], image_token_id => image_token_id
  | id :: rest, image_token_id =>
    if id ≠ 2 then id else probe_image_token rest image_token_id

/-- Lines 312-334, run once the tokenizer is created, from `image_token_id = -1`. -/
def discover_image_token (tok : OgaTokenizer) (encode_probe : Bool) : Int :=
  let image_token_id : Int :=
    if encode_probe then probe_image_token (tok.encode (cstr "<image>")) (-1) else -1
  if image_token_id < 0 then 255999 else image_token_id

/-- Lines 299-346: the tokenizer and the placeholder id the constructor stores. -/
def load_tokenizer (files : ModelFiles α) : Option OgaTokenizer × Int :=
  if files.create_config then
    if files.create_model then
      match files.create_tokenizer with
      | some tok => (some tok, discover_image_token tok files.encode_probe)
      | none => (none, -1)
    else (none, -1)
  else (none, -1)

/-- The constructor `MedGemmaState(path)`: the tokenizer, then the four
sessions in the order of lines 353-358; what a session load throws leaves the
constructor. -/
def MedGemmaState.new (files : ModelFiles α) : Except String (EngineHandle α) :=
  let tk := load_tokenizer files
  match files.v_sess with
  | .error e => .error e
  | .ok v =>
    match files.p_sess with
    | .error e => .error e
    | .ok p =>
      match files.e_sess with
      | .error e => .error e
      | .ok es =>
        match files.m_sess with
        | .error e => .error e
        | .ok m => .ok ⟨tk.1, tk.2, v, p, es, m⟩

/-- The function `load_medgemma_4bit`: the handle, or null when the constructor throws. -/
def load_medgemma_4bit (files : ModelFiles α) : Option (EngineHandle α) :=
  match MedGemmaState.new files with
  | .ok s => some s
  | .error _ => none

/-- The handle as `run_medgemma_inference` uses it, when its tokenizer is not null. -/
def EngineHandle.state (h : EngineHandle α) : Option (MedGemmaState α) :=
  h.tokenizer.map fun tok => ⟨tok, h.image_token_id, h.v_sess, h.p_sess, h.e_sess, h.m_sess⟩

/-- The first id of a sequence that is not BOS. -/
def first_non_bos (ids : List Int) : Option Int :=
  ids.find? fun id => decide (id ≠ 2)

/-- Model files on which every step of the constructor succeeds, with the
tokenizer and the sessions of a given handle. -/
def files_of (state : MedGemmaState α) : ModelFiles α :=
  { create_config := true, create_model := true, create_tokenizer := some state.tokenizer,
    encode_probe := true, v_sess := .ok state.v_sess, p_sess := .ok state.p_sess,
    e_sess := .ok state.e_sess, m_sess := .ok state.m_sess }

end Loader

/-! ## Stop matcher (lines 780-843) -/

/-- The configured stop strings, in order. -/
def STOP_STRINGS : List (List Nat) :=
  [ cstr "<end_of_turn>",
    cstr "<eos>",
    cstr "---END OF REPORT---",
    cstr "--- END OF REPORT ---",
    cstr "End of Report",
    cstr "end of report",
    cstr "Generated by KintaMed",
    cstr "Disclaimer:",
    cstr "DISCLAIMER:",
    cstr "Note: This AI",
    cstr "Note: This report",
    cstr "NOTE: This",
    cstr "*This report is",
    cstr "This is not medical advice",
    cstr "Confidentiality Notice" ]

/-- The constant `STOP_BUF_SIZE`. -/
def STOP_BUF_SIZE : Nat := 64

/-- Whether `std::string::find` finds the needle. -/
def str_find (hay needle : List Nat) : Bool :=
  hay.tails.any fun t => needle.isPrefixOf t

/-- The function `std::isalnum` on an ASCII byte. -/
def isalnum (c : Nat) : Bool :=
  (48 ≤ c && c ≤ 57) || (65 ≤ c && c ≤ 90) || (97 ≤ c && c ≤ 122)

/-- The function `std::tolower` on an ASCII byte. -/
def tolower (c : Nat) : Nat :=
  if 65 ≤ c ∧ c ≤ 90 then c + 32 else c

/-- Lines 825-830: the buffer with the non-alphanumeric bytes removed, lower-cased. -/
def normalize (buf : List Nat) : List Nat :=
  (buf.filter isalnum).map tolower

/-- Lines 808-811: append, and keep the last `STOP_BUF_SIZE` bytes once the
buffer is longer than twice that. -/
def stop_append (stop_buf text : List Nat) : List Nat :=
  let buf := stop_buf ++ text
  if buf.length > STOP_BUF_SIZE * 2 then buf.drop (buf.length - STOP_BUF_SIZE) else buf

/-- The lambda `check_stop`: the returned flag and the buffer it leaves. -/
def check_stop (text : Option (List Nat)) (stop_buf : List Nat) : Bool × List Nat :=
  match text with
  | none => (false, stop_buf)
  | some t =>
    let buf := stop_append stop_buf t
    if STOP_STRINGS.any (fun ss => decide (buf.length ≥ ss.length) && str_find buf ss) then
      (true, buf)
    else if str_find (normalize buf) (cstr "endofreport") then (true, buf)
    else if str_find (normalize buf) (cstr "generatedbykintamed") then (true, buf)
    else (false, buf)

/-- A byte string occurs in another as a substring. -/
def is_substring (needle hay : List Nat) : Prop :=
  ∃ pre post : List Nat, hay = pre ++ needle ++ post

/-- The normalized form in the words of the specification: the buffer
lower-cased, with every non-alphanumeric character removed. -/
def spec_normalize (buf : List Nat) : List Nat :=
  (buf.map tolower).filter isalnum

/-- The flags `check_stop` returns when the fragments are passed to it one by
one, each call on the buffer the previous call left. -/
def feed : List (List Nat) → List Nat → List Bool
  | [], _ => []
  | f :: fs, stop_buf => (check_stop (some f) stop_buf).1 :: feed fs (check_stop (some f) stop_buf).2

/-! ## Orchestrator (lines 502-1025) -/

section Orchestrator

variable {α : Type}

/-- The callback invoked with one event, when it is not null. -/
def call_back (callback : Bool) (events : List Event) (e : Event) : List Event :=
  if callback then events ++ [e] else events

/-- The out-of-memory message of lines 565-569. -/
def oom_err (avail_kb : Int) : String :=
  "[IMG_ERR] Insufficient RAM for vision encoder (" ++ toString (avail_kb / 1024) ++
    " MB free, need ~600 MB). Try closing other apps."

/-- Lines 529-653. `image` is `none` without image bytes, and otherwise what
`process_image_bytes` returned: an error message or the pixel values. Returns
the callback invocations and `projected_embeds_vec`, or what a session threw. -/
def vision_stage (state : MedGemmaState α) (plat : Platform)
    (image : Option (Except String (List α))) (callback : Bool) :
    List Event × Except String (List α) :=
  match image with
  | none => ([], .ok [])
  | some r =>
    let img_error : String := match r with | .error e => e | .ok _ => ""
    let pixel_values : List α := match r with | .error _ => [] | .ok px => px
    let ev := if img_error ≠ "" then call_back callback [] (.diag img_error) else []
    if !pixel_values.isEmpty then
      if plat.avail_kb > 0 ∧ plat.avail_kb < 600 * 1024 then
        (call_back callback ev (.diag (oom_err plat.avail_kb)), .ok [])
      else
        match state.v_sess pixel_values with
        | .error e => (ev, .error e)
        | .ok v_res =>
          match state.p_sess v_res with
          | .error e => (ev, .error e)
          | .ok proj_data => (ev, .ok (List.ofFn proj_data))
    else (ev, .ok [])

/-- Lines 657-667: BOS, then the encoding of the prompt. -/
def build_tokens (state : MedGemmaState α) (prompt : List Nat) : List Int :=
  2 :: state.tokenizer.encode prompt

/-- Lines 680-699: the fusion loop over the remaining tokens, on
`(final_embeds, attn_mask, img_injections)`. -/
def fuse_loop (state : MedGemmaState α) (projected_embeds_vec : List α) :
    List Int → List α × List Int × Nat → Except String (List α × List Int × Nat)
  | [], acc => .ok acc
  | id :: rest, (final_embeds, attn_mask, img_injections) =>
    if id = state.image_token_id then
      if !projected_embeds_vec.isEmpty then
        fuse_loop state projected_embeds_vec rest
          (final_embeds ++ projected_embeds_vec,
           attn_mask ++ List.replicate num_patches 1, img_injections + 1)
      else
        fuse_loop state projected_embeds_vec rest
          (final_embeds, attn_mask, img_injections + 1)
    else
      match state.e_sess id with
      | .error e => .error e
      | .ok e_ptr =>
        fuse_loop state projected_embeds_vec rest
          (final_embeds ++ List.ofFn e_ptr, attn_mask ++ [1], img_injections)

/-- The warning of lines 720-721. -/
def warn_not_grounded : String :=
  "[WARN] Image not grounded — <image> token missing from prompt. Output may be hallucinated."

/-- The constant `PREFILL_CHUNK`. -/
def PREFILL_CHUNK : Nat := 16

/-- Lines 742-748: the 68 empty key and value tensors. -/
def empty_kv : List (Tensor α) :=
  List.replicate 68 ⟨[1, 4, 0, 256], []⟩

/-- Lines 769-802: the variables before the first chunk. -/
def init_inference (events : List Event) (cache : Option (List Bool)) : Inference α :=
  { events := events, sampled := [], calls := [], kv_hist := [0], next_id := -1,
    kv_len := 0, generated_ids := [], stop_buf := [], stop_triggered := false,
    kv := empty_kv, foreign_cache := cache, thrown := none }

/-- The last `vs` elements of a logits tensor (`lg + tot - vs` to `lg + tot`). -/
def last_logits (logits : Tensor α) : List α :=
  let vs := logits.shape.getLastD 0
  let tot := logits.shape.prod
  (logits.data.drop (tot - vs)).take vs

/-- The call of `sample_top_p` as the orchestrator makes it, stored in `next_id`. -/
def sample_next [LinearOrderedField α] (exp : α → α) (state : MedGemmaState α) (lg : List α)
    (s : Inference α) : Inference α :=
  let r := sample_top_p exp lg (3 / 4) (29 / 100) (some s.generated_ids) (13 / 10)
    (some state.tokenizer) s.foreign_cache
  { s with next_id := r.1, sampled := s.sampled ++ [r.1], foreign_cache := r.2 }

/-- Lines 847-891: one prefill chunk. -/
def prefill_chunk [LinearOrderedField α] (exp : α → α) (state : MedGemmaState α)
    (final_embeds : List α)
    (total_prefill chunk_start : Nat) (s : Inference α) : Inference α :=
  let chunk_len := min PREFILL_CHUNK (total_prefill - chunk_start)
  let offset := chunk_start * embed_dim
  let count := chunk_len * embed_dim
  let inputs_embeds : Tensor α :=
    ⟨[1, chunk_len, embed_dim], (final_embeds.drop offset).take count⟩
  let attention_mask : Tensor Int :=
    ⟨[1, s.kv_len + chunk_len], List.replicate (s.kv_len + chunk_len) 1⟩
  let s := { s with calls := s.calls ++ [⟨s.kv_len, inputs_embeds, attention_mask, s.kv⟩] }
  match state.m_sess inputs_embeds attention_mask s.kv with
  | .error e => { s with thrown := some e }
  | .ok chunk_res =>
    let s :=
      if chunk_start + chunk_len ≥ total_prefill then
        sample_next exp state (last_logits chunk_res.logits) s
      else s
    { s with kv_len := s.kv_len + chunk_len,
             kv_hist := s.kv_hist ++ [s.kv_len + chunk_len],
             kv := chunk_res.present }

/-- Lines 845-892: the prefill loop from `chunk_start`, with a bound on the
number of iterations (`total_prefill` suffices, see `prefill_loop_fuel`). -/
def prefill_loop [LinearOrderedField α] (exp : α → α) (state : MedGemmaState α)
    (final_embeds : List α)
    (total_prefill : Nat) : Nat → Nat → Inference α → Inference α
  | 0, _, s => s
  | fuel + 1, chunk_start, s =>
    if chunk_start < total_prefill then
      let s := prefill_chunk exp state final_embeds total_prefill chunk_start s
      match s.thrown with
      | some _ => s
      | none => prefill_loop exp state final_embeds total_prefill fuel
                  (chunk_start + PREFILL_CHUNK) s
    else s

/-- Lines 911-913 and 970-972: push to the window, bounded to 128 ids. -/
def push_generated (generated_ids : List Int) (id : Int) : List Int :=
  let g := generated_ids ++ [id]
  if g.length > 128 then g.drop 1 else g

/-- Lines 914-918 and 974-978: decode the id and hand the text to the
callback when neither is null; `stop` is what `check_stop` returns for the text. -/
def emit (state : MedGemmaState α) (callback : Bool) (events : List Event)
    (id : Int) (stop : Bool) : List Event :=
  match state.tokenizer.decode id with
  | some decoded => call_back callback events (.token id decoded stop)
  | none => events

/-- Lines 909-920: the first token. -/
def first_token (state : MedGemmaState α) (callback : Bool) (s : Inference α) :
    Inference α :=
  if s.next_id ∉ EOS_IDS then
    let cs := check_stop (state.tokenizer.decode s.next_id) s.stop_buf
    { s with generated_ids := push_generated s.generated_ids s.next_id,
             events := emit state callback s.events s.next_id cs.1,
             stop_triggered := cs.1,
             stop_buf := cs.2 }
  else s

/-- Lines 926-1014: the body of the decode loop at `step`; the flag tells
whether the loop goes on (no `break`, nothing thrown). -/
def decode_step [LinearOrderedField α] (exp : α → α) (state : MedGemmaState α) (plat : Platform)
    (callback : Bool) (step : Nat) (s : Inference α) : Inference α × Bool :=
  match state.e_sess s.next_id with
  | .error e => ({ s with thrown := some e }, false)
  | .ok n_emb =>
    let inputs_embeds : Tensor α := ⟨[1, 1, embed_dim], List.ofFn n_emb⟩
    let dec_mask : List Int := List.replicate (s.kv_len + 1) 1
    let attention_mask : Tensor Int := ⟨[1, dec_mask.length], dec_mask⟩
    let s := { s with calls := s.calls ++ [⟨s.kv_len, inputs_embeds, attention_mask, s.kv⟩] }
    match state.m_sess inputs_embeds attention_mask s.kv with
    | .error e => ({ s with thrown := some e }, false)
    | .ok d_res =>
      let s := sample_next exp state (last_logits d_res.logits) s
      if s.next_id ∈ EOS_IDS then (s, false)
      else
        let cs := check_stop (state.tokenizer.decode s.next_id) s.stop_buf
        let s := { s with generated_ids := push_generated s.generated_ids s.next_id,
                          events := emit state callback s.events s.next_id cs.1,
                          stop_buf := cs.2 }
        if cs.1 then ({ s with stop_triggered := true }, false)
        else
          let s := { s with kv_len := s.kv_len + 1,
                            kv_hist := s.kv_hist ++ [s.kv_len + 1],
                            kv := d_res.present }
          if step % 20 = 0 ∧ plat.ram_kb step > 0 ∧ plat.ram_kb step < 200 * 1024 then
            ({ s with events := call_back callback s.events (.diag "[WARN] Low RAM, stopping") },
             false)
          else (s, true)

/-- Lines 923-1015: the decode loop at `step`, with `remaining` iterations
left before `step` reaches `max_tokens - 1`. -/
def decode_loop [LinearOrderedField α] (exp : α → α) (state : MedGemmaState α) (plat : Platform)
    (callback : Bool) : Nat → Nat → Inference α → Inference α
  | 0, _, s => s
  | remaining + 1, step, s =>
    if s.stop_triggered then s
    else
      let r := decode_step exp state plat callback step s
      if r.2 then decode_loop exp state plat callback remaining (step + 1) r.1 else r.1

/-- Lines 505-506: the step limit in force. -/
def effective_max_tokens (max_tokens : Int) : Int :=
  if max_tokens ≤ 0 then 512 else max_tokens

/-- Lines 1019-1024: the handler of the `try` block. -/
def catch_exception (callback : Bool) (s : Inference α) : Inference α :=
  match s.thrown with
  | some e => { s with events := call_back callback s.events (.diag ("[EXCEPTION] " ++ e)) }
  | none => s

/-- Lines 901-1015: the bail-out when the prefill produced no token, else the
first token and the decode loop. -/
def emit_and_decode [LinearOrderedField α] (exp : α → α) (state : MedGemmaState α)
    (plat : Platform) (max_tokens : Int) (callback : Bool) (s : Inference α) : Inference α :=
  if s.next_id < 0 then
    { s with events := call_back callback s.events (.diag "[ERR] Prefill failed") }
  else
    let s := first_token state callback s
    decode_loop exp state plat callback (max_tokens - 1).toNat 0 s

/-- Lines 729-1017: chunked prefill, first token and decode loop on the fused
buffer. -/
def generate [LinearOrderedField α] (exp : α → α) (state : MedGemmaState α) (plat : Platform)
    (max_tokens : Int) (callback : Bool) (final_embeds : List α)
    (s0 : Inference α) : Inference α :=
  let total_prefill := final_embeds.length / embed_dim
  let s := prefill_loop exp state final_embeds total_prefill total_prefill 0 s0
  match s.thrown with
  | some _ => s
  | none => emit_and_decode exp state plat max_tokens callback s

/-- The function `run_medgemma_inference`. `cache` is the entry of the
foreign-token cache for the handle's tokenizer when the call starts. -/
def run_medgemma_inference [LinearOrderedField α] (exp : α → α) (plat : Platform)
    (handle : Option (MedGemmaState α)) (image : Option (Except String (List α)))
    (prompt : List Nat) (max_tokens : Int) (callback : Bool)
    (cache : Option (List Bool)) : Inference α :=
  let max_tokens := effective_max_tokens max_tokens
  match handle with
  | none => init_inference (call_back callback [] (.diag "[ERR] Engine handle is null")) cache
  | some state =>
    let vs := vision_stage state plat image callback
    match vs.2 with
    | .error e => catch_exception callback { init_inference vs.1 cache with thrown := some e }
    | .ok projected_embeds_vec =>
      let tokens := build_tokens state prompt
      match fuse_loop state projected_embeds_vec tokens ([], [], 0) with
      | .error e => catch_exception callback { init_inference vs.1 cache with thrown := some e }
      | .ok (final_embeds, _, img_injections) =>
        let ev :=
          if img_injections = 0 ∧ image.isSome then
            call_back callback vs.1 (.diag warn_not_grounded)
          else vs.1
        catch_exception callback
          (generate exp state plat max_tokens callback final_embeds (init_inference ev cache))

/-! ## Vocabulary of the statements -/

/-- The row the embedding session returns for an id (no row if it throws). -/
def embed_row (state : MedGemmaState α) (id : Int) : List α :=
  match state.e_sess id with
  | .ok e_ptr => List.ofFn e_ptr
  | .error _ => []

/-- The embedding session answers on every ordinary token of the sequence. -/
def embeds_ok (state : MedGemmaState α) (tokens : List Int) : Prop :=
  ∀ id ∈ tokens, id ≠ state.image_token_id → ∃ e_ptr, state.e_sess id = .ok e_ptr

/-- The slot of one token in the fused buffer as the data model describes it:
the patch embeddings for the placeholder, one embedding row otherwise. -/
def fused_slot (state : MedGemmaState α) (patch : List α) (id : Int) : List α :=
  if id = state.image_token_id then patch else embed_row state id

/-- Number of occurrences of the placeholder id. -/
def placeholder_count (state : MedGemmaState α) (tokens : List Int) : Nat :=
  tokens.count state.image_token_id

/-- Number of tokens that are not the placeholder id. -/
def ordinary_count (state : MedGemmaState α) (tokens : List Int) : Nat :=
  (tokens.filter fun id => id ≠ state.image_token_id).length

/-- Line 732: the fused length in rows, `total_prefill`. -/
def fused_rows (final_embeds : List α) : Nat :=
  final_embeds.length / embed_dim

/-- The key length of the past a decoder run receives: the third dimension
of its first tensor. -/
def past_len (past : List (Tensor α)) : Nat :=
  match past with
  | [] => 0
  | t :: _ => t.shape.getD 2 0

/-- The 68 `present` tensors of the example decoder, of key length `K`. -/
def example_present (K : Nat) : List (Tensor α) :=
  List.replicate 68 ⟨[1, 4, K, 256], []⟩

/-- A handle for the examples: the tokenizer encodes every prompt as `ids` and
decodes every id as the text `frag`; the embedding session returns the zero
row; the decoder returns, for each new row, the logits `logits n` chosen from
the attention mask length `n`, and the past extended by the new rows; the
vision sessions throw. -/
def example_state [Zero α] (ids : List Int) (frag : List Nat)
    (logits : Nat → List α) : MedGemmaState α :=
  { tokenizer := { encode := fun _ => ids, decode := fun _ => some frag }
    image_token_id := 255999
    v_sess := fun _ => .error "no vision session"
    p_sess := fun _ => .error "no vision session"
    e_sess := fun _ => .ok fun _ => 0
    m_sess := fun e m past =>
      .ok { logits := ⟨[1, e.shape.getD 1 0, (logits m.data.length).length],
                       (List.range (e.shape.getD 1 0)).flatMap fun _ => logits m.data.length⟩
            present := example_present (past_len past + e.shape.getD 1 0) } }

/-- A platform that reports no memory figure (a build without `ANDROID`). -/
def no_meminfo : Platform := ⟨0, fun _ => 0⟩

/-- Number of token fragments among the callback invocations. -/
def token_count (events : List Event) : Nat :=
  events.countP Event.isToken

/-- The key and value tensors all have key length `K`. -/
def kv_has_len (K : Nat) (kv : List (Tensor α)) : Prop :=
  kv.length = 68 ∧ ∀ t ∈ kv, t.shape = [1, 4, K, 256]

/-- The decoder contract of section 6: the `present` tensors have the shape of
the past with the processed positions added. -/
def decoder_extends_kv (state : MedGemmaState α) : Prop :=
  ∀ (e : Tensor α) (m : Tensor Int) (past : List (Tensor α)) (out : DecoderOut α) (K n : Nat),
    state.m_sess e m past = .ok out → kv_has_len K past → e.shape = [1, n, embed_dim] →
      kv_has_len (K + n) out.present

/-- A decoder run is well-formed: the past has key length `kv_len`, and the
mask is all ones, as long as the past plus the new rows of `inputs_embeds`. -/
def call_ok (c : DecoderCall α) : Prop :=
  kv_has_len c.kv_len c.past ∧
  ∃ n, c.inputs_embeds.shape = [1, n, embed_dim] ∧
    c.inputs_embeds.data.length = n * embed_dim ∧
    c.attention_mask.shape = [1, c.kv_len + n] ∧
    c.attention_mask.data = List.replicate (c.kv_len + n) 1

/-- What the stop matcher returned for the token fragments handed to the
callback, in order. -/
def stop_flags (events : List Event) : List Bool :=
  events.filterMap fun e =>
    match e with
    | .token _ _ stop => some stop
    | .diag _ => none

/-- The record of `kv_len` never decreases and ends with the current value. -/
def hist_inv (s : Inference α) : Prop :=
  s.kv_hist.Pairwise (· ≤ ·) ∧ (∀ x ∈ s.kv_hist, x ≤ s.kv_len) ∧
    s.kv_hist.getLast? = some s.kv_len

/-- Whether the first sampled id was emitted: 1 when it is not an EOS id. -/
def first_emitted (sampled : List Int) : Nat :=
  match sampled with
  | [] => 0
  | id :: _ => if id ∈ EOS_IDS then 0 else 1

/-- The number of decode steps that ran to their end, read from the callback
invocations: the token fragments after the first `f` for which the stop
matcher returned false. -/
def completed_steps (f : Nat) (events : List Event) : Nat :=
  ((stop_flags events).drop f).count false

/-- The number of EOS ids among the sampled ids (sampled, never emitted). -/
def eos_sampled (sampled : List Int) : Nat :=
  sampled.countP fun id => id ∈ EOS_IDS

/-- The cache length accounts for the prefill and the completed decode steps. -/
def steps_inv (L f : Nat) (s : Inference α) : Prop :=
  f ≤ (stop_flags s.events).length ∧ s.kv_len = L + completed_steps f s.events

/-- The state kept between decoder runs: the cached tensors have key length
`kv_len`, and every run so far was well-formed. -/
def calls_inv (s : Inference α) : Prop :=
  kv_has_len s.kv_len s.kv ∧ ∀ c ∈ s.calls, call_ok c

/-- Lines 845-892 from the first chunk: the prefill of `total_prefill` rows. -/
def prefill [LinearOrderedField α] (exp : α → α) (state : MedGemmaState α)
    (final_embeds : List α) (total_prefill : Nat) (s0 : Inference α) : Inference α :=
  prefill_loop exp state final_embeds total_prefill total_prefill 0 s0

/-- The chunks of a sequence of `L` rows in the words of the specification, as
pairs of a start and a length: `ceil(L / 16)` chunks of 16 rows, the last one
holding what remains. -/
def spec_chunks (L : Nat) : List (Nat × Nat) :=
  (List.range ((L + 15) / 16)).map fun i => (16 * i, min 16 (L - 16 * i))

/-- What a decoder run processed: the value of `kv_len` at the call and the
input rows. -/
def chunk_view (c : DecoderCall α) : Nat × Tensor α :=
  (c.kv_len, c.inputs_embeds)

/-- The rows `[start, start + len)` of the fused buffer as an input tensor,
paired with `start`. -/
def chunk_rows (final_embeds : List α) (c : Nat × Nat) : Nat × Tensor α :=
  (c.1, ⟨[1, c.2, embed_dim], (final_embeds.drop (c.1 * embed_dim)).take (c.2 * embed_dim)⟩)

/-- The number of decode steps that sampled an id: every sampled id but the
first, which the prefill samples. -/
def decode_steps_sampled (s : Inference α) : Nat :=
  s.sampled.length - 1

/-- Whether the last decode step left the loop before line 988: it sampled an
EOS id (lines 965-968), or the stop matcher returned true for its fragment
(lines 981-985, which set `stop_triggered`). -/
def last_step_broke (s : Inference α) : Bool :=
  decide (2 ≤ s.sampled.length) &&
    ((match s.sampled.getLast? with
      | some id => decide (id ∈ EOS_IDS)
      | none => false) || s.stop_triggered)

/-- The number of decode steps that ran to their end: those that sampled an id,
less the last one when it left the loop early. -/
def completed_decode_steps (s : Inference α) : Nat :=
  decode_steps_sampled s - (if last_step_broke s then 1 else 0)

/-- Between two decode steps: every decode step so far ran to its end. -/
def running_inv (L : Nat) (s : Inference α) : Prop :=
  s.sampled ≠ [] ∧ s.kv_len = L + (s.sampled.length - 1) ∧
    (s.stop_triggered = true → s.sampled.length = 1) ∧
    (2 ≤ s.sampled.length → ∀ id, s.sampled.getLast? = some id → id ∉ EOS_IDS)

end Orchestrator

/-! # Theorems -/

section LanguageFilter

theorem is_english_token_ascii (b : Nat) (rest : List Nat) (hb : b < 0x80) :
    is_english_token (b :: rest) = is_english_token rest := by
  cases rest with
  | nil => simp [is_english_token, hb]
  | cons n rest => simp [is_english_token, hb]

theorem is_english_token_two (b n : Nat) (rest : List Nat) (hb : ¬ b < 0x80)
    (hlead : b &&& 0xE0 = 0xC0) :
    is_english_token (b :: n :: rest) =
      if ((b &&& 0x1F) <<< 6) ||| (n &&& 0x3F) > 0x024F then false
      else is_english_token rest := by
  simp [is_english_token, hb, hlead]

theorem is_english_token_three (b : Nat) (rest : List Nat) (hb : ¬ b < 0x80)
    (h2 : b &&& 0xE0 ≠ 0xC0) (h3 : b &&& 0xF0 = 0xE0) :
    is_english_token (b :: rest) = false := by
  cases rest with
  | nil => simp [is_english_token, hb, h2, h3]
  | cons n rest => simp [is_english_token, hb, h2, h3]

theorem is_english_token_four (b : Nat) (rest : List Nat) (hb : ¬ b < 0x80)
    (h2 : b &&& 0xE0 ≠ 0xC0) (h3 : b &&& 0xF0 ≠ 0xE0) (h4 : b &&& 0xF8 = 0xF0) :
    is_english_token (b :: rest) = false := by
  cases rest with
  | nil => simp [is_english_token, hb, h2, h3, h4]
  | cons n rest => simp [is_english_token, hb, h2, h3, h4]

theorem lead_two_bits : ∀ q < 32, (0xC0 + q) &&& 0xE0 = 0xC0 ∧ (0xC0 + q) &&& 0x1F = q := by
  decide

theorem continuation_bits : ∀ r < 64, (0x80 + r) &&& 0x3F = r := by
  decide

theorem lead_three_bits : ∀ q < 16, (0xE0 + q) &&& 0xE0 ≠ 0xC0 ∧ (0xE0 + q) &&& 0xF0 = 0xE0 := by
  decide

theorem lead_four_bits : ∀ q < 8, (0xF0 + q) &&& 0xE0 ≠ 0xC0 ∧ (0xF0 + q) &&& 0xF0 ≠ 0xE0 ∧
    (0xF0 + q) &&& 0xF8 = 0xF0 := by
  decide

theorem shift_or (q r : Nat) (hr : r < 64) : (q <<< 6) ||| r = q * 64 + r := by
  have h := Nat.mul_add_lt_is_or (show r < 2 ^ 6 from hr) q
  rw [Nat.shiftLeft_eq, Nat.mul_comm q, ← h]

/-- The encoder agrees with the encoder of the standard library on a code point
of each length: U+0041, U+00E9, U+4E2D, U+1F600. -/
theorem utf8_encode_samples :
    ∀ cp ∈ [0x41, 0xE9, 0x4E2D, 0x1F600],
      (String.utf8EncodeChar (Char.ofNat cp)).map UInt8.toNat = utf8_encode cp := by
  decide

/-- The filter on the encoding of one code point followed by more bytes. -/
theorem is_english_token_encode (cp : Nat) (rest : List Nat) (h0 : 0 < cp)
    (hmax : cp < 0x110000) :
    is_english_token (utf8_encode cp ++ rest) =
      if cp ≤ 0x024F then is_english_token rest else false := by
  unfold utf8_encode
  by_cases h1 : cp < 0x80
  · rw [if_pos h1, if_pos (show cp ≤ 0x024F by omega)]
    exact is_english_token_ascii cp rest h1
  · rw [if_neg h1]
    by_cases h2 : cp < 0x800
    · rw [if_pos h2]
      have hq : cp / 64 < 32 := by omega
      have hr : cp % 64 < 64 := Nat.mod_lt _ (by norm_num)
      obtain ⟨hl1, hl2⟩ := lead_two_bits (cp / 64) hq
      have hc := continuation_bits (cp % 64) hr
      have hcp : (cp / 64) * 64 + cp % 64 = cp := Nat.div_add_mod' cp 64
      show is_english_token ((0xC0 + cp / 64) :: (0x80 + cp % 64) :: rest) = _
      rw [is_english_token_two _ _ _ (by omega) hl1, hl2, hc, shift_or _ _ hr, hcp]
      by_cases h3 : cp ≤ 0x024F
      · rw [if_pos h3, if_neg (by omega)]
      · rw [if_neg h3, if_pos (by omega)]
    · rw [if_neg h2, if_neg (show ¬ cp ≤ 0x024F by omega)]
      by_cases h3 : cp < 0x10000
      · rw [if_pos h3]
        obtain ⟨hl1, hl2⟩ := lead_three_bits (cp / 4096) (by omega)
        exact is_english_token_three _ _ (by omega) hl1 hl2
      · rw [if_neg h3]
        obtain ⟨hl1, hl2, hl3⟩ := lead_four_bits (cp / 262144) (by omega)
        exact is_english_token_four _ _ (by omega) hl1 hl2 hl3

/-- C11: on the UTF-8 encoding of a sequence of code points, none of them NUL,
`is_english_token` returns true exactly when every code point is at most
U+024F: the one-byte code points and the two-byte ones up to U+024F pass, a
two-byte code point above U+024F and every three- or four-byte one blocks. -/
theorem is_english_token_iff_latin (cps : List Nat)
    (hval : ∀ cp ∈ cps, 0 < cp ∧ cp < 0x110000) :
    is_english_token (utf8_string cps) = true ↔ ∀ cp ∈ cps, cp ≤ 0x024F := by
  unfold utf8_string
  induction cps with
  | nil => simp [is_english_token]
  | cons cp cps ih =>
    have hcp := hval cp (List.mem_cons_self _ _)
    have ih2 := ih fun c hc => hval c (List.mem_cons_of_mem _ hc)
    rw [List.flatMap_cons, is_english_token_encode cp _ hcp.1 hcp.2]
    by_cases h : cp ≤ 0x024F
    · rw [if_pos h, ih2]
      simp [h]
    · rw [if_neg h]
      simp [h]

/-- C11 (witness): the string "é中", U+00E9 followed by U+4E2D, is blocked. -/
theorem is_english_token_iff_latin_witness :
    (∀ cp ∈ [0xE9, 0x4E2D], 0 < cp ∧ cp < 0x110000) ∧
    utf8_string [0xE9, 0x4E2D] = [0xC3, 0xA9, 0xE4, 0xB8, 0xAD] ∧
    is_english_token [0xC3, 0xA9, 0xE4, 0xB8, 0xAD] = false := by
  have h := is_english_token_iff_latin [0xE9, 0x4E2D] (by decide)
  have hs : utf8_string [0xE9, 0x4E2D] = [0xC3, 0xA9, 0xE4, 0xB8, 0xAD] := by decide
  refine ⟨by decide, hs, ?_⟩
  rw [← hs]
  cases hb : is_english_token (utf8_string [0xE9, 0x4E2D]) with
  | false => rfl
  | true => exact absurd (h.mp hb 0x4E2D (by simp)) (by decide)

/-- C12: the lead byte `0xC3` followed by `0xE4`, which is not a continuation
byte: the filter consumes both bytes, so the three-byte character that `0xE4`
starts is never seen and the token passes, while the bytes after the lead byte
alone are blocked. -/
theorem lead_byte_consumes_next_byte :
    0xC3 &&& 0xE0 = 0xC0 ∧ 0xE4 &&& 0xC0 ≠ 0x80 ∧
    is_english_token [0xC3, 0xE4, 0xB8, 0xAD] = true ∧
    is_english_token [0xE4, 0xB8, 0xAD] = false := by
  decide

end LanguageFilter

section StopMatcher

theorem is_prefix_of_iff (needle t : List Nat) :
    needle.isPrefixOf t = true ↔ ∃ post, t = needle ++ post := by
  induction needle generalizing t with
  | nil => simp
  | cons a as ih =>
    cases t with
    | nil => simp [List.isPrefixOf]
    | cons b bs =>
      simp only [List.isPrefixOf, Bool.and_eq_true, beq_iff_eq, ih, List.cons_append,
        List.cons.injEq]
      constructor
      · rintro ⟨rfl, post, rfl⟩
        exact ⟨post, rfl, rfl⟩
      · rintro ⟨post, rfl, rfl⟩
        exact ⟨rfl, post, rfl⟩

theorem str_find_iff (hay needle : List Nat) :
    str_find hay needle = true ↔ is_substring needle hay := by
  unfold str_find is_substring
  simp only [List.any_eq_true, List.mem_tails, is_prefix_of_iff]
  constructor
  · rintro ⟨t, ⟨pre, rfl⟩, post, rfl⟩
    exact ⟨pre, post, by simp⟩
  · rintro ⟨pre, post, rfl⟩
    exact ⟨needle ++ post, ⟨pre, by simp⟩, post, rfl⟩

theorem isalnum_tolower (c : Nat) : isalnum (tolower c) = isalnum c := by
  unfold isalnum tolower
  by_cases h : 65 ≤ c ∧ c ≤ 90
  · rw [if_pos h]
    have h1 : 97 ≤ c + 32 := by omega
    have h2 : c + 32 ≤ 122 := by omega
    simp [h.1, h.2, h1, h2]
  · rw [if_neg h]

theorem normalize_eq_spec (buf : List Nat) : normalize buf = spec_normalize buf := by
  unfold normalize spec_normalize
  induction buf with
  | nil => rfl
  | cons c cs ih =>
    simp only [List.filter_cons, List.map_cons, isalnum_tolower]
    split_ifs
    · rw [List.map_cons, ih]
    · exact ih

theorem check_stop_snd (text stop_buf : List Nat) :
    (check_stop (some text) stop_buf).2 = stop_append stop_buf text := by
  unfold check_stop
  simp only []
  split_ifs <;> rfl

theorem substring_length {needle hay : List Nat} (h : is_substring needle hay) :
    needle.length ≤ hay.length := by
  obtain ⟨pre, post, rfl⟩ := h
  simp
  omega

theorem check_stop_fst (text stop_buf : List Nat) :
    (check_stop (some text) stop_buf).1 = true ↔
      (∃ ss ∈ STOP_STRINGS, is_substring ss (stop_append stop_buf text)) ∨
      is_substring (cstr "endofreport") (spec_normalize (stop_append stop_buf text)) ∨
      is_substring (cstr "generatedbykintamed")
        (spec_normalize (stop_append stop_buf text)) := by
  rw [← normalize_eq_spec, ← str_find_iff, ← str_find_iff]
  have hlit : (STOP_STRINGS.any fun ss =>
      decide ((stop_append stop_buf text).length ≥ ss.length) &&
        str_find (stop_append stop_buf text) ss) = true ↔
      ∃ ss ∈ STOP_STRINGS, is_substring ss (stop_append stop_buf text) := by
    simp only [List.any_eq_true, Bool.and_eq_true, decide_eq_true_eq, str_find_iff]
    constructor
    · rintro ⟨ss, hm, -, h⟩
      exact ⟨ss, hm, h⟩
    · rintro ⟨ss, hm, h⟩
      exact ⟨ss, hm, substring_length h, h⟩
  rw [← hlit]
  unfold check_stop
  simp only []
  split_ifs <;> simp_all

/-- C13: on a non-null ASCII fragment `check_stop` leaves the buffer with the
fragment appended (cut to its last 64 bytes once longer than 128) and returns
true exactly when that buffer contains one of the 15 stop strings, or its
normalized form (lower-cased, non-alphanumeric characters removed) contains
"endofreport" or "generatedbykintamed". -/
theorem check_stop_iff (text stop_buf : List Nat) (hbuf : ∀ c ∈ stop_buf, 0 < c ∧ c < 128)
    (htext : ∀ c ∈ text, 0 < c ∧ c < 128) :
    STOP_STRINGS.length = 15 ∧
    (check_stop (some text) stop_buf).2 = stop_append stop_buf text ∧
    (stop_append stop_buf text =
      if (stop_buf ++ text).length > 128 then
        (stop_buf ++ text).drop ((stop_buf ++ text).length - 64)
      else stop_buf ++ text) ∧
    (∀ c ∈ stop_append stop_buf text, 0 < c ∧ c < 128) ∧
    ((check_stop (some text) stop_buf).1 = true ↔
      (∃ ss ∈ STOP_STRINGS, is_substring ss (stop_append stop_buf text)) ∨
      is_substring (cstr "endofreport") (spec_normalize (stop_append stop_buf text)) ∨
      is_substring (cstr "generatedbykintamed")
        (spec_normalize (stop_append stop_buf text))) := by
  refine ⟨rfl, check_stop_snd text stop_buf, rfl, ?_, check_stop_fst text stop_buf⟩
  intro c hc
  have hmem : c ∈ stop_buf ++ text := by
    unfold stop_append at hc
    simp only [] at hc
    split_ifs at hc
    · exact List.mem_of_mem_drop hc
    · exact hc
  rcases List.mem_append.mp hmem with h | h
  · exact hbuf c h
  · exact htext c h

/-- C13 (witness): the fragment "EOS>" after the buffer "a <", no match. -/
theorem check_stop_iff_witness :
    (∀ c ∈ cstr "a <", 0 < c ∧ c < 128) ∧ (∀ c ∈ cstr "EOS>", 0 < c ∧ c < 128) ∧
    (check_stop (some (cstr "EOS>")) (cstr "a <")).2 = cstr "a <EOS>" := by
  have h := (check_stop_iff (cstr "EOS>") (cstr "a <") (by decide) (by decide)).2.1
  exact ⟨by decide, by decide, h.trans (by decide)⟩

theorem stop_strings_nonempty : ∀ ss ∈ STOP_STRINGS, 0 < ss.length := by
  decide

theorem stop_strings_short : ∀ ss ∈ STOP_STRINGS, ss.length ≤ 26 := by
  decide

/-- The buffer `check_stop` leaves holds the end of everything appended so far:
all of it, or at least its last 64 bytes. -/
theorem stop_append_suffix (full stop_buf text : List Nat) (hsuf : stop_buf <:+ full)
    (hlen : min full.length 64 ≤ stop_buf.length) :
    stop_append stop_buf text <:+ full ++ text ∧
    min (full ++ text).length 64 ≤ (stop_append stop_buf text).length := by
  obtain ⟨pre, rfl⟩ := hsuf
  have happ : stop_buf ++ text <:+ pre ++ stop_buf ++ text := ⟨pre, by simp⟩
  unfold stop_append STOP_BUF_SIZE
  simp only []
  split_ifs with h
  · refine ⟨(List.drop_suffix _ _).trans happ, ?_⟩
    rw [List.length_drop]
    simp only [List.length_append] at h ⊢
    omega
  · refine ⟨happ, ?_⟩
    simp only [List.length_append] at hlen ⊢
    omega

/-- The buffer after the first `k` fragments. -/
theorem feed_buffer (frags : List (List Nat)) (full stop_buf : List Nat)
    (hsuf : stop_buf <:+ full) (hlen : min full.length 64 ≤ stop_buf.length) (k : Nat)
    (hk : k < frags.length) :
    ∃ b : List Nat, b <:+ full ++ (frags.take k).flatten ∧
      min (full ++ (frags.take k).flatten).length 64 ≤ b.length ∧
      (feed frags stop_buf).getD k false = (check_stop (some (frags.getD k [])) b).1 := by
  induction frags generalizing full stop_buf k with
  | nil => simp at hk
  | cons f fs ih =>
    cases k with
    | zero => exact ⟨stop_buf, by simpa using hsuf, by simpa using hlen, by simp [feed]⟩
    | succ k =>
      obtain ⟨h1, h2⟩ := stop_append_suffix full stop_buf f hsuf hlen
      obtain ⟨b, hb1, hb2, hb3⟩ := ih (full ++ f) (stop_append stop_buf f) h1 h2 k
        (by simpa using hk)
      refine ⟨b, by simpa using hb1, by simpa using hb2, ?_⟩
      simpa [feed, check_stop_snd] using hb3

/-- A stop string that the fragment `text` completes is in the buffer that
`check_stop` examines. -/
theorem completed_stop_string_kept (full stop_buf text ss : List Nat)
    (hsuf : stop_buf <:+ full) (hlen : min full.length 64 ≤ stop_buf.length)
    (htext : text.length ≤ 32) (hss : ss.length ≤ 26)
    (hocc : is_substring ss (full ++ text)) (hnot : ¬ is_substring ss full) :
    is_substring ss (stop_append stop_buf text) := by
  obtain ⟨a, b, hab⟩ := hocc
  obtain ⟨h1, h2⟩ := stop_append_suffix full stop_buf text hsuf hlen
  have hb : b.length ≤ text.length := by
    have hab2 : full ++ text = (a ++ ss) ++ b := hab
    rcases List.append_eq_append_iff.mp hab2 with ⟨c, _, hc2⟩ | ⟨c, hc1, _⟩
    · rw [hc2]
      simp
    · exact absurd ⟨a, c, hc1⟩ hnot
  have hsb : ss ++ b <:+ full ++ text := ⟨a, by rw [hab]; simp⟩
  have hle : (ss ++ b).length ≤ (stop_append stop_buf text).length := by
    have hlen2 := hsb.length_le
    simp only [List.length_append] at hlen2 h2 ⊢
    omega
  obtain ⟨x, hx⟩ := List.suffix_of_suffix_length_le hsb h1 hle
  exact ⟨x, b, by rw [← hx]; simp⟩

/-- C19: fragments of at most 32 bytes are passed to `check_stop` one by one
from the empty buffer; when the concatenation of the first `j + 1` fragments
contains one of the stop strings, one of the first `j + 1` calls returns true. -/
theorem stop_string_not_missed (frags : List (List Nat))
    (hshort : ∀ f ∈ frags, f.length ≤ 32) (ss : List Nat) (hss : ss ∈ STOP_STRINGS)
    (j : Nat) (hj : j < frags.length)
    (hocc : is_substring ss (frags.take (j + 1)).flatten) :
    ∃ i ≤ j, (feed frags []).getD i false = true := by
  induction j with
  | zero =>
    refine ⟨0, le_refl _, ?_⟩
    obtain ⟨b, hb1, hb2, hb3⟩ := feed_buffer frags [] [] (List.suffix_refl _) (by simp) 0 hj
    have hb0 : b = [] := by simpa using hb1
    subst hb0
    have hf : frags.getD 0 [] ∈ frags := by
      rw [List.getD_eq_getElem?_getD, List.getElem?_eq_getElem hj]
      exact List.getElem_mem hj
    have htake : (frags.take 1).flatten = [] ++ frags.getD 0 [] := by
      cases frags with
      | nil => simp at hj
      | cons f fs => simp
    rw [htake] at hocc
    have hnot : ¬ is_substring ss [] := by
      rintro ⟨pre, post, h⟩
      have hlen := congrArg List.length h
      have hpos : 0 < ss.length := stop_strings_nonempty ss hss
      simp at hlen
      omega
    have := completed_stop_string_kept [] [] (frags.getD 0 []) ss (List.suffix_refl _)
      (by simp) (hshort _ hf) (stop_strings_short ss hss) hocc hnot
    rw [hb3, check_stop_fst]
    exact Or.inl ⟨ss, hss, this⟩
  | succ j ih =>
    by_cases hprev : is_substring ss (frags.take (j + 1)).flatten
    · obtain ⟨i, hi, h⟩ := ih (by omega) hprev
      exact ⟨i, by omega, h⟩
    · refine ⟨j + 1, le_refl _, ?_⟩
      obtain ⟨b, hb1, hb2, hb3⟩ := feed_buffer frags [] [] (List.suffix_refl _) (by simp)
        (j + 1) hj
      have hf : frags.getD (j + 1) [] ∈ frags := by
        rw [List.getD_eq_getElem?_getD, List.getElem?_eq_getElem hj]
        exact List.getElem_mem hj
      have htake : (frags.take (j + 1 + 1)).flatten =
          (frags.take (j + 1)).flatten ++ frags.getD (j + 1) [] := by
        rw [List.take_succ, List.getD_eq_getElem?_getD, List.getElem?_eq_getElem hj]
        simp only [Option.toList, List.flatten_append, List.flatten_cons, List.flatten_nil,
          List.append_nil, Option.getD_some]
      rw [htake] at hocc
      have := completed_stop_string_kept _ b (frags.getD (j + 1) []) ss
        (by simpa using hb1) (by simpa using hb2) (hshort _ hf) (stop_strings_short ss hss)
        hocc hprev
      rw [hb3, check_stop_fst]
      exact Or.inl ⟨ss, hss, this⟩

/-- C19 (witness): "<e" then "os>" completes the stop string "<eos>" at the
second call. -/
theorem stop_string_not_missed_witness :
    (∀ f ∈ [cstr "<e", cstr "os>"], f.length ≤ 32) ∧ cstr "<eos>" ∈ STOP_STRINGS ∧
    ∃ i ≤ 1, (feed [cstr "<e", cstr "os>"] []).getD i false = true :=
  ⟨by decide, by decide,
    stop_string_not_missed [cstr "<e", cstr "os>"] (by decide) (cstr "<eos>") (by decide) 1
      (by decide) ⟨[], [], by decide⟩⟩

end StopMatcher

section SamplerTheory

variable {α : Type} [LinearOrderedField α]

theorem mask_foreign_length (l : List α) (f : List Bool) :
    (mask_foreign l f).length = l.length := by
  induction l generalizing f with
  | nil => simp [mask_foreign]
  | cons x xs ih =>
    cases f with
    | nil => simp [mask_foreign]
    | cons b bs => simp [mask_foreign, ih]

theorem penalize_length (rep : α) (l : List α) (tok : Int) :
    (penalize rep l tok).length = l.length := by
  unfold penalize
  split_ifs <;> simp

theorem rep_penalize_length (g : Option (List Int)) (rep : α) (l : List α) :
    (rep_penalize g rep l).length = l.length := by
  cases g with
  | none => rfl
  | some w =>
    simp only [rep_penalize]
    split_ifs
    · induction w generalizing l with
      | nil => rfl
      | cons t ts ih => simp [List.foldl_cons, ih, penalize_length]
    · rfl

theorem penalized_logits_length (logits : List α) (g : Option (List Int)) (rep : α)
    (tok : Option OgaTokenizer) (cache : Option (List Bool)) :
    (penalized_logits logits g rep tok cache).length = logits.length := by
  unfold penalized_logits
  rw [rep_penalize_length]
  cases tok <;> simp [mask_foreign_length]

/-- The id returned by `sample_top_p`, in terms of the penalized vector. -/
theorem sample_top_p_fst (exp : α → α) (logits : List α) (p temp : α)
    (g : Option (List Int)) (rep : α) (tok : Option OgaTokenizer)
    (cache : Option (List Bool)) :
    (sample_top_p exp logits p temp g rep tok cache).1 =
      if temp < 5368709 / 536870912 then
        ((max_element (penalized_logits logits g rep tok cache) : Nat) : Int)
      else top_p exp (penalized_logits logits g rep tok cache) p temp := by
  unfold sample_top_p penalized_logits
  cases tok <;> (simp only []; split_ifs <;> rfl)

theorem exp_loop_fold (exp : α → α) (temp : α) (l : List α) (n : Nat)
    (acc : List (α × Int) × α) :
    (l.enumFrom n).foldl
      (fun acc ie => (acc.1 ++ [(exp (ie.2 / temp), (ie.1 : Int))], acc.2 + exp (ie.2 / temp)))
      acc =
    (acc.1 ++ (l.enumFrom n).map (fun ie => (exp (ie.2 / temp), (ie.1 : Int))),
     acc.2 + (l.map fun x => exp (x / temp)).sum) := by
  induction l generalizing n acc with
  | nil => simp
  | cons x xs ih =>
    simp only [List.enumFrom_cons, List.foldl_cons, ih, List.map_cons, List.sum_cons,
      List.append_assoc, List.singleton_append, add_assoc]

/-- The normalized pairs of lines 220-226: id `i` carries its softmax probability. -/
theorem probs_eq (exp : α → α) (temp : α) (l : List α) :
    (exp_loop exp temp l).1.map (fun pr => (pr.1 / (exp_loop exp temp l).2, pr.2)) =
      (List.range l.length).map fun i => (softmax exp temp l i, (i : Int)) := by
  unfold exp_loop
  rw [List.enum_eq_enumFrom, exp_loop_fold]
  simp only [List.nil_append, zero_add, List.map_map]
  apply List.ext_getElem
  · simp
  · intro i h1 h2
    simp only [List.length_map, List.enumFrom_length] at h1
    simp [softmax, List.getD_eq_getElem?_getD, List.getElem?_eq_getElem h1]

/-- The order `desc` is the lexicographic order on pairs, reversed. -/
theorem desc_iff (a b : α × Int) : desc a b ↔ b.1 < a.1 ∨ (a.1 = b.1 ∧ b.2 ≤ a.2) := by
  unfold desc pair_lt
  rcases lt_trichotomy a.1 b.1 with h | h | h
  · simp [h, not_lt.mpr h.le, h.ne]
  · simp [h]
  · simp [h, not_lt.mpr h.le]

instance desc_total : IsTotal (α × Int) desc :=
  ⟨fun a b => by
    rw [desc_iff, desc_iff]
    rcases lt_trichotomy a.1 b.1 with h | h | h
    · exact Or.inr (Or.inl h)
    · rcases le_total a.2 b.2 with h2 | h2
      · exact Or.inr (Or.inr ⟨h.symm, h2⟩)
      · exact Or.inl (Or.inr ⟨h, h2⟩)
    · exact Or.inl (Or.inl h)⟩

instance desc_trans : IsTrans (α × Int) desc :=
  ⟨fun a b c hab hbc => by
    rw [desc_iff] at hab hbc ⊢
    rcases hab with h1 | ⟨h1, h1'⟩ <;> rcases hbc with h2 | ⟨h2, h2'⟩
    · exact Or.inl (lt_trans h2 h1)
    · exact Or.inl (h2 ▸ h1)
    · exact Or.inl (h1 ▸ h2)
    · exact Or.inr ⟨h1.trans h2, le_trans h2' h1'⟩⟩

instance desc_antisymm : IsAntisymm (α × Int) desc :=
  ⟨fun a b hab hba => by
    rw [desc_iff] at hab hba
    rcases hab with h1 | ⟨h1, h1'⟩ <;> rcases hba with h2 | ⟨h2, h2'⟩
    · exact absurd (lt_trans h1 h2) (lt_irrefl _)
    · exact absurd (h2 ▸ h1) (lt_irrefl _)
    · exact absurd (h1 ▸ h2) (lt_irrefl _)
    · exact Prod.ext h1 (le_antisymm h2' h1')⟩

/-- The sorted vector of line 227 lists the ids in the order of step 5. -/
theorem sort_probs_order (prob : Nat → α) (V : Nat) :
    ∃ ord : List Nat, ord.Perm (List.range V) ∧ ord.Pairwise (ranks_before prob) ∧
      sort_probs ((List.range V).map fun i => (prob i, (i : Int))) =
        ord.map fun i => (prob i, (i : Int)) := by
  set tag : Nat → α × Int := fun i => (prob i, (i : Int)) with htag
  set sorted := sort_probs ((List.range V).map tag) with hsorted
  have hperm : sorted.Perm ((List.range V).map tag) := List.perm_insertionSort _ _
  have hsort : sorted.Sorted desc := List.sorted_insertionSort _ _
  have hmem : ∀ pr ∈ sorted, tag pr.2.toNat = pr := by
    intro pr hpr
    obtain ⟨i, _, rfl⟩ := List.mem_map.mp (hperm.mem_iff.mp hpr)
    simp [htag]
  have hmap : sorted = (sorted.map fun pr => pr.2.toNat).map tag := by
    rw [List.map_map]
    conv_lhs => rw [← List.map_id sorted]
    exact List.map_congr_left fun pr hpr => (hmem pr hpr).symm
  have hord : (sorted.map fun pr => pr.2.toNat).Perm (List.range V) := by
    have h := hperm.map fun pr => pr.2.toNat
    rw [List.map_map] at h
    have hid : (List.range V).map ((fun pr : α × Int => pr.2.toNat) ∘ tag) = List.range V := by
      conv_rhs => rw [← List.map_id (List.range V)]
      exact List.map_congr_left fun i _ => by simp [htag]
    rwa [hid] at h
  refine ⟨sorted.map fun pr => pr.2.toNat, hord, ?_, hmap⟩
  have hnodup : (sorted.map fun pr => pr.2.toNat).Nodup :=
    hord.nodup_iff.mpr (List.nodup_range V)
  have hpw : (sorted.map fun pr => pr.2.toNat).Pairwise fun i j => desc (tag i) (tag j) := by
    rw [← List.pairwise_map, ← hmap]
    exact hsort
  refine (hpw.and hnodup).imp ?_
  intro i j ⟨hd, hne⟩
  rw [desc_iff] at hd
  rcases hd with h | ⟨h1, h2⟩
  · exact Or.inl h
  · refine Or.inr ⟨h1, ?_⟩
    simp only [htag, Nat.cast_le] at h2
    omega

/-- The scan of lines 229-234 on an order: the first position at which the
running sum reaches `p`, if there is one. -/
theorem nucleus_scan_spec (prob : Nat → α) (p : α) (ord : List Nat) (c : α) :
    (∃ k, k < ord.length ∧
        nucleus_scan p (ord.map fun i => (prob i, (i : Int))) c =
          some ((ord.getD k 0 : Nat) : Int) ∧
        p ≤ c + prefix_mass prob ord (k + 1) ∧
        ∀ j < k, c + prefix_mass prob ord (j + 1) < p) ∨
    (nucleus_scan p (ord.map fun i => (prob i, (i : Int))) c = none ∧
        ∀ k < ord.length, c + prefix_mass prob ord (k + 1) < p) := by
  induction ord generalizing c with
  | nil => right; simp [nucleus_scan]
  | cons i rest ih =>
    by_cases hge : c + prob i ≥ p
    · left
      refine ⟨0, by simp, ?_, ?_, ?_⟩
      · simp [nucleus_scan, hge]
      · simpa [prefix_mass] using hge
      · intro j hj; omega
    · have hlt : c + prob i < p := not_le.mp hge
      have hstep : ∀ k, c + prefix_mass prob (i :: rest) (k + 1 + 1) =
          c + prob i + prefix_mass prob rest (k + 1) := by
        intro k
        simp [prefix_mass, add_assoc]
      have hzero : c + prefix_mass prob (i :: rest) (0 + 1) = c + prob i := by
        simp [prefix_mass]
      rcases ih (c + prob i) with ⟨k, hk, hs, hp, hall⟩ | ⟨hs, hall⟩
      · left
        refine ⟨k + 1, by simpa using hk, ?_, ?_, ?_⟩
        · simpa [nucleus_scan, hge] using hs
        · rw [hstep]; exact hp
        · intro j hj
          cases j with
          | zero => rw [hzero]; exact hlt
          | succ j => rw [hstep]; exact hall j (by omega)
      · right
        refine ⟨by simpa [nucleus_scan, hge] using hs, ?_⟩
        intro k hk
        cases k with
        | zero => rw [hzero]; exact hlt
        | succ k => rw [hstep]; exact hall k (by simpa using hk)

/-- What `top_p` returns, in the words of step 5. -/
theorem top_p_spec (exp : α → α) (pen : List α) (p temp : α) :
    ∃ ord : List Nat, ord.Perm (List.range pen.length) ∧
      ord.Pairwise (ranks_before (softmax exp temp pen)) ∧
      ((∃ k, k < ord.length ∧ top_p exp pen p temp = (ord.getD k 0 : Nat) ∧
          p ≤ prefix_mass (softmax exp temp pen) ord (k + 1) ∧
          ∀ j < k, prefix_mass (softmax exp temp pen) ord (j + 1) < p) ∨
       ((∀ k < ord.length, prefix_mass (softmax exp temp pen) ord (k + 1) < p) ∧
          top_p exp pen p temp = (ord.headD 0 : Nat))) := by
  obtain ⟨ord, hperm, hpw, hsorted⟩ := sort_probs_order (softmax exp temp pen) pen.length
  refine ⟨ord, hperm, hpw, ?_⟩
  unfold top_p
  simp only [probs_eq, hsorted]
  rcases nucleus_scan_spec (softmax exp temp pen) p ord 0 with
    ⟨k, hk, hs, hp, hall⟩ | ⟨hs, hall⟩
  · left
    refine ⟨k, hk, by rw [hs], by simpa using hp, fun j hj => by simpa using hall j hj⟩
  · right
    refine ⟨fun k hk => by simpa using hall k hk, ?_⟩
    rw [hs]
    cases ord <;> simp

/-- The softmax probabilities of a non-empty vector sum to one. -/
theorem softmax_sum (exp : α → α) (hpos : ∀ x, 0 < exp x) (temp : α) (l : List α)
    (hne : l ≠ []) : ((List.range l.length).map (softmax exp temp l)).sum = 1 := by
  have hS : 0 < (l.map fun x => exp (x / temp)).sum := by
    cases l with
    | nil => exact absurd rfl hne
    | cons x xs =>
      simp only [List.map_cons, List.sum_cons]
      have : 0 ≤ (xs.map fun x => exp (x / temp)).sum :=
        List.sum_nonneg fun y hy => by
          obtain ⟨z, _, rfl⟩ := List.mem_map.mp hy
          exact (hpos _).le
      linarith [hpos (x / temp)]
  have hidx : (List.range l.length).map (fun i => exp (l.getD i 0 / temp)) =
      l.map fun x => exp (x / temp) := by
    apply List.ext_getElem
    · simp
    · intro i h1 h2
      simp only [List.length_map, List.length_range] at h1
      simp [List.getD_eq_getElem?_getD, List.getElem?_eq_getElem h1]
  have hdiv : (List.range l.length).map (softmax exp temp l) =
      (List.range l.length).map
        (fun i => exp (l.getD i 0 / temp) * ((l.map fun x => exp (x / temp)).sum)⁻¹) := by
    apply List.map_congr_left
    intro i _
    simp [softmax, div_eq_mul_inv]
  rw [hdiv, List.sum_map_mul_right, hidx]
  exact mul_inv_cancel₀ hS.ne'

/-- The id `top_p` returns when `0 < p ≤ 1` and the exponential is positive:
the last id of the nucleus. -/
theorem top_p_nucleus (exp : α → α) (hpos : ∀ x, 0 < exp x) (pen : List α) (p temp : α)
    (hne : pen ≠ []) (hp0 : 0 < p) (hp1 : p ≤ 1) :
    ∃ (rest : List Nat) (r : Nat),
      top_p exp pen p temp = (r : Int) ∧
      (rest ++ [r]).Nodup ∧ (∀ i ∈ rest ++ [r], i < pen.length) ∧
      p ≤ ((rest ++ [r]).map (softmax exp temp pen)).sum ∧
      (rest.map (softmax exp temp pen)).sum < p ∧
      (∀ i ∈ rest, softmax exp temp pen r ≤ softmax exp temp pen i) ∧
      (∀ j < pen.length, j ∉ rest ++ [r] →
        softmax exp temp pen j ≤ softmax exp temp pen r) ∧
      ((∃ i < pen.length, p ≤ softmax exp temp pen i) →
        rest = [] ∧ ∀ j < pen.length, softmax exp temp pen j ≤ softmax exp temp pen r) := by
  obtain ⟨ord, hperm, hpw, h⟩ := top_p_spec exp pen p temp
  have hlen : ord.length = pen.length := by simpa using hperm.length_eq
  have hpos_len : 0 < pen.length := List.length_pos.mpr hne
  have hle : ∀ {x y : Nat}, ranks_before (softmax exp temp pen) x y →
      softmax exp temp pen y ≤ softmax exp temp pen x := by
    intro x y hxy
    rcases hxy with h1 | ⟨h1, _⟩
    · exact h1.le
    · exact h1.ge
  rcases h with ⟨k, hk, hres, hmass, hall⟩ | ⟨hall, _⟩
  · have htake : ord.take (k + 1) = ord.take k ++ [ord.getD k 0] := by
      rw [List.take_succ, List.getD_eq_getElem?_getD, List.getElem?_eq_getElem hk]
      simp
    have hnodup : ord.Nodup := hperm.nodup_iff.mpr (List.nodup_range _)
    have hmemk : ord.getD k 0 ∈ ord.drop k := by
      rw [List.getD_eq_getElem?_getD, List.getElem?_eq_getElem hk]
      simp only [Option.getD_some]
      rw [List.drop_eq_getElem_cons hk]
      exact List.mem_cons_self _ _
    have hrestle : ∀ i ∈ ord.take k, softmax exp temp pen (ord.getD k 0) ≤
        softmax exp temp pen i := fun i hi =>
      hle (List.Sorted.rel_of_mem_take_of_mem_drop hpw hi hmemk)
    have hout : ∀ j < pen.length, j ∉ ord.take k ++ [ord.getD k 0] →
        softmax exp temp pen j ≤ softmax exp temp pen (ord.getD k 0) := by
      intro j hj hnot
      rw [← htake] at hnot
      have hjord : j ∈ ord := hperm.mem_iff.mpr (List.mem_range.mpr hj)
      rw [← List.take_append_drop (k + 1) ord, List.mem_append] at hjord
      have hjd : j ∈ ord.drop (k + 1) := hjord.resolve_left hnot
      have hrt : ord.getD k 0 ∈ ord.take (k + 1) := by rw [htake]; simp
      exact hle (List.Sorted.rel_of_mem_take_of_mem_drop hpw hrt hjd)
    refine ⟨ord.take k, ord.getD k 0, hres, ?_, ?_, ?_, ?_, hrestle, hout, ?_⟩
    · rw [← htake]; exact hnodup.sublist (List.take_sublist _ _)
    · intro i hi
      rw [← htake] at hi
      exact List.mem_range.mp (hperm.mem_iff.mp (List.mem_of_mem_take hi))
    · rw [← htake]; exact hmass
    · cases k with
      | zero => simpa using hp0
      | succ k => exact hall k (Nat.lt_succ_self k)
    · rintro ⟨i, hi, hpi⟩
      have hk0 : k = 0 := by
        by_contra hk0
        have h0 := hall 0 (Nat.pos_of_ne_zero hk0)
        have hhead : ord.take 1 = [ord.getD 0 0] := by
          cases ord with
          | nil => simp at hk
          | cons a as => simp
        have hiord : i ∈ ord := hperm.mem_iff.mpr (List.mem_range.mpr hi)
        have hile : softmax exp temp pen i ≤ softmax exp temp pen (ord.getD 0 0) := by
          cases ord with
          | nil => simp at hk
          | cons a as =>
            simp only [List.getD_cons_zero]
            rcases List.mem_cons.mp hiord with rfl | hmem
            · exact le_refl _
            · exact hle (List.rel_of_pairwise_cons hpw hmem)
        simp only [prefix_mass, zero_add, hhead, List.map_cons, List.map_nil, List.sum_cons,
          List.sum_nil, add_zero] at h0
        linarith
      subst hk0
      refine ⟨by simp, ?_⟩
      intro j hj
      by_cases hjr : j = ord.getD 0 0
      · rw [hjr]
      · exact hout j hj (by simpa using hjr)
  · exfalso
    have hlast := hall (ord.length - 1) (by omega)
    have hfull : prefix_mass (softmax exp temp pen) ord (ord.length - 1 + 1) = 1 := by
      have : ord.length - 1 + 1 = ord.length := by omega
      rw [this, prefix_mass, List.take_length, (hperm.map _).sum_eq]
      exact softmax_sum exp hpos temp pen hne
    rw [hfull] at hlast
    exact absurd hp1 (not_le.mpr hlast)

/-- C2 (as amended): above the greedy threshold and for `0 < p ≤ 1`,
`sample_top_p` returns the last id of the nucleus, the id at which the
cumulative mass in descending order of probability first reaches `p`: every
other id of the nucleus has a softmax probability at least as large, every id
outside at most as large. The id is one of maximal probability when some
single probability is at least `p` (the nucleus is then that id alone). -/
theorem sample_top_p_returns_nucleus_last (logits : List ℝ) (p temp : ℝ)
    (g : Option (List Int)) (rep : ℝ) (tok : Option OgaTokenizer)
    (cache : Option (List Bool)) (hne : logits ≠ []) (htemp : temp ≥ 1 / 100)
    (hp0 : 0 < p) (hp1 : p ≤ 1) :
    ∃ (rest : List Nat) (r : Nat),
      (sample_top_p Real.exp logits p temp g rep tok cache).1 = (r : Int) ∧
      (rest ++ [r]).Nodup ∧ (∀ i ∈ rest ++ [r], i < logits.length) ∧
      p ≤ ((rest ++ [r]).map
        (softmax Real.exp temp (penalized_logits logits g rep tok cache))).sum ∧
      (rest.map (softmax Real.exp temp (penalized_logits logits g rep tok cache))).sum < p ∧
      (∀ i ∈ rest, softmax Real.exp temp (penalized_logits logits g rep tok cache) r ≤
        softmax Real.exp temp (penalized_logits logits g rep tok cache) i) ∧
      (∀ j < logits.length, j ∉ rest ++ [r] →
        softmax Real.exp temp (penalized_logits logits g rep tok cache) j ≤
          softmax Real.exp temp (penalized_logits logits g rep tok cache) r) ∧
      ((∃ i < logits.length,
          p ≤ softmax Real.exp temp (penalized_logits logits g rep tok cache) i) →
        rest = [] ∧ ∀ j < logits.length,
          softmax Real.exp temp (penalized_logits logits g rep tok cache) j ≤
            softmax Real.exp temp (penalized_logits logits g rep tok cache) r) := by
  have hpen : penalized_logits logits g rep tok cache ≠ [] := by
    intro h0
    have := penalized_logits_length logits g rep tok cache
    rw [h0] at this
    exact hne (List.length_eq_zero.mp this.symm)
  have h := top_p_nucleus Real.exp Real.exp_pos (penalized_logits logits g rep tok cache)
    p temp hpen hp0 hp1
  rw [penalized_logits_length] at h
  rw [sample_top_p_fst, if_neg (not_lt.mpr (le_trans (by norm_num) htemp))]
  exact h

theorem exp_one_lt_three : Real.exp 1 < 3 := by
  have := Real.exp_one_lt_d9
  linarith

theorem one_lt_exp_one : 1 < Real.exp 1 := by
  have := Real.exp_one_gt_d9
  linarith

theorem softmax_two_0 :
    softmax Real.exp (29 / 100) [0, 29 / 100] 0 = (1 + Real.exp 1)⁻¹ := by
  simp [softmax]

theorem softmax_two_1 :
    softmax Real.exp (29 / 100) [0, 29 / 100] 1 = Real.exp 1 / (1 + Real.exp 1) := by
  simp [softmax]

theorem softmax_two_lt :
    softmax Real.exp (29 / 100) [0, 29 / 100] 0 < softmax Real.exp (29 / 100) [0, 29 / 100] 1 := by
  rw [softmax_two_0, softmax_two_1, ← one_div]
  exact div_lt_div_of_pos_right one_lt_exp_one (by linarith [one_lt_exp_one])

/-- The scan on the logits `[0, 0.29]` at `p = 0.75`, `temp = 0.29`: id 1 has
mass `e / (1 + e) < 0.75`, so the scan passes it and returns id 0. -/
theorem top_p_two : top_p Real.exp [0, 29 / 100] (3 / 4) (29 / 100) = 0 := by
  unfold top_p
  simp only [probs_eq]
  have h3 := exp_one_lt_three
  have h1 := one_lt_exp_one
  have hpos : (0 : ℝ) < 1 + Real.exp 1 := by linarith
  have hlt := softmax_two_lt
  rw [softmax_two_0, softmax_two_1] at hlt
  have hd : ¬ desc ((1 + Real.exp 1)⁻¹, (0 : Int))
      (Real.exp 1 / (1 + Real.exp 1), (1 : Int)) := by
    rw [desc_iff]
    simp only [not_or, not_lt, not_and]
    exact ⟨hlt.le, fun h => absurd h hlt.ne⟩
  have hs : sort_probs ((List.range ([0, 29 / 100] : List ℝ).length).map fun i =>
      (softmax Real.exp (29 / 100) [0, 29 / 100] i, (i : Int))) =
      [(Real.exp 1 / (1 + Real.exp 1), 1), ((1 + Real.exp 1)⁻¹, 0)] := by
    simp [List.range_succ, softmax_two_0, softmax_two_1, sort_probs, List.insertionSort,
      List.orderedInsert, hd]
  rw [hs]
  have hn : ¬ (3 / 4 : ℝ) ≤ Real.exp 1 / (1 + Real.exp 1) := by
    rw [not_le, div_lt_iff₀ hpos]; linarith
  have hsum : (3 / 4 : ℝ) ≤ Real.exp 1 / (1 + Real.exp 1) + (1 + Real.exp 1)⁻¹ := by
    rw [← one_div, ← add_div, add_comm, div_self hpos.ne']; norm_num
  simp [nucleus_scan, hn, hsum]

/-- The scan on four equal logits: the ids come in the order 3, 2, 1, 0 with
mass 1/4 each, and the running sum reaches 0.75 at id 1. -/
theorem top_p_zeros : top_p Real.exp [0, 0, 0, 0] (3 / 4) (29 / 100) = 1 := by
  unfold top_p
  simp only [probs_eq]
  have hs : ∀ i, softmax Real.exp (29 / 100) [0, 0, 0, 0] i = 1 / 4 := by
    intro i
    rcases i with _ | _ | _ | _ | i <;> simp [softmax] <;> norm_num
  have hsort : sort_probs ((List.range ([0, 0, 0, 0] : List ℝ).length).map fun i =>
      (softmax Real.exp (29 / 100) [0, 0, 0, 0] i, (i : Int))) =
      [(1 / 4, 3), (1 / 4, 2), (1 / 4, 1), (1 / 4, 0)] := by
    simp only [hs]
    simp [List.range_succ, sort_probs, List.insertionSort, List.orderedInsert, desc_iff]
  rw [hsort]
  norm_num [nucleus_scan]

/-- The scan on the logits `[0.29, 0, 0, 0]`: the order is 0, 3, 2, 1 with
masses `e / (e + 3)` and `1 / (e + 3)`, and the running sum reaches 0.75 at id 2. -/
theorem top_p_one_hot : top_p Real.exp [29 / 100, 0, 0, 0] (3 / 4) (29 / 100) = 2 := by
  unfold top_p
  simp only [probs_eq]
  have h3 := exp_one_lt_three
  have h1 := one_lt_exp_one
  have hpos : (0 : ℝ) < Real.exp 1 + 3 := by linarith
  have hs0 : softmax Real.exp (29 / 100) [29 / 100, 0, 0, 0] 0 =
      Real.exp 1 / (Real.exp 1 + 3) := by
    simp [softmax]; ring_nf
  have hs : ∀ i, 0 < i →
      softmax Real.exp (29 / 100) [29 / 100, 0, 0, 0] i = (Real.exp 1 + 3)⁻¹ := by
    intro i hi
    rcases i with _ | _ | _ | _ | i <;> simp [softmax] at hi ⊢ <;> ring_nf
  have hlt : (Real.exp 1 + 3)⁻¹ < Real.exp 1 / (Real.exp 1 + 3) := by
    rw [← one_div]; exact div_lt_div_of_pos_right h1 hpos
  have hsort : sort_probs ((List.range ([29 / 100, 0, 0, 0] : List ℝ).length).map fun i =>
      (softmax Real.exp (29 / 100) [29 / 100, 0, 0, 0] i, (i : Int))) =
      [(Real.exp 1 / (Real.exp 1 + 3), 0), ((Real.exp 1 + 3)⁻¹, 3),
       ((Real.exp 1 + 3)⁻¹, 2), ((Real.exp 1 + 3)⁻¹, 1)] := by
    simp only [List.length_cons, List.length_nil, List.range_succ, List.range_zero,
      List.nil_append, List.cons_append, List.map_cons, List.map_nil]
    rw [hs0, hs 1 (by norm_num), hs 2 (by norm_num), hs 3 (by norm_num)]
    simp [sort_probs, List.insertionSort, List.orderedInsert, desc_iff, hlt, hlt.le, hlt.ne']
  rw [hsort]
  have hn1 : ¬ (3 / 4 : ℝ) ≤ Real.exp 1 / (Real.exp 1 + 3) := by
    rw [not_le, div_lt_iff₀ hpos]; linarith
  have hn2 : ¬ (3 / 4 : ℝ) ≤ Real.exp 1 / (Real.exp 1 + 3) + (Real.exp 1 + 3)⁻¹ := by
    rw [not_le, ← one_div, ← add_div, div_lt_iff₀ hpos]; linarith
  have hn3 : (3 / 4 : ℝ) ≤
      Real.exp 1 / (Real.exp 1 + 3) + (Real.exp 1 + 3)⁻¹ + (Real.exp 1 + 3)⁻¹ := by
    rw [← one_div, ← add_div, ← add_div, le_div_iff₀ hpos]; linarith
  simp [nucleus_scan, hn1, hn2, hn3]

/-- C2 (counterexample): on the logits `[0, 0.29]` with `p = 0.75` and
`temp = 0.29` the sampler returns id 0, whose softmax probability is smaller
than that of id 1. -/
theorem sample_top_p_not_highest :
    (sample_top_p Real.exp [0, 29 / 100] (3 / 4) (29 / 100) none (13 / 10) none none).1 = 0 ∧
    softmax Real.exp (29 / 100)
        (penalized_logits [0, 29 / 100] none (13 / 10) none none) 0 <
      softmax Real.exp (29 / 100)
        (penalized_logits [0, 29 / 100] none (13 / 10) none none) 1 := by
  have hpen : penalized_logits ([0, 29 / 100] : List ℝ) none (13 / 10) none none =
      [0, 29 / 100] := rfl
  refine ⟨?_, by rw [hpen]; exact softmax_two_lt⟩
  rw [sample_top_p_fst, if_neg (by norm_num), hpen]
  exact top_p_two

/-- C2 (witness): the same logits, where the nucleus is `[1, 0]`. -/
theorem sample_top_p_returns_nucleus_last_witness :
    ([0, 29 / 100] : List ℝ) ≠ [] ∧ (29 / 100 : ℝ) ≥ 1 / 100 ∧ (0 : ℝ) < 3 / 4 ∧
    (3 / 4 : ℝ) ≤ 1 ∧
    ∃ (rest : List Nat) (r : Nat),
      (sample_top_p Real.exp [0, 29 / 100] (3 / 4) (29 / 100) none (13 / 10) none none).1 =
        (r : Int) ∧
      ∀ i ∈ rest, softmax Real.exp (29 / 100)
          (penalized_logits [0, 29 / 100] none (13 / 10) none none) r ≤
        softmax Real.exp (29 / 100)
          (penalized_logits [0, 29 / 100] none (13 / 10) none none) i := by
  refine ⟨by simp, by norm_num, by norm_num, by norm_num, ?_⟩
  obtain ⟨rest, r, h1, _, _, _, _, h6, _⟩ :=
    sample_top_p_returns_nucleus_last [0, 29 / 100] (3 / 4) (29 / 100) none (13 / 10) none none
      (by simp) (by norm_num) (by norm_num) (by norm_num)
  exact ⟨rest, r, h1, h6⟩

/-! ### The greedy branch, the range of the result, the repetition penalty -/

theorem max_element_loop_spec (pre xs : List α) (best : Nat) (bv : α)
    (hb : best < pre.length) (hbv : pre.getD best 0 = bv)
    (hle : ∀ j < pre.length, pre.getD j 0 ≤ bv) (hlt : ∀ j < best, pre.getD j 0 < bv) :
    max_element_loop xs pre.length best bv < (pre ++ xs).length ∧
    (∀ j < (pre ++ xs).length, (pre ++ xs).getD j 0 ≤
      (pre ++ xs).getD (max_element_loop xs pre.length best bv) 0) ∧
    ∀ j < max_element_loop xs pre.length best bv, (pre ++ xs).getD j 0 <
      (pre ++ xs).getD (max_element_loop xs pre.length best bv) 0 := by
  induction xs generalizing pre best bv with
  | nil =>
    simp only [max_element_loop, List.append_nil]
    exact ⟨hb, fun j hj => hbv ▸ hle j hj, fun j hj => hbv ▸ hlt j hj⟩
  | cons x xs ih =>
    have happ : pre ++ x :: xs = (pre ++ [x]) ++ xs := by simp
    have hlen : (pre ++ [x]).length = pre.length + 1 := by simp
    have hold : ∀ j < pre.length, (pre ++ [x]).getD j 0 = pre.getD j 0 := fun j hj =>
      List.getD_append _ _ _ _ hj
    have hnew : (pre ++ [x]).getD pre.length 0 = x := by
      rw [List.getD_append_right _ _ _ _ (le_refl _)]; simp
    rw [happ]
    unfold max_element_loop
    split_ifs with hx
    · have := ih (pre ++ [x]) pre.length x (by simp) hnew
        (fun j hj => by
          rw [hlen] at hj
          rcases Nat.lt_succ_iff_lt_or_eq.mp hj with h | h
          · rw [hold j h]; exact (lt_of_le_of_lt (hle j h) hx).le
          · rw [h, hnew])
        (fun j hj => by rw [hold j hj]; exact lt_of_le_of_lt (hle j hj) hx)
      rwa [hlen] at this
    · have := ih (pre ++ [x]) best bv (by simp; omega) (by rw [hold best hb]; exact hbv)
        (fun j hj => by
          rw [hlen] at hj
          rcases Nat.lt_succ_iff_lt_or_eq.mp hj with h | h
          · rw [hold j h]; exact hle j h
          · rw [h, hnew]; exact not_lt.mp hx)
        (fun j hj => by rw [hold j (lt_trans hj hb)]; exact hlt j hj)
      rwa [hlen] at this

/-- The index `std::max_element` returns on a non-empty vector: the first maximum. -/
theorem max_element_spec (l : List α) (hne : l ≠ []) :
    max_element l < l.length ∧ (∀ j < l.length, l.getD j 0 ≤ l.getD (max_element l) 0) ∧
    ∀ j < max_element l, l.getD j 0 < l.getD (max_element l) 0 := by
  cases l with
  | nil => exact absurd rfl hne
  | cons x xs =>
    have := max_element_loop_spec [x] xs 0 x (by simp) (by simp)
      (fun j hj => by
        have : j = 0 := by simpa using hj
        subst this; simp)
      (fun j hj => by omega)
    simpa [max_element] using this

/-- The id `top_p` returns on a non-empty vector is an index of the vector. -/
theorem top_p_range (exp : α → α) (pen : List α) (p temp : α) (hne : pen ≠ []) :
    ∃ r : Nat, top_p exp pen p temp = (r : Int) ∧ r < pen.length := by
  obtain ⟨ord, hperm, _, h⟩ := top_p_spec exp pen p temp
  have hlen : ord.length = pen.length := by simpa using hperm.length_eq
  have hmem : ∀ k < ord.length, ord.getD k 0 < pen.length := by
    intro k hk
    have : ord.getD k 0 ∈ ord := by
      rw [List.getD_eq_getElem?_getD, List.getElem?_eq_getElem hk]
      exact List.getElem_mem hk
    exact List.mem_range.mp (hperm.mem_iff.mp this)
  have hpos : 0 < ord.length := hlen ▸ List.length_pos.mpr hne
  rcases h with ⟨k, hk, hres, _⟩ | ⟨_, hres⟩
  · exact ⟨_, hres, hmem k hk⟩
  · refine ⟨_, hres, ?_⟩
    have := hmem 0 hpos
    cases ord with
    | nil => simp at hpos
    | cons a as => simpa using this

/-- C20: on a non-empty vector of length `V` the id `sample_top_p` returns is in
`[0, V)`, for every threshold, temperature, window, penalty and language mask;
a window id that is negative or at least the length of the vector leaves the
vector as it is. -/
theorem sample_top_p_in_range (exp : α → α) (logits : List α) (p temp : α)
    (g : Option (List Int)) (rep : α) (tok : Option OgaTokenizer)
    (cache : Option (List Bool)) (hne : logits ≠ []) :
    0 ≤ (sample_top_p exp logits p temp g rep tok cache).1 ∧
    (sample_top_p exp logits p temp g rep tok cache).1 < (logits.length : Int) ∧
    (∀ (pen : List α) (id : Int), id < 0 ∨ (pen.length : Int) ≤ id →
      penalize rep pen id = pen) ∧
    (penalized_logits logits g rep tok cache).length = logits.length := by
  have hlen := penalized_logits_length logits g rep tok cache
  have hpen : penalized_logits logits g rep tok cache ≠ [] := by
    intro h0
    rw [h0] at hlen
    exact hne (List.length_eq_zero.mp hlen.symm)
  have hign : ∀ (pen : List α) (id : Int), id < 0 ∨ (pen.length : Int) ≤ id →
      penalize rep pen id = pen := by
    intro pen id hid
    unfold penalize
    rw [if_neg]
    omega
  rw [sample_top_p_fst]
  split_ifs with ht
  · have h1 := (max_element_spec _ hpen).1
    rw [hlen] at h1
    exact ⟨by positivity, by exact_mod_cast h1, hign, hlen⟩
  · obtain ⟨r, hr, hlt⟩ := top_p_range exp _ p temp hpen
    rw [hlen] at hlt
    rw [hr]
    exact ⟨by positivity, by exact_mod_cast hlt, hign, hlen⟩

/-- C20 (witness): a window with a negative id and an id beyond the vector. -/
theorem sample_top_p_in_range_witness :
    ([0, 29 / 100] : List ℚ) ≠ [] ∧
    0 ≤ (sample_top_p (fun x => 1 + x) ([0, 29 / 100] : List ℚ) (3 / 4) (29 / 100)
      (some [-1, 7]) (13 / 10) none none).1 ∧
    (sample_top_p (fun x => 1 + x) ([0, 29 / 100] : List ℚ) (3 / 4) (29 / 100)
      (some [-1, 7]) (13 / 10) none none).1 < 2 := by
  have h := sample_top_p_in_range (fun x => 1 + x) ([0, 29 / 100] : List ℚ) (3 / 4) (29 / 100)
    (some [-1, 7]) (13 / 10) none none (by simp)
  exact ⟨by simp, h.1, by simpa using h.2.1⟩

theorem penalize_getD (rep : α) (m : List α) (t : Int) (i : Nat) (hi : i < m.length) :
    (penalize rep m t).getD i 0 =
      if t = (i : Int) then
        (if m.getD i 0 > 0 then m.getD i 0 / rep else m.getD i 0 * rep)
      else m.getD i 0 := by
  unfold penalize
  by_cases ht : t = (i : Int)
  · subst ht
    have hr : 0 ≤ (i : Int) ∧ (i : Int) < (m.length : Int) := ⟨by positivity, by exact_mod_cast hi⟩
    rw [if_pos hr, if_pos rfl]
    simp only [Int.toNat_ofNat]
    split_ifs <;> simp [List.getD_eq_getElem?_getD, List.getElem?_set, hi]
  · rw [if_neg ht]
    split_ifs with h1 h2
    · have hne : t.toNat ≠ i := by omega
      simp [List.getD_eq_getElem?_getD, List.getElem?_set, hne]
    · have hne : t.toNat ≠ i := by omega
      simp [List.getD_eq_getElem?_getD, List.getElem?_set, hne]
    · rfl

theorem foldl_penalize_getD (rep : α) (hrep : rep > 1) (window : List Int) (m : List α)
    (i : Nat) (hi : i < m.length) :
    (window.foldl (penalize rep) m).getD i 0 =
      if m.getD i 0 > 0 then m.getD i 0 / rep ^ window.count (i : Int)
      else m.getD i 0 * rep ^ window.count (i : Int) := by
  have hpos : (0 : α) < rep := lt_trans zero_lt_one hrep
  induction window generalizing m with
  | nil => simp
  | cons t ts ih =>
    rw [List.foldl_cons, ih (penalize rep m t) (by rw [penalize_length]; exact hi),
      penalize_getD rep m t i hi]
    by_cases ht : t = (i : Int)
    · subst ht
      simp only [if_true, List.count_cons_self]
      by_cases hl : m.getD i 0 > 0
      · have : m.getD i 0 / rep > 0 := div_pos hl hpos
        rw [if_pos hl, if_pos this, if_pos hl, pow_succ, div_div, mul_comm]
      · have : ¬ m.getD i 0 * rep > 0 := by
          have := mul_nonpos_of_nonpos_of_nonneg (not_lt.mp hl) hpos.le
          exact not_lt.mpr this
        rw [if_neg hl, if_neg this, if_neg hl, pow_succ, mul_assoc, mul_comm rep]
    · have hc : (t == (i : Int)) = false := by simpa using ht
      rw [if_neg ht, List.count_cons, hc]
      simp

/-- C15: with `ρ > 1` the repetition penalty takes the entries of the window in
order; an entry in range divides the current logit of its id by `ρ` when that
logit is positive and multiplies it by `ρ` otherwise, and touches no other id.
An id that occurs `k` times in the window and has masked logit `l` ends at
`l / ρ ^ k` when `l > 0` and at `l * ρ ^ k` otherwise; an id that is not in the
window keeps its masked logit. -/
theorem repetition_penalty_powers (rep : α) (hrep : rep > 1) (window : List Int)
    (masked : List α) (i : Nat) (hi : i < masked.length) :
    (∀ (t : Int) (ts : List Int), rep_penalize (some (t :: ts)) rep masked =
      rep_penalize (some ts) rep (penalize rep masked t)) ∧
    (∀ t : Int, (penalize rep masked t).getD i 0 =
      if t = (i : Int) then
        (if masked.getD i 0 > 0 then masked.getD i 0 / rep else masked.getD i 0 * rep)
      else masked.getD i 0) ∧
    (rep_penalize (some window) rep masked).getD i 0 =
      (if masked.getD i 0 > 0 then masked.getD i 0 / rep ^ window.count (i : Int)
       else masked.getD i 0 * rep ^ window.count (i : Int)) ∧
    ((i : Int) ∉ window →
      (rep_penalize (some window) rep masked).getD i 0 = masked.getD i 0) := by
  have hmain := foldl_penalize_getD rep hrep window masked i hi
  refine ⟨fun t ts => by simp [rep_penalize, hrep], fun t => penalize_getD rep masked t i hi,
    by simpa [rep_penalize, hrep] using hmain, fun hnot => ?_⟩
  have hc : window.count (i : Int) = 0 := List.count_eq_zero.mpr hnot
  simp only [rep_penalize, if_pos hrep, hmain, hc, pow_zero, div_one, mul_one, ite_self]

/-- C15 (witness): the penalty of the orchestrator, id 1 twice in the window. -/
theorem repetition_penalty_powers_witness :
    (13 / 10 : ℚ) > 1 ∧ 1 < ([-2, 3, 5] : List ℚ).length ∧
    (rep_penalize (some [1, 7, 1]) (13 / 10) ([-2, 3, 5] : List ℚ)).getD 1 0 =
      3 / (13 / 10) ^ 2 := by
  have h := (repetition_penalty_powers (13 / 10 : ℚ) (by norm_num) [1, 7, 1] [-2, 3, 5] 1
    (by simp)).2.2.1
  refine ⟨by norm_num, by simp, ?_⟩
  rw [h]
  simp

/-! ### The greedy threshold -/

theorem nucleus_scan_with_exact (exp : α → α) (p : α) (l : List (α × Int)) (c : α) :
    nucleus_scan_with (exact_ops exp) p l c = nucleus_scan p l c := by
  induction l generalizing c with
  | nil => rfl
  | cons pr rest ih =>
    simp only [nucleus_scan_with, nucleus_scan, exact_ops]
    split_ifs
    · rfl
    · exact ih _

/-- With exact arithmetic `sample_top_p_with` is `sample_top_p`. -/
theorem sample_top_p_with_exact (exp : α → α) (logits : List α) (p temp : α)
    (g : Option (List Int)) (rep : α) (tok : Option OgaTokenizer)
    (cache : Option (List Bool)) :
    sample_top_p_with (exact_ops exp) logits p temp g rep tok cache =
      sample_top_p exp logits p temp g rep tok cache := by
  have hpen : ∀ l : List α, rep_penalize_with (exact_ops exp) g rep l = rep_penalize g rep l :=
    fun l => rfl
  have htop : ∀ l : List α, top_p_with (exact_ops exp) l p temp = top_p exp l p temp := by
    intro l
    unfold top_p_with top_p
    have hel : exp_loop_with (exact_ops exp) temp l = exp_loop exp temp l := rfl
    simp only [hel, nucleus_scan_with_exact]
    rfl
  cases tok <;> simp only [sample_top_p_with, sample_top_p, hpen, htop]

end SamplerTheory

section Fusion

variable {α : Type}

theorem embed_dim_eq : embed_dim = 2560 := by unfold embed_dim; rfl

theorem embed_dim_pos : 0 < embed_dim := by rw [embed_dim_eq]; decide

theorem embed_row_length (state : MedGemmaState α) (id : Int)
    (h : ∃ e_ptr, state.e_sess id = .ok e_ptr) : (embed_row state id).length = embed_dim := by
  obtain ⟨r, hr⟩ := h
  simp [embed_row, hr]

/-- The fusion loop appends to its accumulators the slot of every token, in order. -/
theorem fuse_loop_ok (state : MedGemmaState α) (patch : List α) :
    ∀ (tokens : List Int), embeds_ok state tokens →
    ∀ (fe : List α) (am : List Int) (inj : Nat),
      fuse_loop state patch tokens (fe, am, inj) =
        .ok (fe ++ tokens.flatMap (fused_slot state patch),
             am ++ tokens.flatMap (fun id =>
               if id = state.image_token_id then
                 (if !patch.isEmpty then List.replicate num_patches (1 : Int) else [])
               else [1]),
             inj + placeholder_count state tokens) := by
  intro tokens
  induction tokens with
  | nil => intro _ fe am inj; simp [fuse_loop, placeholder_count]
  | cons id rest ih =>
    intro hE fe am inj
    have hrest : embeds_ok state rest := fun i hi hne => hE i (List.mem_cons_of_mem _ hi) hne
    by_cases hid : id = state.image_token_id
    · by_cases hp : patch = []
      · subst hp
        simp only [fuse_loop, hid, if_true, List.isEmpty_nil, Bool.not_true, Bool.false_eq_true,
          if_false]
        rw [ih hrest]
        simp [fused_slot, placeholder_count]
        omega
      · have hp2 : patch.isEmpty = false := by simpa using hp
        simp only [fuse_loop, hid, if_true, hp2, Bool.not_false]
        rw [ih hrest]
        simp [fused_slot, placeholder_count, hp2]
        omega
    · obtain ⟨r, hr⟩ := hE id (List.mem_cons_self _ _) hid
      have hne : ¬ state.image_token_id = id := fun h => hid h.symm
      simp only [fuse_loop, hid, if_false, hr]
      rw [ih hrest]
      simp [fused_slot, placeholder_count, embed_row, hid, hr, List.count_cons, hne]

/-- Length of the concatenated slots. -/
theorem fused_slots_length (state : MedGemmaState α) (patch : List α) :
    ∀ (tokens : List Int), embeds_ok state tokens →
      (tokens.flatMap (fused_slot state patch)).length =
        placeholder_count state tokens * patch.length +
          ordinary_count state tokens * embed_dim := by
  intro tokens
  induction tokens with
  | nil => intro _; simp [placeholder_count, ordinary_count]
  | cons id rest ih =>
    intro hE
    have hrest : embeds_ok state rest := fun i hi hne => hE i (List.mem_cons_of_mem _ hi) hne
    have ih := ih hrest
    by_cases hid : id = state.image_token_id
    · simp only [List.flatMap_cons, List.length_append, ih]
      simp [fused_slot, hid, placeholder_count, ordinary_count]
      ring
    · have hne : ¬ state.image_token_id = id := fun h => hid h.symm
      have hl := embed_row_length state id (hE id (List.mem_cons_self _ _) hid)
      simp only [List.flatMap_cons, List.length_append, ih]
      simp [fused_slot, hid, placeholder_count, ordinary_count, List.count_cons, hne, hl]
      ring

/-- Every token is the placeholder or an ordinary token. -/
theorem placeholder_add_ordinary (state : MedGemmaState α) (tokens : List Int) :
    placeholder_count state tokens + ordinary_count state tokens = tokens.length := by
  induction tokens with
  | nil => simp [placeholder_count, ordinary_count]
  | cons id rest ih =>
    by_cases hid : id = state.image_token_id
    · simp [placeholder_count, ordinary_count, hid] at ih ⊢
      omega
    · have hne : ¬ state.image_token_id = id := fun h => hid h.symm
      simp [placeholder_count, ordinary_count, hid, List.count_cons, hne] at ih ⊢
      omega

/-- The patch buffer the vision stage hands over is empty or holds `256 * embed_dim` floats. -/
theorem vision_stage_buffer (state : MedGemmaState α) (plat : Platform)
    (image : Option (Except String (List α))) (callback : Bool) (patch : List α)
    (h : (vision_stage state plat image callback).2 = .ok patch) :
    patch = [] ∨ patch.length = num_patches * embed_dim := by
  cases image with
  | none => simp [vision_stage] at h; exact Or.inl h
  | some r =>
    cases r with
    | error e => simp [vision_stage] at h; exact Or.inl h
    | ok px =>
      by_cases h1 : px.isEmpty = true
      · simp [vision_stage, h1] at h; exact Or.inl h
      · by_cases h2 : 0 < plat.avail_kb ∧ plat.avail_kb < 614400
        · simp [vision_stage, h1, h2] at h; exact Or.inl h
        · cases hv : state.v_sess px with
          | error e => simp [vision_stage, h1, h2, hv] at h
          | ok v_res =>
            cases hp : state.p_sess v_res with
            | error e => simp [vision_stage, h1, h2, hv, hp] at h
            | ok proj =>
              simp [vision_stage, h1, h2, hv, hp] at h
              right; rw [← h]; simp [num_patches]

/-- Rows of a buffer made of whole rows. -/
theorem fused_rows_mul (fe : List α) (k : Nat) (h : fe.length = k * embed_dim) :
    fused_rows fe = k := by
  unfold fused_rows
  rw [h, Nat.mul_div_cancel _ embed_dim_pos]

/-- The mask entries the fusion loop appends: as many as rows. -/
theorem fused_mask_length (state : MedGemmaState α) (patch : List α) (tokens : List Int) :
    (tokens.flatMap (fun id =>
        if id = state.image_token_id then
          (if !patch.isEmpty then List.replicate num_patches (1 : Int) else [])
        else [1])).length =
      (if patch.isEmpty then 0 else placeholder_count state tokens * num_patches) +
        ordinary_count state tokens := by
  induction tokens with
  | nil => simp [placeholder_count, ordinary_count]
  | cons id rest ih =>
    simp only [List.flatMap_cons, List.length_append, ih]
    by_cases hid : id = state.image_token_id
    · by_cases hp : patch.isEmpty = true
      · simp [hid, hp, placeholder_count, ordinary_count]
      · simp [hid, hp, placeholder_count, ordinary_count]
        ring
    · have hne : ¬ state.image_token_id = id := fun h => hid h.symm
      by_cases hp : patch.isEmpty = true
      · simp [hid, hp, placeholder_count, ordinary_count, List.count_cons, hne]
        ring
      · simp [hid, hp, placeholder_count, ordinary_count, List.count_cons, hne]
        ring

/-- Without a patch buffer the slots of the placeholder are empty: only the
ordinary tokens leave a row. -/
theorem fused_slots_empty_patch (state : MedGemmaState α) (tokens : List Int) :
    tokens.flatMap (fused_slot state []) =
      (tokens.filter fun id => id ≠ state.image_token_id).flatMap (embed_row state) := by
  induction tokens with
  | nil => simp
  | cons id rest ih =>
    by_cases hid : id = state.image_token_id
    · simp [List.flatMap_cons, ih, fused_slot, hid]
    · simp [List.flatMap_cons, ih, fused_slot, hid]

/-- Rows of the fused buffer when the patch buffer is empty. -/
theorem fused_rows_empty_patch (state : MedGemmaState α) (tokens : List Int)
    (hE : embeds_ok state tokens) :
    fused_rows (tokens.flatMap (fused_slot state [])) = ordinary_count state tokens := by
  apply fused_rows_mul
  rw [fused_slots_length state [] tokens hE]
  simp

/-- C4 (as amended): for the token sequence the orchestrator builds and the
patch buffer its vision stage leaves, the fused length in rows is
(placeholder occurrences) × P + (ordinary tokens) when the buffer is filled
and (ordinary tokens) alone when it is empty; the mask has as many entries. -/
theorem fused_length_rows (state : MedGemmaState α) (plat : Platform)
    (image : Option (Except String (List α))) (callback : Bool) (prompt : List Nat)
    (patch : List α)
    (hv : (vision_stage state plat image callback).2 = .ok patch)
    (hE : embeds_ok state (build_tokens state prompt)) :
    ∃ fe am inj,
      fuse_loop state patch (build_tokens state prompt) ([], [], 0) = .ok (fe, am, inj) ∧
      fused_rows fe =
        (if patch.isEmpty then 0
         else placeholder_count state (build_tokens state prompt) * num_patches) +
          ordinary_count state (build_tokens state prompt) ∧
      am.length = fused_rows fe := by
  have hrows : fused_rows ((build_tokens state prompt).flatMap (fused_slot state patch)) =
      (if patch.isEmpty then 0
         else placeholder_count state (build_tokens state prompt) * num_patches) +
          ordinary_count state (build_tokens state prompt) := by
    apply fused_rows_mul
    rw [fused_slots_length state patch _ hE]
    rcases vision_stage_buffer state plat image callback patch hv with h | h
    · subst h; simp
    · have hne : patch.isEmpty = false := by
        cases patch with
        | nil =>
          simp [num_patches] at h
          exact absurd h (Nat.pos_iff_ne_zero.mp embed_dim_pos)
        | cons _ _ => rfl
      rw [h, hne]; simp; ring
  refine ⟨_, _, _, fuse_loop_ok state patch _ hE [] [] 0, ?_, ?_⟩
  · simpa using hrows
  · simp only [List.nil_append] at hrows ⊢
    rw [hrows, fused_mask_length]

/-- C5 (as amended): with an empty patch buffer every placeholder occurrence
is skipped (no row, no mask entry): the fused buffer is the concatenation of
the embedding rows of the other tokens, one mask entry each, and the fused
length is the token count minus the number of placeholder occurrences. -/
theorem fuse_without_patches (state : MedGemmaState α) (tokens : List Int)
    (hE : embeds_ok state tokens) :
    fuse_loop state [] tokens ([], [], 0) =
        .ok ((tokens.filter fun id => id ≠ state.image_token_id).flatMap (embed_row state),
             List.replicate (ordinary_count state tokens) 1,
             placeholder_count state tokens) ∧
      fused_rows ((tokens.filter fun id => id ≠ state.image_token_id).flatMap
          (embed_row state)) = tokens.length - placeholder_count state tokens := by
  have hlen := fused_slots_length state [] tokens hE
  rw [fused_slots_empty_patch] at hlen
  constructor
  · rw [fuse_loop_ok state [] tokens hE, fused_slots_empty_patch]
    have hmask : ∀ l : List Int,
        (l.flatMap fun id => if id = state.image_token_id then
            (if !([] : List α).isEmpty then List.replicate num_patches (1 : Int) else [])
          else [1]) = List.replicate (ordinary_count state l) 1 := by
      intro l
      induction l with
      | nil => simp [ordinary_count]
      | cons id rest ih =>
        by_cases hid : id = state.image_token_id
        · simp [List.flatMap_cons, hid, ordinary_count] at ih ⊢
          exact ih
        · simp [List.flatMap_cons, hid, ordinary_count, List.replicate_succ] at ih ⊢
          exact ih
    have hm := hmask tokens
    simp at hm
    simp [hm]
  · have h := placeholder_add_ordinary state tokens
    apply fused_rows_mul
    rw [hlen]
    simp
    left; omega

/-- C6: with a patch buffer of exactly P × E floats the fused buffer is the
concatenation, token by token, of the whole patch buffer for the placeholder
id and of the embedding row of the id otherwise; with exactly one placeholder
the P patch rows stand at its position and the fused length is
(token count − 1 + P) rows. -/
theorem fused_buffer_is_concatenation (state : MedGemmaState α) (patch : List α)
    (tokens : List Int) (hpatch : patch.length = num_patches * embed_dim)
    (hE : embeds_ok state tokens) :
    (∃ am inj, fuse_loop state patch tokens ([], [], 0) =
        .ok (tokens.flatMap (fused_slot state patch), am, inj)) ∧
    (placeholder_count state tokens = 1 →
      ∃ before after, tokens = before ++ state.image_token_id :: after ∧
        tokens.flatMap (fused_slot state patch) =
          before.flatMap (embed_row state) ++ patch ++ after.flatMap (embed_row state) ∧
        (before.flatMap (embed_row state)).length = before.length * embed_dim ∧
        fused_rows (tokens.flatMap (fused_slot state patch)) =
          tokens.length - 1 + num_patches) := by
  constructor
  · exact ⟨_, _, by simpa using fuse_loop_ok state patch tokens hE [] [] 0⟩
  · intro hone
    have hmem : state.image_token_id ∈ tokens := by
      apply List.count_pos_iff.mp
      unfold placeholder_count at hone
      omega
    obtain ⟨before, after, hsplit⟩ := List.append_of_mem hmem
    have hcount : before.count state.image_token_id + after.count state.image_token_id = 0 := by
      have := hone
      simp only [placeholder_count, hsplit, List.count_append, List.count_cons_self] at this
      omega
    have hb : state.image_token_id ∉ before := by
      intro h; have := List.count_pos_iff.mpr h; omega
    have ha : state.image_token_id ∉ after := by
      intro h; have := List.count_pos_iff.mpr h; omega
    have hslot : ∀ l : List Int, state.image_token_id ∉ l →
        l.flatMap (fused_slot state patch) = l.flatMap (embed_row state) := by
      intro l hl
      induction l with
      | nil => rfl
      | cons id rest ih =>
        have hid : id ≠ state.image_token_id := fun h => hl (h ▸ List.mem_cons_self _ _)
        have hr : state.image_token_id ∉ rest := fun h => hl (List.mem_cons_of_mem _ h)
        simp [List.flatMap_cons, ih hr, fused_slot, hid]
    have hEb : embeds_ok state before := fun i hi hne =>
      hE i (by rw [hsplit]; exact List.mem_append_left _ hi) hne
    have hlenb := fused_slots_length state patch before hEb
    rw [hslot before hb] at hlenb
    have hzb : placeholder_count state before = 0 := by unfold placeholder_count; omega
    have hob : ordinary_count state before = before.length := by
      have := placeholder_add_ordinary state before; omega
    refine ⟨before, after, hsplit, ?_, ?_, ?_⟩
    · rw [hsplit, List.flatMap_append, List.flatMap_cons, hslot before hb, hslot after ha]
      simp [fused_slot]
    · rw [hlenb, hzb, hob]; simp
    · have h := placeholder_add_ordinary state tokens
      apply fused_rows_mul
      rw [fused_slots_length state patch tokens hE, hpatch, hone]
      have : ordinary_count state tokens = tokens.length - 1 := by omega
      rw [this]; ring

/-- The embedding session of the example handle answers on every id. -/
theorem example_embeds_ok [Zero α] (ids : List Int) (frag : List Nat)
    (logits : Nat → List α) (tokens : List Int) :
    embeds_ok (example_state ids frag logits) tokens :=
  fun _ _ _ => ⟨_, rfl⟩

/-- C4 (witness): the prompt `<image>` without image bytes. -/
theorem fused_length_rows_witness :
    (vision_stage (example_state (α := ℚ) [255999] [65] fun _ => []) ⟨0, fun _ => 0⟩
        none true).2 = .ok [] ∧
    ∃ fe am inj,
      fuse_loop (example_state (α := ℚ) [255999] [65] fun _ => []) []
        (build_tokens (example_state (α := ℚ) [255999] [65] fun _ => []) []) ([], [], 0) =
          .ok (fe, am, inj) ∧
      fused_rows fe = 1 ∧ am.length = fused_rows fe := by
  refine ⟨rfl, ?_⟩
  obtain ⟨fe, am, inj, h1, h2, h3⟩ :=
    fused_length_rows (example_state (α := ℚ) [255999] [65] fun _ => []) ⟨0, fun _ => 0⟩
      none true [] [] rfl (example_embeds_ok _ _ _ _)
  refine ⟨fe, am, inj, h1, ?_, h3⟩
  rw [h2]
  decide

/-- C4 (counterexample): for the tokens `[BOS, placeholder]` and the empty
patch buffer of a text-only call the fused length is 1 row, not 1 × 256 + 1. -/
theorem fused_length_formula_fails :
    ∃ fe am inj,
      (vision_stage (example_state (α := ℚ) [255999] [65] fun _ => []) ⟨0, fun _ => 0⟩
        none true).2 = .ok [] ∧
      fuse_loop (example_state (α := ℚ) [255999] [65] fun _ => []) []
        (build_tokens (example_state (α := ℚ) [255999] [65] fun _ => []) []) ([], [], 0) =
          .ok (fe, am, inj) ∧
      fused_rows fe ≠
        placeholder_count (example_state (α := ℚ) [255999] [65] fun _ => [])
            (build_tokens (example_state (α := ℚ) [255999] [65] fun _ => []) []) * num_patches +
          ordinary_count (example_state (α := ℚ) [255999] [65] fun _ => [])
            (build_tokens (example_state (α := ℚ) [255999] [65] fun _ => []) []) := by
  refine ⟨_, _, _, rfl, fuse_loop_ok _ _ _ (example_embeds_ok _ _ _ _) [] [] 0, ?_⟩
  rw [List.nil_append, fused_rows_empty_patch _ _ (example_embeds_ok _ _ _ _)]
  decide

/-- C5 (witness): the tokens `[BOS, placeholder, 7]` without a patch buffer. -/
theorem fuse_without_patches_witness :
    embeds_ok (example_state (α := ℚ) [255999, 7] [65] fun _ => []) [2, 255999, 7] ∧
    fused_rows (([2, 255999, 7].filter fun id =>
        id ≠ (example_state (α := ℚ) [255999, 7] [65] fun _ => []).image_token_id).flatMap
          (embed_row (example_state (α := ℚ) [255999, 7] [65] fun _ => []))) = 2 :=
  ⟨example_embeds_ok _ _ _ _,
   (fuse_without_patches (example_state (α := ℚ) [255999, 7] [65] fun _ => []) [2, 255999, 7]
      (example_embeds_ok _ _ _ _)).2.trans (by decide)⟩

/-- C5 (counterexample): without a patch buffer the placeholder of
`[BOS, placeholder]` gets no embedding row: the fused length is 1, the token
count 2, and the mask has one entry. -/
theorem placeholder_gets_no_row :
    ∃ fe am inj,
      fuse_loop (example_state (α := ℚ) [255999] [65] fun _ => []) [] [2, 255999] ([], [], 0) =
        .ok (fe, am, inj) ∧
      fused_rows fe = 1 ∧ am = [1] ∧ fused_rows fe ≠ [2, 255999].length := by
  refine ⟨_, _, _, fuse_loop_ok _ _ _ (example_embeds_ok _ _ _ _) [] [] 0, ?_, ?_, ?_⟩
  · rw [List.nil_append, fused_rows_empty_patch _ _ (example_embeds_ok _ _ _ _)]; decide
  · decide
  · rw [List.nil_append, fused_rows_empty_patch _ _ (example_embeds_ok _ _ _ _)]; decide

/-- C6 (witness): one placeholder between BOS and an ordinary token. -/
theorem fused_buffer_is_concatenation_witness :
    (List.replicate (num_patches * embed_dim) (0 : ℚ)).length = num_patches * embed_dim ∧
    embeds_ok (example_state (α := ℚ) [255999, 7] [65] fun _ => []) [2, 255999, 7] ∧
    fused_rows ([2, 255999, 7].flatMap
      (fused_slot (example_state (α := ℚ) [255999, 7] [65] fun _ => [])
        (List.replicate (num_patches * embed_dim) 0))) = 3 - 1 + num_patches := by
  refine ⟨List.length_replicate _ _, example_embeds_ok _ _ _ _, ?_⟩
  obtain ⟨_, _, _, _, _, h⟩ :=
    (fused_buffer_is_concatenation (example_state (α := ℚ) [255999, 7] [65] fun _ => [])
      (List.replicate (num_patches * embed_dim) 0) [2, 255999, 7]
      (List.length_replicate _ _) (example_embeds_ok _ _ _ _)).2 (by decide)
  exact h

end Fusion

section OrchestratorTheory

variable {α : Type}

/-! ### What the prefill leaves untouched -/

theorem prefill_chunk_frame [LinearOrderedField α] (exp : α → α) (state : MedGemmaState α)
    (fe : List α)
    (total cs : Nat) (s : Inference α) :
    (prefill_chunk exp state fe total cs s).events = s.events ∧
    (prefill_chunk exp state fe total cs s).generated_ids = s.generated_ids ∧
    (prefill_chunk exp state fe total cs s).stop_buf = s.stop_buf ∧
    (prefill_chunk exp state fe total cs s).stop_triggered = s.stop_triggered := by
  unfold prefill_chunk
  simp only []
  split
  · simp
  · split_ifs <;> simp [sample_next]

theorem prefill_loop_frame [LinearOrderedField α] (exp : α → α) (state : MedGemmaState α)
    (fe : List α)
    (total : Nat) (fuel cs : Nat) (s : Inference α) :
    (prefill_loop exp state fe total fuel cs s).events = s.events ∧
    (prefill_loop exp state fe total fuel cs s).generated_ids = s.generated_ids ∧
    (prefill_loop exp state fe total fuel cs s).stop_buf = s.stop_buf ∧
    (prefill_loop exp state fe total fuel cs s).stop_triggered = s.stop_triggered := by
  induction fuel generalizing cs s with
  | zero => simp [prefill_loop]
  | succ fuel ih =>
    have hc := prefill_chunk_frame exp state fe total cs s
    simp only [prefill_loop]
    split_ifs
    · split
      · exact hc
      · obtain ⟨h1, h2, h3, h4⟩ :=
          ih (cs + PREFILL_CHUNK) (prefill_chunk exp state fe total cs s)
        exact ⟨h1.trans hc.1, h2.trans hc.2.1, h3.trans hc.2.2.1, h4.trans hc.2.2.2⟩
    · simp

/-! ### Counting the token fragments -/

theorem token_count_call_back (callback : Bool) (events : List Event) (e : Event) :
    token_count (call_back callback events e) ≤ token_count events + 1 := by
  unfold call_back token_count
  split_ifs
  · rw [List.countP_append]
    have : List.countP Event.isToken [e] ≤ 1 := by
      simpa using List.countP_le_length (l := [e]) Event.isToken
    omega
  · omega

theorem token_count_call_back_diag (callback : Bool) (events : List Event) (msg : String) :
    token_count (call_back callback events (.diag msg)) = token_count events := by
  unfold call_back token_count
  split_ifs <;> simp [List.countP_append, Event.isToken]

theorem token_count_emit (state : MedGemmaState α) (callback : Bool) (events : List Event)
    (id : Int) (stop : Bool) :
    token_count (emit state callback events id stop) ≤ token_count events + 1 := by
  unfold emit
  split
  · exact token_count_call_back _ _ _
  · omega

theorem token_count_first_token (state : MedGemmaState α) (callback : Bool)
    (s : Inference α) :
    token_count (first_token state callback s).events ≤ token_count s.events + 1 := by
  unfold first_token
  split_ifs
  · exact Nat.le_succ _
  · exact token_count_emit _ _ _ _ _

theorem token_count_decode_step [LinearOrderedField α] (exp : α → α) (state : MedGemmaState α)
    (plat : Platform)
    (callback : Bool) (step : Nat) (s : Inference α) :
    token_count (decode_step exp state plat callback step s).1.events ≤
      token_count s.events + 1 := by
  have he := token_count_emit state callback s.events
  unfold decode_step
  simp only []
  split
  · simp
  · split
    · simp
    · split_ifs <;>
        simp only [sample_next, token_count_call_back_diag] <;>
        first
          | exact Nat.le_succ _
          | exact he _ _

theorem token_count_decode_loop [LinearOrderedField α] (exp : α → α) (state : MedGemmaState α)
    (plat : Platform)
    (callback : Bool) (remaining step : Nat) (s : Inference α) :
    token_count (decode_loop exp state plat callback remaining step s).events ≤
      token_count s.events + remaining := by
  induction remaining generalizing step s with
  | zero => simp [decode_loop]
  | succ n ih =>
    simp only [decode_loop]
    have hs := token_count_decode_step exp state plat callback step s
    split_ifs
    · omega
    · have := ih (step + 1) (decode_step exp state plat callback step s).1
      omega
    · omega

theorem token_count_catch (callback : Bool) (s : Inference α) :
    token_count (catch_exception callback s).events = token_count s.events := by
  unfold catch_exception
  split
  · exact token_count_call_back_diag _ _ _
  · rfl

theorem token_count_generate [LinearOrderedField α] (exp : α → α) (state : MedGemmaState α)
    (plat : Platform)
    (max_tokens : Int) (callback : Bool) (fe : List α) (s0 : Inference α)
    (hmax : 0 < max_tokens) :
    (token_count (generate exp state plat max_tokens callback fe s0).events : Int) ≤
      token_count s0.events + max_tokens := by
  have hp := (prefill_loop_frame exp state fe (fe.length / embed_dim) (fe.length / embed_dim)
    0 s0).1
  unfold generate
  simp only []
  split
  · rw [hp]; omega
  · unfold emit_and_decode
    split_ifs
    · simp only [token_count_call_back_diag, hp]; omega
    · have h1 := token_count_decode_loop exp state plat callback (max_tokens - 1).toNat 0
        (first_token state callback
          (prefill_loop exp state fe (fe.length / embed_dim) (fe.length / embed_dim) 0 s0))
      have h2 := token_count_first_token state callback
        (prefill_loop exp state fe (fe.length / embed_dim) (fe.length / embed_dim) 0 s0)
      rw [hp] at h2
      simp only []
      omega

theorem effective_max_tokens_pos (max_tokens : Int) : 0 < effective_max_tokens max_tokens := by
  unfold effective_max_tokens
  split_ifs <;> omega

theorem token_count_nil : token_count [] = 0 := rfl

theorem token_count_vision (state : MedGemmaState α) (plat : Platform)
    (image : Option (Except String (List α))) (callback : Bool) :
    token_count (vision_stage state plat image callback).1 = 0 := by
  cases image with
  | none => rfl
  | some r =>
    cases r with
    | error e =>
      by_cases he : e = ""
      · simp [vision_stage, he, token_count_nil]
      · simp [vision_stage, he, token_count_call_back_diag, token_count_nil]
    | ok px =>
      by_cases h1 : px.isEmpty = true
      · simp [vision_stage, h1, token_count_nil]
      · by_cases h2 : 0 < plat.avail_kb ∧ plat.avail_kb < 614400
        · simp [vision_stage, h1, h2, token_count_call_back_diag, token_count_nil]
        · cases hv : state.v_sess px with
          | error e => simp [vision_stage, h1, h2, hv, token_count_nil]
          | ok v_res =>
            cases hp : state.p_sess v_res with
            | error e => simp [vision_stage, h1, h2, hv, hp, token_count_nil]
            | ok proj => simp [vision_stage, h1, h2, hv, hp, token_count_nil]

/-- C9: the callback receives at most `max_tokens` token fragments, 512 when
the caller passed `max_tokens ≤ 0` (diagnostic strings are not counted). -/
theorem token_callbacks_bounded [LinearOrderedField α] (exp : α → α) (plat : Platform)
    (handle : Option (MedGemmaState α)) (image : Option (Except String (List α)))
    (prompt : List Nat) (max_tokens : Int) (callback : Bool) (cache : Option (List Bool)) :
    (token_count (run_medgemma_inference exp plat handle image prompt max_tokens callback
        cache).events : Int) ≤ (if max_tokens > 0 then max_tokens else 512) ∧
    effective_max_tokens max_tokens = (if max_tokens > 0 then max_tokens else 512) := by
  have heff : effective_max_tokens max_tokens = (if max_tokens > 0 then max_tokens else 512) := by
    unfold effective_max_tokens
    split_ifs <;> omega
  refine ⟨?_, heff⟩
  rw [← heff]
  have hpos := effective_max_tokens_pos max_tokens
  unfold run_medgemma_inference
  simp only []
  split
  · simp only [init_inference, token_count_call_back_diag]
    simp [token_count]; omega
  · rename_i state
    have hv := token_count_vision state plat image callback
    split
    · rw [token_count_catch]; simp only [init_inference, hv]; omega
    · split
      · rw [token_count_catch]; simp only [init_inference, hv]; omega
      · rw [token_count_catch]
        refine le_trans (token_count_generate exp state plat _ callback _ _ hpos) ?_
        simp only [init_inference]
        split_ifs
        · rw [token_count_call_back_diag, hv]; simp
        · rw [hv]; simp

/-! ### The decoder runs -/

theorem calls_inv_init (events : List Event) (cache : Option (List Bool)) :
    calls_inv (init_inference events cache : Inference α) := by
  refine ⟨⟨by simp [init_inference, empty_kv], ?_⟩, by simp [init_inference]⟩
  intro t ht
  simp only [init_inference, empty_kv] at ht
  rw [(List.mem_replicate.mp ht).2]
  rfl

theorem chunk_data_length (fe : List α) (total cs : Nat)
    (hfe : total * embed_dim ≤ fe.length) :
    ((fe.drop (cs * embed_dim)).take (min PREFILL_CHUNK (total - cs) * embed_dim)).length =
      min PREFILL_CHUNK (total - cs) * embed_dim := by
  rw [List.length_take, List.length_drop]
  apply Nat.min_eq_left
  have h1 : min PREFILL_CHUNK (total - cs) ≤ total - cs := Nat.min_le_right _ _
  have h2 : min PREFILL_CHUNK (total - cs) * embed_dim ≤ (total - cs) * embed_dim :=
    Nat.mul_le_mul_right _ h1
  rw [Nat.sub_mul] at h2
  omega

theorem prefill_chunk_calls [LinearOrderedField α] (exp : α → α) (state : MedGemmaState α)
    (fe : List α) (total cs : Nat) (s : Inference α) (hdec : decoder_extends_kv state)
    (hfe : total * embed_dim ≤ fe.length) (h : calls_inv s) :
    calls_inv (prefill_chunk exp state fe total cs s) := by
  obtain ⟨hkv, hcalls⟩ := h
  have hnew : call_ok (⟨s.kv_len,
      ⟨[1, min PREFILL_CHUNK (total - cs), embed_dim],
        (fe.drop (cs * embed_dim)).take (min PREFILL_CHUNK (total - cs) * embed_dim)⟩,
      ⟨[1, s.kv_len + min PREFILL_CHUNK (total - cs)],
        List.replicate (s.kv_len + min PREFILL_CHUNK (total - cs)) 1⟩, s.kv⟩ : DecoderCall α) :=
    ⟨hkv, _, rfl, chunk_data_length fe total cs hfe, rfl, rfl⟩
  have hall : ∀ c ∈ s.calls ++ [(⟨s.kv_len,
      ⟨[1, min PREFILL_CHUNK (total - cs), embed_dim],
        (fe.drop (cs * embed_dim)).take (min PREFILL_CHUNK (total - cs) * embed_dim)⟩,
      ⟨[1, s.kv_len + min PREFILL_CHUNK (total - cs)],
        List.replicate (s.kv_len + min PREFILL_CHUNK (total - cs)) 1⟩, s.kv⟩ : DecoderCall α)],
      call_ok c := by
    intro c hc
    rcases List.mem_append.mp hc with h | h
    · exact hcalls c h
    · rw [List.mem_singleton.mp h]; exact hnew
  unfold prefill_chunk
  simp only []
  split
  · exact ⟨hkv, hall⟩
  · rename_i out hout
    have hk := hdec _ _ _ out s.kv_len _ hout hkv rfl
    split_ifs
    · exact ⟨hk, hall⟩
    · exact ⟨hk, hall⟩

theorem prefill_loop_calls [LinearOrderedField α] (exp : α → α) (state : MedGemmaState α)
    (fe : List α) (total : Nat) (hdec : decoder_extends_kv state)
    (hfe : total * embed_dim ≤ fe.length) (fuel cs : Nat) (s : Inference α)
    (h : calls_inv s) : calls_inv (prefill_loop exp state fe total fuel cs s) := by
  induction fuel generalizing cs s with
  | zero => exact h
  | succ fuel ih =>
    simp only [prefill_loop]
    split_ifs with hcs
    · have hc := prefill_chunk_calls exp state fe total cs s hdec hfe h
      split
      · exact hc
      · exact ih _ _ hc
    · exact h

theorem first_token_calls (state : MedGemmaState α) (callback : Bool) (s : Inference α)
    (h : calls_inv s) : calls_inv (first_token state callback s) := by
  unfold first_token
  split_ifs
  · exact h
  · exact h

theorem decode_step_calls [LinearOrderedField α] (exp : α → α) (state : MedGemmaState α)
    (plat : Platform) (callback : Bool) (step : Nat) (s : Inference α)
    (hdec : decoder_extends_kv state) (h : calls_inv s) :
    calls_inv (decode_step exp state plat callback step s).1 := by
  obtain ⟨hkv, hcalls⟩ := h
  unfold decode_step
  split
  · exact ⟨hkv, hcalls⟩
  · rename_i n_emb _
    have hnew : call_ok (⟨s.kv_len, ⟨[1, 1, embed_dim], List.ofFn n_emb⟩,
        ⟨[1, (List.replicate (s.kv_len + 1) (1 : Int)).length],
          List.replicate (s.kv_len + 1) 1⟩, s.kv⟩ : DecoderCall α) :=
      ⟨hkv, 1, rfl, by simp, by simp, rfl⟩
    have hall : ∀ c ∈ s.calls ++ [(⟨s.kv_len, ⟨[1, 1, embed_dim], List.ofFn n_emb⟩,
        ⟨[1, (List.replicate (s.kv_len + 1) (1 : Int)).length],
          List.replicate (s.kv_len + 1) 1⟩, s.kv⟩ : DecoderCall α)], call_ok c := by
      intro c hc
      rcases List.mem_append.mp hc with h | h
      · exact hcalls c h
      · rw [List.mem_singleton.mp h]; exact hnew
    simp only []
    split
    · exact ⟨hkv, hall⟩
    · rename_i out hout
      have hk := hdec _ _ _ out s.kv_len 1 hout hkv rfl
      split_ifs
      · exact ⟨hkv, hall⟩
      · exact ⟨hkv, hall⟩
      · exact ⟨hk, hall⟩
      · exact ⟨hk, hall⟩

theorem decode_loop_calls [LinearOrderedField α] (exp : α → α) (state : MedGemmaState α)
    (plat : Platform) (callback : Bool) (hdec : decoder_extends_kv state)
    (remaining step : Nat) (s : Inference α) (h : calls_inv s) :
    calls_inv (decode_loop exp state plat callback remaining step s) := by
  induction remaining generalizing step s with
  | zero => exact h
  | succ n ih =>
    simp only [decode_loop]
    have hs := decode_step_calls exp state plat callback step s hdec h
    split_ifs
    · exact h
    · exact ih _ _ hs
    · exact hs

theorem catch_exception_calls (callback : Bool) (s : Inference α) (h : calls_inv s) :
    calls_inv (catch_exception callback s) := by
  unfold catch_exception
  split
  · exact h
  · exact h

theorem generate_calls [LinearOrderedField α] (exp : α → α) (state : MedGemmaState α)
    (plat : Platform) (max_tokens : Int) (callback : Bool) (fe : List α) (s0 : Inference α)
    (hdec : decoder_extends_kv state) (h : calls_inv s0) :
    calls_inv (generate exp state plat max_tokens callback fe s0) := by
  have hp := prefill_loop_calls exp state fe (fe.length / embed_dim) hdec
    (Nat.div_mul_le_self _ _) (fe.length / embed_dim) 0 s0 h
  unfold generate
  simp only []
  split
  · exact hp
  · unfold emit_and_decode
    split_ifs
    · exact hp
    · exact decode_loop_calls exp state plat callback hdec _ _ _
        (first_token_calls state callback _ hp)

/-- C8: with a decoder whose `present` tensors have key length K_in + (new
positions), every decoder run of an inference (prefill chunk or decode step)
receives a past of key length `kv_len` and an attention mask that is all ones
and of length `kv_len` + (rows of `inputs_embeds`). -/
theorem decoder_runs_well_formed [LinearOrderedField α] (exp : α → α) (plat : Platform)
    (state : MedGemmaState α) (image : Option (Except String (List α)))
    (prompt : List Nat) (max_tokens : Int) (callback : Bool) (cache : Option (List Bool))
    (hdec : decoder_extends_kv state) :
    ∀ c ∈ (run_medgemma_inference exp plat (some state) image prompt max_tokens callback
        cache).calls,
      kv_has_len c.kv_len c.past ∧
      ∃ n, c.inputs_embeds.shape = [1, n, embed_dim] ∧
        c.inputs_embeds.data.length = n * embed_dim ∧
        c.attention_mask.shape = [1, c.kv_len + n] ∧
        c.attention_mask.data = List.replicate (c.kv_len + n) 1 := by
  have hinit : ∀ ev, calls_inv (init_inference ev cache : Inference α) :=
    fun ev => calls_inv_init ev cache
  have hthrown : ∀ ev e, calls_inv ({ (init_inference ev cache : Inference α) with
      thrown := some e }) := fun ev e => hinit ev
  have hrun : calls_inv (run_medgemma_inference exp plat (some state) image prompt max_tokens
      callback cache) := by
    unfold run_medgemma_inference
    simp only []
    split
    · exact catch_exception_calls _ _ (hthrown _ _)
    · split
      · exact catch_exception_calls _ _ (hthrown _ _)
      · exact catch_exception_calls _ _ (generate_calls exp state plat _ callback _ _ hdec
          (hinit _))
  exact hrun.2

/-! ### The emission discipline -/

theorem mem_dropLast {β : Type} (l : List β) (x : β) (h : x ∈ l.dropLast) : x ∈ l :=
  (List.dropLast_sublist l).subset h

theorem stop_flags_append_token (events : List Event) (id : Int) (text : List Nat)
    (stop : Bool) :
    stop_flags (events ++ [Event.token id text stop]) = stop_flags events ++ [stop] := by
  simp [stop_flags, List.filterMap_append]

theorem stop_flags_append_diag (events : List Event) (msg : String) :
    stop_flags (events ++ [Event.diag msg]) = stop_flags events := by
  simp [stop_flags, List.filterMap_append]

/-- The ways one iteration of the decode loop can end. -/
theorem decode_step_cases [LinearOrderedField α] (exp : α → α) (state : MedGemmaState α)
    (plat : Platform) (callback : Bool) (step : Nat) (s : Inference α) :
    ((decode_step exp state plat callback step s).2 = false ∧
      (decode_step exp state plat callback step s).1.thrown ≠ none ∧
      (decode_step exp state plat callback step s).1.events = s.events ∧
      (decode_step exp state plat callback step s).1.sampled = s.sampled ∧
      (decode_step exp state plat callback step s).1.stop_triggered = s.stop_triggered ∧
      (decode_step exp state plat callback step s).1.kv_len = s.kv_len ∧
      (decode_step exp state plat callback step s).1.kv_hist = s.kv_hist) ∨
    (∃ id : Int,
      (decode_step exp state plat callback step s).1.sampled = s.sampled ++ [id] ∧
      (decode_step exp state plat callback step s).1.thrown = s.thrown ∧
      ((id ∈ EOS_IDS ∧
        (decode_step exp state plat callback step s).2 = false ∧
        (decode_step exp state plat callback step s).1.events = s.events ∧
        (decode_step exp state plat callback step s).1.stop_triggered = s.stop_triggered ∧
        (decode_step exp state plat callback step s).1.kv_len = s.kv_len ∧
        (decode_step exp state plat callback step s).1.kv_hist = s.kv_hist) ∨
       (id ∉ EOS_IDS ∧
        (decode_step exp state plat callback step s).2 = false ∧
        (decode_step exp state plat callback step s).1.events =
          emit state callback s.events id true ∧
        (decode_step exp state plat callback step s).1.stop_triggered = true ∧
        (decode_step exp state plat callback step s).1.kv_len = s.kv_len ∧
        (decode_step exp state plat callback step s).1.kv_hist = s.kv_hist) ∨
       (id ∉ EOS_IDS ∧
        (decode_step exp state plat callback step s).1.stop_triggered = s.stop_triggered ∧
        (decode_step exp state plat callback step s).1.kv_len = s.kv_len + 1 ∧
        (decode_step exp state plat callback step s).1.kv_hist =
          s.kv_hist ++ [s.kv_len + 1] ∧
        (((decode_step exp state plat callback step s).2 = true ∧
          (decode_step exp state plat callback step s).1.events =
            emit state callback s.events id false) ∨
         ((decode_step exp state plat callback step s).2 = false ∧
          (decode_step exp state plat callback step s).1.events =
            call_back callback (emit state callback s.events id false)
              (.diag "[WARN] Low RAM, stopping")))))) := by
  cases he : state.e_sess s.next_id with
  | error e => left; simp [decode_step, he]
  | ok n_emb =>
    cases hm : state.m_sess ⟨[1, 1, embed_dim], List.ofFn n_emb⟩
        ⟨[1, s.kv_len + 1], List.replicate (s.kv_len + 1) 1⟩ s.kv with
    | error e => left; simp [decode_step, he, hm]
    | ok d_res =>
      right
      refine ⟨(sample_top_p exp (last_logits d_res.logits) (3 / 4) (29 / 100)
        (some s.generated_ids) (13 / 10) (some state.tokenizer) s.foreign_cache).1, ?_⟩
      by_cases hEOS : (sample_top_p exp (last_logits d_res.logits) (3 / 4) (29 / 100)
        (some s.generated_ids) (13 / 10) (some state.tokenizer) s.foreign_cache).1 ∈ EOS_IDS
      · simp [decode_step, he, hm, sample_next, hEOS]
      · cases hcs : (check_stop (state.tokenizer.decode (sample_top_p exp
            (last_logits d_res.logits) (3 / 4) (29 / 100) (some s.generated_ids) (13 / 10)
            (some state.tokenizer) s.foreign_cache).1) s.stop_buf).1 with
        | true => simp [decode_step, he, hm, sample_next, hEOS, hcs]
        | false =>
          by_cases hram : step % 20 = 0 ∧ 0 < plat.ram_kb step ∧ plat.ram_kb step < 204800
          · simp [decode_step, he, hm, sample_next, hEOS, hcs, hram]
          · simp [decode_step, he, hm, sample_next, hEOS, hcs, hram]

/-- The ways one prefill chunk can end. -/
theorem prefill_chunk_cases [LinearOrderedField α] (exp : α → α) (state : MedGemmaState α)
    (fe : List α) (total cs : Nat) (s : Inference α) :
    ((prefill_chunk exp state fe total cs s).thrown ≠ none ∧
      (prefill_chunk exp state fe total cs s).kv_len = s.kv_len ∧
      (prefill_chunk exp state fe total cs s).kv_hist = s.kv_hist ∧
      (prefill_chunk exp state fe total cs s).sampled = s.sampled) ∨
    ((prefill_chunk exp state fe total cs s).thrown = s.thrown ∧
      (prefill_chunk exp state fe total cs s).kv_len =
        s.kv_len + min PREFILL_CHUNK (total - cs) ∧
      (prefill_chunk exp state fe total cs s).kv_hist =
        s.kv_hist ++ [s.kv_len + min PREFILL_CHUNK (total - cs)] ∧
      ((cs + min PREFILL_CHUNK (total - cs) ≥ total ∧
          (prefill_chunk exp state fe total cs s).sampled =
            s.sampled ++ [(prefill_chunk exp state fe total cs s).next_id]) ∨
       (cs + min PREFILL_CHUNK (total - cs) < total ∧
          (prefill_chunk exp state fe total cs s).sampled = s.sampled))) := by
  cases hm : state.m_sess
      ⟨[1, min PREFILL_CHUNK (total - cs), embed_dim],
        (fe.drop (cs * embed_dim)).take (min PREFILL_CHUNK (total - cs) * embed_dim)⟩
      ⟨[1, s.kv_len + min PREFILL_CHUNK (total - cs)],
        List.replicate (s.kv_len + min PREFILL_CHUNK (total - cs)) 1⟩ s.kv with
  | error e => left; simp [prefill_chunk, hm]
  | ok out =>
    right
    by_cases hlast : cs + min PREFILL_CHUNK (total - cs) ≥ total
    · simp only [prefill_chunk, hm, hlast, if_true, sample_next]
      simp
    · simp only [prefill_chunk, hm, hlast, if_false]
      simp
      omega

theorem hist_inv_push (s t : Inference α) (d : Nat) (h : hist_inv s)
    (hk : t.kv_len = s.kv_len + d) (hh : t.kv_hist = s.kv_hist ++ [s.kv_len + d]) :
    hist_inv t := by
  obtain ⟨h1, h2, _⟩ := h
  refine ⟨?_, ?_, ?_⟩
  · rw [hh, List.pairwise_append]
    refine ⟨h1, List.pairwise_singleton _ _, ?_⟩
    intro a ha b hb
    rw [List.mem_singleton.mp hb]
    exact le_trans (h2 a ha) (Nat.le_add_right _ _)
  · intro x hx
    rw [hh] at hx
    rw [hk]
    rcases List.mem_append.mp hx with hx | hx
    · exact le_trans (h2 x hx) (Nat.le_add_right _ _)
    · rw [List.mem_singleton.mp hx]
  · rw [hh, hk, List.getLast?_concat]

theorem hist_inv_keep (s t : Inference α) (h : hist_inv s)
    (hk : t.kv_len = s.kv_len) (hh : t.kv_hist = s.kv_hist) : hist_inv t := by
  unfold hist_inv
  rw [hk, hh]
  exact h

theorem prefill_loop_hist [LinearOrderedField α] (exp : α → α) (state : MedGemmaState α)
    (fe : List α) (total : Nat) (fuel cs : Nat) (s : Inference α) (h : hist_inv s) :
    hist_inv (prefill_loop exp state fe total fuel cs s) := by
  induction fuel generalizing cs s with
  | zero => exact h
  | succ fuel ih =>
    have hc : hist_inv (prefill_chunk exp state fe total cs s) := by
      rcases prefill_chunk_cases exp state fe total cs s with
        ⟨_, hk, hh, _⟩ | ⟨_, hk, hh, _⟩
      · exact hist_inv_keep s _ h hk hh
      · exact hist_inv_push s _ _ h hk hh
    simp only [prefill_loop]
    split_ifs
    · split
      · exact hc
      · exact ih _ _ hc
    · exact h

theorem first_token_kv (state : MedGemmaState α) (callback : Bool) (s : Inference α) :
    (first_token state callback s).kv_len = s.kv_len ∧
    (first_token state callback s).kv_hist = s.kv_hist ∧
    (first_token state callback s).sampled = s.sampled ∧
    (first_token state callback s).thrown = s.thrown := by
  unfold first_token
  split_ifs <;> exact ⟨rfl, rfl, rfl, rfl⟩

theorem decode_step_hist [LinearOrderedField α] (exp : α → α) (state : MedGemmaState α)
    (plat : Platform) (callback : Bool) (step : Nat) (s : Inference α) (h : hist_inv s) :
    hist_inv (decode_step exp state plat callback step s).1 := by
  rcases decode_step_cases exp state plat callback step s with
    ⟨_, _, _, _, _, hk, hh⟩ | ⟨id, _, _, hcase⟩
  · exact hist_inv_keep s _ h hk hh
  · rcases hcase with ⟨_, _, _, _, hk, hh⟩ | ⟨_, _, _, _, hk, hh⟩ | ⟨_, _, hk, hh, _⟩
    · exact hist_inv_keep s _ h hk hh
    · exact hist_inv_keep s _ h hk hh
    · exact hist_inv_push s _ _ h hk hh

theorem decode_loop_hist [LinearOrderedField α] (exp : α → α) (state : MedGemmaState α)
    (plat : Platform) (callback : Bool) (remaining step : Nat) (s : Inference α)
    (h : hist_inv s) : hist_inv (decode_loop exp state plat callback remaining step s) := by
  induction remaining generalizing step s with
  | zero => exact h
  | succ n ih =>
    simp only [decode_loop]
    have hs := decode_step_hist exp state plat callback step s h
    split_ifs
    · exact h
    · exact ih _ _ hs
    · exact hs

theorem generate_hist [LinearOrderedField α] (exp : α → α) (state : MedGemmaState α)
    (plat : Platform) (max_tokens : Int) (callback : Bool) (fe : List α) (s0 : Inference α)
    (h : hist_inv s0) : hist_inv (generate exp state plat max_tokens callback fe s0) := by
  have hp := prefill_loop_hist exp state fe (fe.length / embed_dim) (fe.length / embed_dim)
    0 s0 h
  unfold generate
  simp only []
  split
  · exact hp
  · unfold emit_and_decode
    split_ifs
    · exact hp
    · apply decode_loop_hist
      obtain ⟨h1, h2, _, _⟩ := first_token_kv state callback
        (prefill_loop exp state fe (fe.length / embed_dim) (fe.length / embed_dim) 0 s0)
      exact hist_inv_keep _ _ hp h1 h2

theorem prefill_loop_done [LinearOrderedField α] (exp : α → α) (state : MedGemmaState α)
    (fe : List α) (total : Nat) (fuel cs : Nat) (s : Inference α) (h : total ≤ cs) :
    prefill_loop exp state fe total fuel cs s = s := by
  cases fuel with
  | zero => rfl
  | succ fuel => simp [prefill_loop, not_lt.mpr h]

/-- A prefill that does not throw ends with `kv_len` equal to the fused length
and with exactly one sampled id. -/
theorem prefill_loop_result [LinearOrderedField α] (exp : α → α) (state : MedGemmaState α)
    (fe : List α) (total : Nat) (fuel cs : Nat) (s : Inference α)
    (hcs : cs < total) (hfuel : total ≤ cs + fuel) (hk : s.kv_len = cs)
    (hs : s.sampled = [])
    (hth : (prefill_loop exp state fe total fuel cs s).thrown = none) :
    (prefill_loop exp state fe total fuel cs s).kv_len = total ∧
    (prefill_loop exp state fe total fuel cs s).sampled =
      [(prefill_loop exp state fe total fuel cs s).next_id] := by
  induction fuel generalizing cs s with
  | zero => omega
  | succ fuel ih =>
    simp only [prefill_loop, if_pos hcs] at hth ⊢
    cases hc : (prefill_chunk exp state fe total cs s).thrown with
    | some e =>
      simp only [hc] at hth ⊢
      exact absurd hth (by simp)
    | none =>
      simp only [hc] at hth ⊢
      rcases prefill_chunk_cases exp state fe total cs s with
        ⟨hne, _⟩ | ⟨_, hk', _, ⟨hlast, hs'⟩ | ⟨hnot, hs'⟩⟩
      · exact absurd hc hne
      · have hdone : total ≤ cs + PREFILL_CHUNK := by
          simp only [PREFILL_CHUNK] at hlast ⊢; omega
        rw [prefill_loop_done exp state fe total fuel _ _ hdone]
        refine ⟨?_, ?_⟩
        · rw [hk', hk]; simp only [PREFILL_CHUNK] at hlast ⊢; omega
        · rw [hs', hs]; rfl
      · have h16 : min PREFILL_CHUNK (total - cs) = PREFILL_CHUNK := by
          simp only [PREFILL_CHUNK] at hnot ⊢; omega
        rw [h16] at hnot hk'
        exact ih (cs + PREFILL_CHUNK) _ hnot (by simp only [PREFILL_CHUNK]; omega)
          (by rw [hk', hk]) (by rw [hs', hs]) hth

theorem stop_flags_of_no_tokens (events : List Event) (h : token_count events = 0) :
    stop_flags events = [] := by
  unfold stop_flags
  rw [List.filterMap_eq_nil_iff]
  intro e he
  have hno := (List.countP_eq_zero.mp h) e he
  cases e with
  | token id text stop => simp [Event.isToken] at hno
  | diag m => rfl

theorem emit_total (state : MedGemmaState α) (events : List Event) (id : Int) (stop : Bool)
    (hdecode : ∀ id, ∃ text, state.tokenizer.decode id = some text) :
    ∃ text, emit state true events id stop = events ++ [Event.token id text stop] := by
  obtain ⟨text, ht⟩ := hdecode id
  exact ⟨text, by simp [emit, ht, call_back]⟩

theorem completed_steps_token (f : Nat) (events : List Event) (id : Int) (text : List Nat)
    (stop : Bool) (hf : f ≤ (stop_flags events).length) :
    completed_steps f (events ++ [Event.token id text stop]) =
      completed_steps f events + (if stop then 0 else 1) := by
  unfold completed_steps
  rw [stop_flags_append_token, List.drop_append_of_le_length hf, List.count_append]
  cases stop <;> simp

theorem completed_steps_diag (f : Nat) (events : List Event) (msg : String) :
    completed_steps f (call_back true events (.diag msg)) = completed_steps f events := by
  simp [completed_steps, call_back, stop_flags_append_diag]

theorem decode_step_steps [LinearOrderedField α] (exp : α → α) (state : MedGemmaState α)
    (plat : Platform) (step : Nat) (s : Inference α) (L f : Nat)
    (hdecode : ∀ id, ∃ text, state.tokenizer.decode id = some text)
    (h : steps_inv L f s)
    (hgo : (decode_step exp state plat true step s).2 = true ∨
      (decode_step exp state plat true step s).1.thrown = none) :
    steps_inv L f (decode_step exp state plat true step s).1 := by
  obtain ⟨hf, hk⟩ := h
  unfold steps_inv
  rcases decode_step_cases exp state plat true step s with
    ⟨h2, hth, _⟩ | ⟨id, _, _, hcase⟩
  · rcases hgo with hgo | hgo
    · rw [h2] at hgo; exact absurd hgo (by simp)
    · exact absurd hgo hth
  · obtain ⟨text, ht⟩ := emit_total state s.events id true hdecode
    obtain ⟨text', ht'⟩ := emit_total state s.events id false hdecode
    rcases hcase with ⟨_, _, he, _, hk', _⟩ | ⟨_, _, he, _, hk', _⟩ |
      ⟨_, _, hk', _, ⟨_, he⟩ | ⟨_, he⟩⟩
    · rw [he, hk']; exact ⟨hf, hk⟩
    · rw [he, hk', ht, completed_steps_token f _ _ _ _ hf, stop_flags_append_token]
      exact ⟨by simp; omega, by simpa using hk⟩
    · rw [he, hk', ht', completed_steps_token f _ _ _ _ hf, stop_flags_append_token]
      exact ⟨by simp; omega, by simp; omega⟩
    · rw [he, hk', ht', completed_steps_diag, completed_steps_token f _ _ _ _ hf]
      refine ⟨?_, by simp; omega⟩
      simp only [call_back, if_true, stop_flags_append_diag, stop_flags_append_token]
      simp; omega

theorem decode_loop_steps [LinearOrderedField α] (exp : α → α) (state : MedGemmaState α)
    (plat : Platform) (L f : Nat)
    (hdecode : ∀ id, ∃ text, state.tokenizer.decode id = some text)
    (remaining step : Nat) (s : Inference α) (h : steps_inv L f s)
    (hth : (decode_loop exp state plat true remaining step s).thrown = none) :
    steps_inv L f (decode_loop exp state plat true remaining step s) := by
  induction remaining generalizing step s with
  | zero => exact h
  | succ n ih =>
    simp only [decode_loop] at hth ⊢
    split_ifs at hth ⊢ with hst hcont
    · exact h
    · exact ih _ _ (decode_step_steps exp state plat step s L f hdecode h (Or.inl hcont)) hth
    · exact decode_step_steps exp state plat step s L f hdecode h (Or.inr hth)

theorem decode_step_sampled [LinearOrderedField α] (exp : α → α) (state : MedGemmaState α)
    (plat : Platform) (callback : Bool) (step : Nat) (s : Inference α) :
    ∃ t, (decode_step exp state plat callback step s).1.sampled = s.sampled ++ t := by
  rcases decode_step_cases exp state plat callback step s with
    ⟨_, _, _, hs, _⟩ | ⟨id, hs, _⟩
  · exact ⟨[], by rw [hs]; simp⟩
  · exact ⟨[id], hs⟩

theorem decode_loop_sampled [LinearOrderedField α] (exp : α → α) (state : MedGemmaState α)
    (plat : Platform) (callback : Bool) (remaining step : Nat) (s : Inference α) :
    ∃ t, (decode_loop exp state plat callback remaining step s).sampled = s.sampled ++ t := by
  induction remaining generalizing step s with
  | zero => exact ⟨[], by simp [decode_loop]⟩
  | succ n ih =>
    simp only [decode_loop]
    obtain ⟨t, ht⟩ := decode_step_sampled exp state plat callback step s
    split_ifs
    · exact ⟨[], by simp⟩
    · obtain ⟨u, hu⟩ := ih (step + 1) (decode_step exp state plat callback step s).1
      exact ⟨t ++ u, by rw [hu, ht, List.append_assoc]⟩
    · exact ⟨t, ht⟩

theorem completed_steps_nil (f : Nat) (events : List Event) (h : stop_flags events = []) :
    completed_steps f events = 0 := by
  simp [completed_steps, h]

/-- The length of the cache after the first token and the decode loop. -/
theorem emit_and_decode_steps [LinearOrderedField α] (exp : α → α) (state : MedGemmaState α)
    (plat : Platform) (max_tokens : Int) (s : Inference α) (L : Nat)
    (hdecode : ∀ id, ∃ text, state.tokenizer.decode id = some text)
    (hflags : stop_flags s.events = []) (hk : s.kv_len = L)
    (hs : s.next_id < 0 ∨ s.sampled = [s.next_id])
    (hth : (emit_and_decode exp state plat max_tokens true s).thrown = none) :
    (emit_and_decode exp state plat max_tokens true s).kv_len =
      L + completed_steps (first_emitted (emit_and_decode exp state plat max_tokens true s).sampled)
        (emit_and_decode exp state plat max_tokens true s).events := by
  unfold emit_and_decode at hth ⊢
  split_ifs at hth ⊢ with hneg
  · show s.kv_len = L + completed_steps (first_emitted s.sampled)
      (call_back true s.events (.diag "[ERR] Prefill failed"))
    rw [completed_steps_diag, completed_steps_nil _ _ hflags, hk]
    rfl
  · simp only [] at hth ⊢
    have hs' : s.sampled = [s.next_id] := hs.resolve_left hneg
    obtain ⟨t, ht⟩ := decode_loop_sampled exp state plat true (max_tokens - 1).toNat 0
      (first_token state true s)
    obtain ⟨hfk, _, hfs, _⟩ := first_token_kv state true s
    rw [hfs, hs'] at ht
    have hfirst : first_emitted (decode_loop exp state plat true (max_tokens - 1).toNat 0
        (first_token state true s)).sampled = first_emitted [s.next_id] := by
      rw [ht]; rfl
    rw [hfirst]
    refine (decode_loop_steps exp state plat _ _ hdecode _ _ _ ?_ hth).2
    unfold steps_inv
    rw [hfk, hk]
    unfold first_token
    by_cases hEOS : s.next_id ∈ EOS_IDS
    · simp [hEOS, first_emitted, completed_steps, hflags]
    · obtain ⟨text, htext⟩ := emit_total state s.events s.next_id
        (check_stop (state.tokenizer.decode s.next_id) s.stop_buf).1 hdecode
      simp only [hEOS, not_false_eq_true, if_true, first_emitted, if_false, htext,
        completed_steps, stop_flags_append_token, hflags]
      simp

/-- The length of the cache when `generate` ends without an exception. -/
theorem generate_steps [LinearOrderedField α] (exp : α → α) (state : MedGemmaState α)
    (plat : Platform) (max_tokens : Int) (fe : List α) (events : List Event)
    (cache : Option (List Bool)) (hcount : token_count events = 0)
    (hdecode : ∀ id, ∃ text, state.tokenizer.decode id = some text)
    (hth : (generate exp state plat max_tokens true fe (init_inference events cache)).thrown =
      none) :
    (generate exp state plat max_tokens true fe (init_inference events cache)).kv_len =
      fe.length / embed_dim +
        completed_steps
          (first_emitted
            (generate exp state plat max_tokens true fe (init_inference events cache)).sampled)
          (generate exp state plat max_tokens true fe (init_inference events cache)).events := by
  have hflags := stop_flags_of_no_tokens events hcount
  have hframe := prefill_loop_frame exp state fe (fe.length / embed_dim)
    (fe.length / embed_dim) 0 (init_inference events cache)
  have hsp_flags : stop_flags (prefill_loop exp state fe (fe.length / embed_dim)
      (fe.length / embed_dim) 0 (init_inference events cache)).events = [] := by
    rw [hframe.1]; exact hflags
  unfold generate at hth ⊢
  simp only [] at hth ⊢
  cases hpth : (prefill_loop exp state fe (fe.length / embed_dim) (fe.length / embed_dim) 0
      (init_inference events cache)).thrown with
  | some e =>
    simp only [hpth] at hth ⊢
    exact absurd hth (by simp)
  | none =>
    simp only [hpth] at hth ⊢
    by_cases hL : fe.length / embed_dim = 0
    · have h0 : prefill_loop exp state fe (fe.length / embed_dim) (fe.length / embed_dim) 0
          (init_inference events cache) = init_inference events cache := by
        rw [hL]; rfl
      apply emit_and_decode_steps exp state plat max_tokens _ _ hdecode hsp_flags _ _ hth
      · rw [h0, hL]; rfl
      · left; rw [h0]; simp [init_inference]
    · obtain ⟨hk, hs⟩ := prefill_loop_result exp state fe (fe.length / embed_dim)
        (fe.length / embed_dim) 0 (init_inference events cache) (Nat.pos_of_ne_zero hL)
        (by omega) rfl rfl hpth
      exact emit_and_decode_steps exp state plat max_tokens _ _ hdecode hsp_flags hk
        (Or.inr hs) hth

/-- The inference once the vision stage and the fusion loop have returned. -/
theorem run_eq_generate [LinearOrderedField α] (exp : α → α) (plat : Platform)
    (state : MedGemmaState α) (image : Option (Except String (List α)))
    (prompt : List Nat) (max_tokens : Int) (callback : Bool) (cache : Option (List Bool))
    (patch fe : List α) (am : List Int) (inj : Nat)
    (hv : (vision_stage state plat image callback).2 = .ok patch)
    (hf : fuse_loop state patch (build_tokens state prompt) ([], [], 0) = .ok (fe, am, inj)) :
    run_medgemma_inference exp plat (some state) image prompt max_tokens callback cache =
      catch_exception callback
        (generate exp state plat (effective_max_tokens max_tokens) callback fe
          (init_inference
            (if inj = 0 ∧ image.isSome then
              call_back callback (vision_stage state plat image callback).1
                (.diag warn_not_grounded)
             else (vision_stage state plat image callback).1) cache)) := by
  unfold run_medgemma_inference
  simp only [hv, hf]

theorem catch_exception_none (callback : Bool) (s : Inference α)
    (h : (catch_exception callback s).thrown = none) : catch_exception callback s = s := by
  unfold catch_exception at h ⊢
  split at h
  · simp at h
    rename_i e he
    rw [he] at h
    exact absurd h (by simp)
  · rename_i he
    simp [he]

theorem hist_inv_init (events : List Event) (cache : Option (List Bool)) :
    hist_inv (init_inference events cache : Inference α) := by
  simp [hist_inv, init_inference]

/-! ### Two inferences evaluated -/

theorem example_mask (ids : List Int) (logits : Nat → List ℝ) (cache : Option (List Bool))
    (hc : cache = none ∨ cache = some [false, false, false, false]) :
    get_foreign_mask (example_state ids [65] logits).tokenizer 4 cache =
      ([false, false, false, false], some [false, false, false, false]) := by
  rcases hc with rfl | rfl
  · simp [get_foreign_mask, example_state, is_english_token, List.range_succ]
  · rfl

/-- The sampler as the orchestrator calls it, on four logits, an empty window
and the tokenizer of the example (the fragment `A` is English: nothing is masked). -/
theorem sample_example (ids : List Int) (logits : Nat → List ℝ) (lg : List ℝ)
    (hlg : lg.length = 4) (cache : Option (List Bool))
    (hc : cache = none ∨ cache = some [false, false, false, false]) :
    sample_top_p Real.exp lg (3 / 4) (29 / 100) (some []) (13 / 10)
      (some (example_state ids [65] logits).tokenizer) cache =
    (top_p Real.exp lg (3 / 4) (29 / 100), some [false, false, false, false]) := by
  have hm := example_mask ids logits cache hc
  match lg, hlg with
  | [a, b, c, d], _ =>
    simp only [sample_top_p, List.length_cons, List.length_nil, hm]
    norm_num [mask_foreign, rep_penalize]

theorem check_stop_A : check_stop (some [65]) [] = (false, [65]) := by decide

theorem past_len_empty_kv : past_len (empty_kv : List (Tensor α)) = 0 := rfl

theorem past_len_example_present (K : Nat) :
    past_len (example_present K : List (Tensor α)) = K := rfl

theorem ex_m_sess [Zero α] (ids : List Int) (frag : List Nat) (logits : Nat → List α)
    (e : Tensor α) (m : Tensor Int) (past : List (Tensor α)) :
    (example_state ids frag logits).m_sess e m past =
      .ok { logits := ⟨[1, e.shape.getD 1 0, (logits m.data.length).length],
                       (List.range (e.shape.getD 1 0)).flatMap fun _ => logits m.data.length⟩
            present := example_present (past_len past + e.shape.getD 1 0) } := rfl

theorem ex_e_sess [Zero α] (ids : List Int) (frag : List Nat) (logits : Nat → List α)
    (id : Int) : (example_state ids frag logits).e_sess id = .ok fun _ => 0 := rfl

theorem ex_decode [Zero α] (ids : List Int) (frag : List Nat) (logits : Nat → List α)
    (id : Int) : (example_state ids frag logits).tokenizer.decode id = some frag := rfl

theorem ex_encode [Zero α] (ids : List Int) (frag : List Nat) (logits : Nat → List α)
    (pr : List Nat) : (example_state ids frag logits).tokenizer.encode pr = ids := rfl

theorem ex_image_token_id [Zero α] (ids : List Int) (frag : List Nat)
    (logits : Nat → List α) : (example_state ids frag logits).image_token_id = 255999 := rfl

theorem example_row_rows :
    (List.ofFn (fun _ : Fin embed_dim => (0 : ℝ))).length / embed_dim = 1 := by
  rw [List.length_ofFn]; exact Nat.div_self embed_dim_pos

/-- The decoder of the example handle keeps the contract of section 6. -/
theorem example_decoder_extends [Zero α] (ids : List Int) (frag : List Nat)
    (logits : Nat → List α) : decoder_extends_kv (example_state ids frag logits) := by
  intro e m past out K n hout hkv he
  rw [ex_m_sess] at hout
  injection hout with hout
  subst hout
  have hpast : past_len past = K := by
    obtain ⟨hlen, hall⟩ := hkv
    cases past with
    | nil => simp at hlen
    | cons t ts => simp [past_len, hall t (List.mem_cons_self _ _)]
  refine ⟨by simp [example_present], ?_⟩
  intro t ht
  simp only [example_present] at ht
  rw [(List.mem_replicate.mp ht).2, hpast, he]
  rfl

/-- The text-only prompt of one BOS token, `max_tokens = 1`, a decoder whose
logits are `[0.29, 0, 0, 0]`: the prefill samples id 2, which is emitted, and
the decode loop does not run. -/
theorem example_run_one :
    (run_medgemma_inference Real.exp no_meminfo
      (some (example_state [] [65] fun _ => [29 / 100, 0, 0, 0])) none [] 1 true none).kv_len =
      1 ∧
    (run_medgemma_inference Real.exp no_meminfo
      (some (example_state [] [65] fun _ => [29 / 100, 0, 0, 0])) none [] 1 true none).events =
      [.token 2 [65] false] ∧
    (run_medgemma_inference Real.exp no_meminfo
      (some (example_state [] [65] fun _ => [29 / 100, 0, 0, 0])) none [] 1 true none).sampled =
      [2] ∧
    (run_medgemma_inference Real.exp no_meminfo
      (some (example_state [] [65] fun _ => [29 / 100, 0, 0, 0])) none [] 1 true none).thrown =
      none := by
  simp [run_medgemma_inference, vision_stage, build_tokens, fuse_loop, generate,
    example_row_rows, prefill_loop, prefill_chunk, effective_max_tokens, init_inference,
    PREFILL_CHUNK, ex_m_sess, ex_e_sess, ex_decode, ex_encode, ex_image_token_id,
    past_len_empty_kv, last_logits, sample_next, sample_example, top_p_one_hot,
    Nat.div_self embed_dim_pos, emit_and_decode, first_token, decode_loop, catch_exception,
    List.range_succ, EOS_IDS, check_stop_A, emit, call_back, push_generated]

/-- The fusion of the example prompt: the row of BOS. -/
theorem example_fuse (logits : Nat → List ℝ) :
    fuse_loop (example_state [] [65] logits) []
        (build_tokens (example_state [] [65] logits) []) ([], [], 0) =
      .ok (List.ofFn (fun _ : Fin embed_dim => (0 : ℝ)), [1], 0) := by
  simp [fuse_loop, build_tokens, ex_e_sess, ex_encode, ex_image_token_id]

/-- C1 (failing input): the prompt of one BOS token, `max_tokens = 2`, a
decoder whose logits are all zero on the prefill chunk and `[0.29, 0, 0, 0]`
afterwards. The prefill samples the EOS id 1; the decoder is run a second
time all the same (a decode step on a cache of length 1), id 2 is sampled
and its text is handed to the callback. -/
theorem first_eos_does_not_stop :
    (run_medgemma_inference Real.exp no_meminfo
      (some (example_state [] [65]
        fun n => if n = 1 then [0, 0, 0, 0] else [29 / 100, 0, 0, 0])) none [] 2 true
      none).sampled = [1, 2] ∧
    (1 : Int) ∈ EOS_IDS ∧
    ((run_medgemma_inference Real.exp no_meminfo
      (some (example_state [] [65]
        fun n => if n = 1 then [0, 0, 0, 0] else [29 / 100, 0, 0, 0])) none [] 2 true
      none).calls.map fun c => c.kv_len) = [0, 1] ∧
    (run_medgemma_inference Real.exp no_meminfo
      (some (example_state [] [65]
        fun n => if n = 1 then [0, 0, 0, 0] else [29 / 100, 0, 0, 0])) none [] 2 true
      none).events = [.token 2 [65] false] ∧
    (run_medgemma_inference Real.exp no_meminfo
      (some (example_state [] [65]
        fun n => if n = 1 then [0, 0, 0, 0] else [29 / 100, 0, 0, 0])) none [] 2 true
      none).kv_len = 2 := by
  simp [run_medgemma_inference, vision_stage, build_tokens, fuse_loop, generate,
    example_row_rows, prefill_loop, prefill_chunk, effective_max_tokens, init_inference,
    PREFILL_CHUNK, ex_m_sess, ex_e_sess, ex_decode, ex_encode, ex_image_token_id,
    past_len_empty_kv, last_logits, sample_next, sample_example, top_p_one_hot, top_p_zeros,
    Nat.div_self embed_dim_pos, emit_and_decode, first_token, decode_loop, decode_step,
    no_meminfo, catch_exception, List.range_succ, EOS_IDS, check_stop_A, emit, call_back,
    push_generated]

/-- C7 (counterexample): with `max_tokens = 1` and a first sampled id 2 the
inference ends without an exception with `kv_len = 1`, while the fused length
is 1, one token was emitted and no EOS id was sampled: 1 ≠ 1 + 1 + 0. -/
theorem kv_len_formula_fails :
    (run_medgemma_inference Real.exp no_meminfo
      (some (example_state [] [65] fun _ => [29 / 100, 0, 0, 0])) none [] 1 true none).thrown =
      none ∧
    ∃ fe am inj,
      fuse_loop (example_state (α := ℝ) [] [65] fun _ => [29 / 100, 0, 0, 0]) []
        (build_tokens (example_state (α := ℝ) [] [65] fun _ => [29 / 100, 0, 0, 0]) [])
        ([], [], 0) = .ok (fe, am, inj) ∧
      (run_medgemma_inference Real.exp no_meminfo
        (some (example_state [] [65] fun _ => [29 / 100, 0, 0, 0])) none [] 1 true
        none).kv_len ≠
        fused_rows fe +
          token_count (run_medgemma_inference Real.exp no_meminfo
            (some (example_state [] [65] fun _ => [29 / 100, 0, 0, 0])) none [] 1 true
            none).events +
          eos_sampled (run_medgemma_inference Real.exp no_meminfo
            (some (example_state [] [65] fun _ => [29 / 100, 0, 0, 0])) none [] 1 true
            none).sampled := by
  obtain ⟨hk, he, hs, hth⟩ := example_run_one
  refine ⟨hth, List.ofFn (fun _ : Fin embed_dim => (0 : ℝ)), [1], 0, example_fuse _, ?_⟩
  rw [hk, he, hs]
  have hrows : fused_rows (List.ofFn (fun _ : Fin embed_dim => (0 : ℝ))) = 1 := by
    rw [fused_rows, List.length_ofFn, Nat.div_self embed_dim_pos]
  rw [hrows]
  decide

/-- C8 (witness): the example decoder keeps the contract, and the runs of an
inference on it are well-formed. -/
theorem decoder_runs_well_formed_witness :
    decoder_extends_kv (example_state [] [65] fun _ => ([29 / 100, 0, 0, 0] : List ℝ)) ∧
    ∀ c ∈ (run_medgemma_inference Real.exp no_meminfo
        (some (example_state [] [65] fun _ => [29 / 100, 0, 0, 0])) none [] 4 true none).calls,
      kv_has_len c.kv_len c.past :=
  ⟨example_decoder_extends _ _ _,
   fun c hc => (decoder_runs_well_formed Real.exp no_meminfo
      (example_state [] [65] fun _ => [29 / 100, 0, 0, 0]) none [] 4 true none
      (example_decoder_extends _ _ _) c hc).1⟩

/-! ### The generated-id window -/

/-- The prefill inside `generate` is `prefill` on the rows of the fused buffer. -/
theorem generate_eq_prefill [LinearOrderedField α] (exp : α → α) (state : MedGemmaState α)
    (plat : Platform) (max_tokens : Int) (callback : Bool) (fe : List α) (s0 : Inference α) :
    generate exp state plat max_tokens callback fe s0 =
      match (prefill exp state fe (fused_rows fe) s0).thrown with
      | some _ => prefill exp state fe (fused_rows fe) s0
      | none => emit_and_decode exp state plat max_tokens callback
          (prefill exp state fe (fused_rows fe) s0) := rfl

theorem prefill_chunk_call [LinearOrderedField α] (exp : α → α) (state : MedGemmaState α)
    (fe : List α) (total cs : Nat) (s : Inference α) :
    (prefill_chunk exp state fe total cs s).calls.map chunk_view =
      s.calls.map chunk_view ++
        [(s.kv_len, ⟨[1, min PREFILL_CHUNK (total - cs), embed_dim],
          (fe.drop (cs * embed_dim)).take (min PREFILL_CHUNK (total - cs) * embed_dim)⟩)] := by
  unfold prefill_chunk
  simp only []
  split
  · simp [chunk_view]
  · split_ifs <;> simp [chunk_view, sample_next]

theorem prefill_loop_chunks [LinearOrderedField α] (exp : α → α) (state : MedGemmaState α)
    (fe : List α) (L : Nat) (fuel k : Nat) (s : Inference α) (hk : s.kv_len = 16 * k)
    (hfuel : L ≤ 16 * k + fuel)
    (hth : (prefill_loop exp state fe L fuel (16 * k) s).thrown = none) :
    (prefill_loop exp state fe L fuel (16 * k) s).calls.map chunk_view =
      s.calls.map chunk_view ++
        (List.range' k ((L + 15) / 16 - k)).map fun i =>
          chunk_rows fe (16 * i, min 16 (L - 16 * i)) := by
  induction fuel generalizing k s with
  | zero =>
    have h0 : (L + 15) / 16 - k = 0 := by omega
    simp [prefill_loop, h0]
  | succ fuel ih =>
    by_cases hcs : 16 * k < L
    · simp only [prefill_loop, if_pos hcs] at hth ⊢
      cases hc : (prefill_chunk exp state fe L (16 * k) s).thrown with
      | some e =>
        simp only [hc] at hth
        exact absurd hth (by simp)
      | none =>
        simp only [hc] at hth ⊢
        have hcall := prefill_chunk_call exp state fe L (16 * k) s
        rcases prefill_chunk_cases exp state fe L (16 * k) s with
          ⟨hne, _⟩ | ⟨_, hk', _, ⟨hlast, _⟩ | ⟨hnot, _⟩⟩
        · exact absurd hc hne
        · have hdone : L ≤ 16 * k + PREFILL_CHUNK := by
            simp only [PREFILL_CHUNK] at hlast ⊢; omega
          have h1 : (L + 15) / 16 - k = 1 := by
            simp only [PREFILL_CHUNK] at hlast; omega
          rw [prefill_loop_done exp state fe L fuel _ _ hdone, hcall, h1, hk]
          simp [chunk_rows, PREFILL_CHUNK]
        · have h16 : min PREFILL_CHUNK (L - 16 * k) = 16 := by
            simp only [PREFILL_CHUNK] at hnot ⊢; omega
          have hstep : 16 * k + PREFILL_CHUNK = 16 * (k + 1) := by
            simp only [PREFILL_CHUNK]; omega
          rw [hstep] at hth ⊢
          have hn : (L + 15) / 16 - k = ((L + 15) / 16 - (k + 1)) + 1 := by
            simp only [PREFILL_CHUNK] at hnot; omega
          rw [ih (k + 1) _ (by rw [hk', hk, h16]; omega) (by omega) hth, hcall, hn,
            List.range'_succ, hk]
          simp [chunk_rows, PREFILL_CHUNK]
    · have h0 : (L + 15) / 16 - k = 0 := by omega
      simp [prefill_loop, hcs, h0]

theorem prefill_chunk_no_throw [LinearOrderedField α] (exp : α → α)
    (state : MedGemmaState α) (fe : List α) (total cs : Nat) (s : Inference α)
    (hm : ∀ e m kv, ∃ out, state.m_sess e m kv = .ok out) :
    (prefill_chunk exp state fe total cs s).thrown = s.thrown := by
  obtain ⟨out, ho⟩ := hm
    ⟨[1, min PREFILL_CHUNK (total - cs), embed_dim],
      (fe.drop (cs * embed_dim)).take (min PREFILL_CHUNK (total - cs) * embed_dim)⟩
    ⟨[1, s.kv_len + min PREFILL_CHUNK (total - cs)],
      List.replicate (s.kv_len + min PREFILL_CHUNK (total - cs)) 1⟩ s.kv
  unfold prefill_chunk
  simp only [ho]
  split_ifs <;> simp [sample_next]

theorem prefill_loop_no_throw [LinearOrderedField α] (exp : α → α)
    (state : MedGemmaState α) (fe : List α) (total fuel cs : Nat) (s : Inference α)
    (hm : ∀ e m kv, ∃ out, state.m_sess e m kv = .ok out) (hs : s.thrown = none) :
    (prefill_loop exp state fe total fuel cs s).thrown = none := by
  induction fuel generalizing cs s with
  | zero => exact hs
  | succ fuel ih =>
    have hc := prefill_chunk_no_throw exp state fe total cs s hm
    rw [hs] at hc
    simp only [prefill_loop]
    split_ifs
    · simp only [hc]
      exact ih _ _ hc
    · exact hs

/-- C18: a prefill of `L` rows that does not throw runs the decoder on the
chunks of the specification, in order: chunk `i` starts at row `16 * i`, which
is the value of `kv_len` at that run, and holds the rows up to the next start;
there are `ceil(L / 16)` chunks, each of 16 rows except the last, which has
between 1 and 16 and ends at `L`; `kv_len` is `L` after the loop; a chunk that
is not the last samples nothing, the last samples one id. -/
theorem prefill_chunks_partition [LinearOrderedField α] (exp : α → α)
    (state : MedGemmaState α) (fe : List α) (L : Nat) (events : List Event)
    (cache : Option (List Bool))
    (hth : (prefill exp state fe L (init_inference events cache)).thrown = none) :
    (prefill exp state fe L (init_inference events cache)).calls.map chunk_view =
      (spec_chunks L).map (chunk_rows fe) ∧
    (spec_chunks L).length = (L + 15) / 16 ∧
    (∀ i < (L + 15) / 16,
      (spec_chunks L).getD i (0, 0) = (16 * i, min 16 (L - 16 * i)) ∧
      1 ≤ min 16 (L - 16 * i) ∧ min 16 (L - 16 * i) ≤ 16 ∧
      (i + 1 < (L + 15) / 16 → min 16 (L - 16 * i) = 16) ∧
      (i + 1 = (L + 15) / 16 → 16 * i + min 16 (L - 16 * i) = L)) ∧
    (prefill exp state fe L (init_inference events cache)).kv_len = L ∧
    (prefill exp state fe L (init_inference events cache)).sampled.length =
      (if L = 0 then 0 else 1) ∧
    (∀ (cs : Nat) (s : Inference α), cs + min PREFILL_CHUNK (L - cs) < L →
      (prefill_chunk exp state fe L cs s).sampled = s.sampled) ∧
    (∀ (cs : Nat) (s : Inference α), L ≤ cs + min PREFILL_CHUNK (L - cs) →
      (prefill_chunk exp state fe L cs s).thrown = none →
      (prefill_chunk exp state fe L cs s).sampled =
        s.sampled ++ [(prefill_chunk exp state fe L cs s).next_id]) := by
  unfold prefill at hth ⊢
  refine ⟨?_, by simp [spec_chunks], ?_, ?_, ?_, ?_, ?_⟩
  · have h := prefill_loop_chunks exp state fe L L 0 (init_inference events cache) rfl
      (by omega) hth
    rw [Nat.mul_zero] at h
    rw [h]
    simp [init_inference, spec_chunks, List.range_eq_range']
  · intro i hi
    refine ⟨?_, by omega, by omega, by omega, by omega⟩
    simp [spec_chunks, List.getD_eq_getElem?_getD, hi]
  · by_cases hL : 0 < L
    · exact (prefill_loop_result exp state fe L L 0 _ hL (by omega) rfl rfl hth).1
    · have h0 : L = 0 := by omega
      subst h0
      rfl
  · by_cases hL : 0 < L
    · rw [(prefill_loop_result exp state fe L L 0 _ hL (by omega) rfl rfl hth).2,
        if_neg (by omega)]
      rfl
    · have h0 : L = 0 := by omega
      subst h0
      rfl
  · intro cs s hlt
    rcases prefill_chunk_cases exp state fe L cs s with
      ⟨_, _, _, h⟩ | ⟨_, _, _, ⟨hlast, _⟩ | ⟨_, h⟩⟩
    · exact h
    · omega
    · exact h
  · intro cs s hge hnone
    rcases prefill_chunk_cases exp state fe L cs s with
      ⟨hne, _⟩ | ⟨_, _, _, ⟨_, h⟩ | ⟨hnot, _⟩⟩
    · exact absurd hnone hne
    · exact h
    · omega

/-- C18 (witness): 17 rows on the example decoder, two chunks, starting at rows 0 and 16. -/
theorem prefill_chunks_partition_witness :
    (prefill Real.exp (example_state [] [65] fun _ => [29 / 100, 0, 0, 0])
      (List.replicate (17 * embed_dim) 0) 17 (init_inference [] none)).thrown = none ∧
    (prefill Real.exp (example_state [] [65] fun _ => [29 / 100, 0, 0, 0])
      (List.replicate (17 * embed_dim) 0) 17 (init_inference [] none)).kv_len = 17 ∧
    ((prefill Real.exp (example_state [] [65] fun _ => [29 / 100, 0, 0, 0])
      (List.replicate (17 * embed_dim) 0) 17 (init_inference [] none)).calls.map
        fun c => (chunk_view c).1) = [0, 16] := by
  have hth : (prefill Real.exp (example_state [] [65] fun _ => [29 / 100, 0, 0, 0])
      (List.replicate (17 * embed_dim) 0) 17 (init_inference [] none)).thrown = none :=
    prefill_loop_no_throw _ _ _ _ _ _ _ (fun e m kv => ⟨_, rfl⟩) rfl
  have h := prefill_chunks_partition Real.exp (example_state [] [65] fun _ => [29 / 100, 0, 0, 0])
    (List.replicate (17 * embed_dim) 0) 17 [] none hth
  refine ⟨hth, h.2.2.2.1, ?_⟩
  have h1 := congrArg (List.map Prod.fst) h.1
  rw [List.map_map] at h1
  rw [show (fun c : DecoderCall ℝ => (chunk_view c).1) = Prod.fst ∘ chunk_view from rfl, h1]
  simp [spec_chunks, chunk_rows, List.range_succ]

end OrchestratorTheory

section LoaderTheory
variable {α : Type}

theorem probe_image_token_eq (ids : List Int) (d : Int) :
    probe_image_token ids d = (first_non_bos ids).getD d := by
  induction ids with
  | nil => rfl
  | cons id rest ih =>
    by_cases h : id = 2
    · simp [probe_image_token, first_non_bos, h] at ih ⊢
      exact ih
    · simp [probe_image_token, first_non_bos, h]

theorem first_non_bos_ne {ids : List Int} {id : Int} (h : first_non_bos ids = some id) :
    id ≠ 2 := by
  have := List.find?_some h
  simpa using this

theorem discover_image_token_eq (tok : OgaTokenizer) (encode_probe : Bool) :
    discover_image_token tok encode_probe =
      match (if encode_probe then first_non_bos (tok.encode (cstr "<image>")) else none) with
      | some id => if id < 0 then 255999 else id
      | none => 255999 := by
  unfold discover_image_token
  cases encode_probe with
  | false => simp
  | true =>
    simp only [if_true, probe_image_token_eq]
    cases first_non_bos (tok.encode (cstr "<image>")) with
    | none => simp
    | some id => simp

theorem load_fields (files : ModelFiles α) (l : EngineHandle α)
    (hload : load_medgemma_4bit files = some l) :
    l.tokenizer = (load_tokenizer files).1 ∧ l.image_token_id = (load_tokenizer files).2 := by
  unfold load_medgemma_4bit MedGemmaState.new at hload
  cases hv : files.v_sess <;> cases hp : files.p_sess <;> cases he : files.e_sess <;>
    cases hm : files.m_sess <;> simp [hv, hp, he, hm] at hload
  rw [← hload]
  exact ⟨rfl, rfl⟩

/-- The placeholder id of a loaded handle is never BOS. -/
theorem load_image_token_ne_bos (files : ModelFiles α) (l : EngineHandle α)
    (hload : load_medgemma_4bit files = some l) : l.image_token_id ≠ 2 := by
  obtain ⟨_, h2⟩ := load_fields files l hload
  rw [h2]
  unfold load_tokenizer
  split_ifs
  · cases ht : files.create_tokenizer with
    | none => simp
    | some tok =>
      simp only []
      rw [discover_image_token_eq]
      cases hf : (if files.encode_probe then first_non_bos (tok.encode (cstr "<image>"))
          else none) with
      | none => simp
      | some id =>
        have hne : id ≠ 2 := by
          cases hb : files.encode_probe with
          | false => simp [hb] at hf
          | true => simp only [hb, if_true] at hf; exact first_non_bos_ne hf
        simp only []
        split_ifs
        · decide
        · exact hne
  · simp
  · simp

/-- C14 (as amended): on a handle returned by `load_medgemma_4bit` whose
tokenizer was created, the placeholder id is the first id other than BOS in
the encoding of "<image>" when the encoding succeeds and that id is not
negative, and 255999 otherwise; on a handle without a tokenizer the id stays at
its initial value -1. The tokenizer is missing exactly when the config, the
model or the tokenizer could not be created. -/
theorem image_token_id_resolved (files : ModelFiles α) (l : EngineHandle α)
    (hload : load_medgemma_4bit files = some l) :
    (∀ tok, l.tokenizer = some tok →
      l.image_token_id =
        match (if files.encode_probe then first_non_bos (tok.encode (cstr "<image>"))
          else none) with
        | some id => if id < 0 then 255999 else id
        | none => 255999) ∧
    (l.tokenizer = none → l.image_token_id = -1) ∧
    (l.tokenizer = none ↔
      ¬ (files.create_config = true ∧ files.create_model = true ∧
        files.create_tokenizer ≠ none)) := by
  obtain ⟨h1, h2⟩ := load_fields files l hload
  rw [h1, h2]
  unfold load_tokenizer
  cases hc : files.create_config <;> cases hm : files.create_model <;>
    cases ht : files.create_tokenizer <;> simp [discover_image_token_eq]

/-- C14 (witness): a tokenizer that encodes "<image>" as `[2, 7]`; every step
of the constructor succeeds and the handle stores 7. -/
theorem image_token_id_resolved_witness :
    load_medgemma_4bit (files_of (example_state (α := ℝ) [2, 7] [65] fun _ => [0])) =
      some ⟨some (example_state (α := ℝ) [2, 7] [65] fun _ => [0]).tokenizer, 7,
        (example_state [2, 7] [65] fun _ => [0]).v_sess,
        (example_state [2, 7] [65] fun _ => [0]).p_sess,
        (example_state [2, 7] [65] fun _ => [0]).e_sess,
        (example_state [2, 7] [65] fun _ => [0]).m_sess⟩ ∧
    (7 : Int) =
      match first_non_bos [2, 7] with
      | some id => if id < 0 then 255999 else id
      | none => 255999 :=
  ⟨rfl, (image_token_id_resolved
    (files_of (example_state (α := ℝ) [2, 7] [65] fun _ => [0]))
    ⟨some (example_state (α := ℝ) [2, 7] [65] fun _ => [0]).tokenizer, 7,
      (example_state [2, 7] [65] fun _ => [0]).v_sess,
      (example_state [2, 7] [65] fun _ => [0]).p_sess,
      (example_state [2, 7] [65] fun _ => [0]).e_sess,
      (example_state [2, 7] [65] fun _ => [0]).m_sess⟩ rfl).1 _ rfl⟩

/-- C14 (counterexample): the config cannot be created and the four sessions
load: a handle is returned, its tokenizer is null and its placeholder id is -1,
not 255999. -/
theorem fallback_needs_tokenizer :
    (load_medgemma_4bit
      { files_of (example_state (α := ℝ) [2, 7] [65] fun _ => [0]) with
        create_config := false }).map
      (fun l => (l.tokenizer.isSome, l.image_token_id)) = some (false, -1) ∧
    (-1 : Int) ≠ 255999 :=
  ⟨rfl, by decide⟩

end LoaderTheory

section FirstToken
variable {α : Type}

theorem sample_top_p_nonneg [LinearOrderedField α] (exp : α → α) (logits : List α) (p temp : α)
    (g : Option (List Int)) (rep : α) (tok : Option OgaTokenizer)
    (cache : Option (List Bool)) (hne : logits ≠ []) :
    0 ≤ (sample_top_p exp logits p temp g rep tok cache).1 := by
  have hlen := penalized_logits_length logits g rep tok cache
  have hpen : penalized_logits logits g rep tok cache ≠ [] := by
    intro h0
    rw [h0] at hlen
    exact hne (List.length_eq_zero.mp hlen.symm)
  rw [sample_top_p_fst]
  split_ifs
  · positivity
  · obtain ⟨r, hr, _⟩ := top_p_range exp _ p temp hpen
    rw [hr]
    positivity

theorem prefill_chunk_next_nonneg [LinearOrderedField α] (exp : α → α)
    (state : MedGemmaState α) (fe : List α) (total cs : Nat) (s : Inference α)
    (hV : ∀ e m kv out, e.shape.getD 1 0 ≠ 0 → state.m_sess e m kv = .ok out →
      last_logits out.logits ≠ [])
    (hcs : cs < total) (hlast : cs + min PREFILL_CHUNK (total - cs) ≥ total)
    (hth : (prefill_chunk exp state fe total cs s).thrown = none) :
    0 ≤ (prefill_chunk exp state fe total cs s).next_id := by
  cases hm : state.m_sess
      ⟨[1, min PREFILL_CHUNK (total - cs), embed_dim],
        (fe.drop (cs * embed_dim)).take (min PREFILL_CHUNK (total - cs) * embed_dim)⟩
      ⟨[1, s.kv_len + min PREFILL_CHUNK (total - cs)],
        List.replicate (s.kv_len + min PREFILL_CHUNK (total - cs)) 1⟩ s.kv with
  | error e => simp [prefill_chunk, hm] at hth
  | ok out =>
    have hne := hV _ _ _ out (by simp [PREFILL_CHUNK]; omega) hm
    simp only [prefill_chunk, hm, hlast, if_true, sample_next]
    exact sample_top_p_nonneg exp _ _ _ _ _ _ _ hne

theorem prefill_loop_next_nonneg [LinearOrderedField α] (exp : α → α)
    (state : MedGemmaState α) (fe : List α) (total : Nat) (fuel cs : Nat) (s : Inference α)
    (hV : ∀ e m kv out, e.shape.getD 1 0 ≠ 0 → state.m_sess e m kv = .ok out →
      last_logits out.logits ≠ [])
    (hcs : cs < total) (hfuel : total ≤ cs + fuel)
    (hth : (prefill_loop exp state fe total fuel cs s).thrown = none) :
    0 ≤ (prefill_loop exp state fe total fuel cs s).next_id := by
  induction fuel generalizing cs s with
  | zero => omega
  | succ fuel ih =>
    simp only [prefill_loop, if_pos hcs] at hth ⊢
    cases hc : (prefill_chunk exp state fe total cs s).thrown with
    | some e =>
      simp only [hc] at hth
      exact absurd hth (by simp)
    | none =>
      simp only [hc] at hth ⊢
      by_cases hlast : cs + min PREFILL_CHUNK (total - cs) ≥ total
      · have hdone : total ≤ cs + PREFILL_CHUNK := by
          simp only [PREFILL_CHUNK] at hlast ⊢; omega
        rw [prefill_loop_done exp state fe total fuel _ _ hdone]
        exact prefill_chunk_next_nonneg exp state fe total cs s hV hcs hlast hc
      · exact ih (cs + PREFILL_CHUNK) _ (by simp only [PREFILL_CHUNK] at hlast ⊢; omega)
          (by simp only [PREFILL_CHUNK]; omega) hth

/-- The fusion loop only appends to the buffer. -/
theorem fuse_loop_extends (state : MedGemmaState α) (patch : List α) :
    ∀ (tokens : List Int) (a fe : List α) (m am : List Int) (i inj : Nat),
      fuse_loop state patch tokens (a, m, i) = .ok (fe, am, inj) → ∃ t, fe = a ++ t := by
  intro tokens
  induction tokens with
  | nil =>
    intro a fe m am i inj h
    simp only [fuse_loop, Except.ok.injEq, Prod.mk.injEq] at h
    exact ⟨[], by simp [h.1]⟩
  | cons id rest ih =>
    intro a fe m am i inj h
    by_cases hid : id = state.image_token_id
    · by_cases hp : patch.isEmpty = true
      · simp only [fuse_loop, hid, if_true, hp, Bool.not_true, Bool.false_eq_true,
          if_false] at h
        exact ih _ _ _ _ _ _ h
      · simp only [fuse_loop, hid, if_true, hp, Bool.not_false] at h
        obtain ⟨t, ht⟩ := ih _ _ _ _ _ _ h
        exact ⟨patch ++ t, by rw [ht, List.append_assoc]⟩
    · cases he : state.e_sess id with
      | error e => simp [fuse_loop, hid, he] at h
      | ok row =>
        simp only [fuse_loop, hid, if_false, he] at h
        obtain ⟨t, ht⟩ := ih _ _ _ _ _ _ h
        exact ⟨List.ofFn row ++ t, by rw [ht, List.append_assoc]⟩

/-- When the placeholder id is not BOS, the fused buffer starts with the
embedding row of BOS. -/
theorem fuse_loop_bos (state : MedGemmaState α) (patch : List α) (prompt : List Nat)
    (fe : List α) (am : List Int) (inj : Nat) (hid : state.image_token_id ≠ 2)
    (hf : fuse_loop state patch (build_tokens state prompt) ([], [], 0) = .ok (fe, am, inj)) :
    ∃ row, state.e_sess 2 = .ok row ∧ fe.take embed_dim = List.ofFn row ∧
      1 ≤ fused_rows fe := by
  have hne : ¬ (2 : Int) = state.image_token_id := fun h => hid h.symm
  cases he : state.e_sess 2 with
  | error e => simp [build_tokens, fuse_loop, hne, he] at hf
  | ok row =>
    simp only [build_tokens, fuse_loop, hne, if_false, he] at hf
    obtain ⟨t, ht⟩ := fuse_loop_extends state patch _ _ _ _ _ _ _ hf
    refine ⟨row, rfl, ?_, ?_⟩
    · rw [ht, List.nil_append]
      exact List.take_left' (List.length_ofFn _)
    · unfold fused_rows
      rw [ht, List.nil_append, List.length_append, List.length_ofFn]
      exact (Nat.one_le_div_iff embed_dim_pos).mpr (Nat.le_add_right _ _)

theorem catch_exception_thrown (callback : Bool) (s : Inference α) :
    (catch_exception callback s).thrown = s.thrown := by
  unfold catch_exception
  split <;> simp_all

theorem handle_state_fields (l : EngineHandle α) (state : MedGemmaState α)
    (hstate : l.state = some state) : state.image_token_id = l.image_token_id := by
  unfold EngineHandle.state at hstate
  cases ht : l.tokenizer with
  | none => simp [ht] at hstate
  | some tok =>
    simp only [ht, Option.map_some', Option.some.injEq] at hstate
    rw [← hstate]

theorem example_logits_nonempty [Zero α] (ids : List Int) (frag : List Nat)
    (logits : Nat → List α) (hlg : ∀ n, logits n ≠ [])
    (e : Tensor α) (m : Tensor Int) (kv : List (Tensor α)) (out : DecoderOut α)
    (hn : e.shape.getD 1 0 ≠ 0) (ho : (example_state ids frag logits).m_sess e m kv = .ok out) :
    last_logits out.logits ≠ [] := by
  rw [ex_m_sess] at ho
  simp only [Except.ok.injEq] at ho
  rw [← ho]
  have hV : 0 < (logits m.data.length).length := List.length_pos.mpr (hlg _)
  have hdata : ((List.range (e.shape.getD 1 0)).flatMap fun _ => logits m.data.length).length =
      e.shape.getD 1 0 * (logits m.data.length).length := by
    simp [List.length_flatMap, Function.comp_def, List.map_const', List.sum_replicate]
  intro h0
  have hlen := congrArg List.length h0
  simp only [last_logits, List.getLastD_cons, List.prod_cons, List.prod_nil, List.length_take,
    List.length_drop, hdata, List.length_nil, List.getLastD_nil] at hlen
  have hmul : (logits m.data.length).length ≤
      e.shape.getD 1 0 * (logits m.data.length).length :=
    Nat.le_mul_of_pos_left _ (Nat.pos_of_ne_zero hn)
  simp only [one_mul, mul_one] at hlen
  omega

/-- C21: the placeholder id of a loaded handle is never BOS, so the fused buffer
of every prompt starts with the embedding row of BOS and has at least one row.
In an inference that ends without an exception, on a decoder whose logits are
not empty, the prefill therefore runs the decoder at least once and samples one
id, which is not negative, and the inference continues with the first token and
the decode loop: the bail-out of lines 901-907 is not taken. -/
theorem prefill_always_yields_token [LinearOrderedField α] (exp : α → α) (plat : Platform)
    (files : ModelFiles α) (l : EngineHandle α) (state : MedGemmaState α)
    (image : Option (Except String (List α))) (prompt : List Nat) (max_tokens : Int)
    (callback : Bool) (cache : Option (List Bool))
    (hload : load_medgemma_4bit files = some l) (hstate : l.state = some state)
    (hV : ∀ e m kv out, e.shape.getD 1 0 ≠ 0 → state.m_sess e m kv = .ok out →
      last_logits out.logits ≠ [])
    (hth : (run_medgemma_inference exp plat (some state) image prompt max_tokens callback
      cache).thrown = none) :
    l.image_token_id ≠ 2 ∧ state.image_token_id = l.image_token_id ∧
    ∃ (patch fe : List α) (am : List Int) (inj : Nat) (row : Fin embed_dim → α)
      (events : List Event),
      (vision_stage state plat image callback).2 = .ok patch ∧
      fuse_loop state patch (build_tokens state prompt) ([], [], 0) = .ok (fe, am, inj) ∧
      state.e_sess 2 = .ok row ∧ fe.take embed_dim = List.ofFn row ∧
      1 ≤ fused_rows fe ∧
      (prefill exp state fe (fused_rows fe) (init_inference events cache)).thrown = none ∧
      (prefill exp state fe (fused_rows fe) (init_inference events cache)).calls ≠ [] ∧
      (prefill exp state fe (fused_rows fe) (init_inference events cache)).sampled =
        [(prefill exp state fe (fused_rows fe) (init_inference events cache)).next_id] ∧
      0 ≤ (prefill exp state fe (fused_rows fe) (init_inference events cache)).next_id ∧
      run_medgemma_inference exp plat (some state) image prompt max_tokens callback cache =
        decode_loop exp state plat callback (effective_max_tokens max_tokens - 1).toNat 0
          (first_token state callback
            (prefill exp state fe (fused_rows fe) (init_inference events cache))) := by
  have hl := load_image_token_ne_bos files l hload
  have hst := handle_state_fields l state hstate
  refine ⟨hl, hst, ?_⟩
  have hid : state.image_token_id ≠ 2 := by rw [hst]; exact hl
  cases hv : (vision_stage state plat image callback).2 with
  | error e =>
    exfalso
    unfold run_medgemma_inference at hth
    simp only [hv, catch_exception_thrown] at hth
    exact absurd hth (by simp)
  | ok patch =>
    cases hf : fuse_loop state patch (build_tokens state prompt) ([], [], 0) with
    | error e =>
      exfalso
      unfold run_medgemma_inference at hth
      simp only [hv, hf, catch_exception_thrown] at hth
      exact absurd hth (by simp)
    | ok res =>
      obtain ⟨fe, am, inj⟩ := res
      obtain ⟨row, hrow, htake, hL⟩ := fuse_loop_bos state patch prompt fe am inj hid hf
      have hrun := run_eq_generate exp plat state image prompt max_tokens callback cache patch
        fe am inj hv hf
      rw [hrun] at hth ⊢
      have hcatch := catch_exception_none callback _ hth
      rw [hcatch] at hth ⊢
      rw [generate_eq_prefill] at hth ⊢
      refine ⟨patch, fe, am, inj, row,
        (if inj = 0 ∧ image.isSome then
          call_back callback (vision_stage state plat image callback).1
            (.diag warn_not_grounded)
         else (vision_stage state plat image callback).1), rfl, hf, hrow, htake, hL, ?_⟩
      cases hp : (prefill exp state fe (fused_rows fe) (init_inference
          (if inj = 0 ∧ image.isSome then
            call_back callback (vision_stage state plat image callback).1
              (.diag warn_not_grounded)
           else (vision_stage state plat image callback).1) cache)).thrown with
      | some e =>
        simp only [hp] at hth
        exact absurd hth (by simp)
      | none =>
        simp only [hp]
        have hp2 := hp
        unfold prefill at hp2
        have hres := prefill_loop_result exp state fe (fused_rows fe) (fused_rows fe) 0 _ hL
          (by omega) rfl rfl hp2
        have hnn := prefill_loop_next_nonneg exp state fe (fused_rows fe) (fused_rows fe) 0 _
          hV hL (by omega) hp2
        have hch := prefill_loop_chunks exp state fe (fused_rows fe) (fused_rows fe) 0 _ rfl
          (by omega) hp2
        refine ⟨trivial, ?_, hres.2, hnn, ?_⟩
        · intro h0
          have hlen := congrArg List.length hch
          unfold prefill at h0
          rw [Nat.mul_zero] at hlen
          rw [h0] at hlen
          simp [init_inference] at hlen
          omega
        · unfold emit_and_decode prefill
          rw [if_neg (not_lt.mpr hnn)]

/-- C21 (witness): the example handle is what the loader returns on its own
files; its decoder returns four logits for every row. -/
theorem prefill_always_yields_token_witness :
    load_medgemma_4bit (files_of (example_state (α := ℝ) [] [65] fun _ => [29 / 100, 0, 0, 0])) =
      some ⟨some (example_state (α := ℝ) [] [65] fun _ => [29 / 100, 0, 0, 0]).tokenizer,
        255999,
        (example_state [] [65] fun _ => [29 / 100, 0, 0, 0]).v_sess,
        (example_state [] [65] fun _ => [29 / 100, 0, 0, 0]).p_sess,
        (example_state [] [65] fun _ => [29 / 100, 0, 0, 0]).e_sess,
        (example_state [] [65] fun _ => [29 / 100, 0, 0, 0]).m_sess⟩ ∧
    (run_medgemma_inference Real.exp no_meminfo
      (some (example_state [] [65] fun _ => [29 / 100, 0, 0, 0])) none [] 1 true none).thrown =
      none ∧
    (255999 : Int) ≠ 2 :=
  ⟨rfl, example_run_one.2.2.2,
   (prefill_always_yields_token Real.exp no_meminfo
      (files_of (example_state (α := ℝ) [] [65] fun _ => [29 / 100, 0, 0, 0]))
      ⟨some (example_state (α := ℝ) [] [65] fun _ => [29 / 100, 0, 0, 0]).tokenizer, 255999,
        (example_state [] [65] fun _ => [29 / 100, 0, 0, 0]).v_sess,
        (example_state [] [65] fun _ => [29 / 100, 0, 0, 0]).p_sess,
        (example_state [] [65] fun _ => [29 / 100, 0, 0, 0]).e_sess,
        (example_state [] [65] fun _ => [29 / 100, 0, 0, 0]).m_sess⟩
      (example_state [] [65] fun _ => [29 / 100, 0, 0, 0]) none [] 1 true none rfl rfl
      (example_logits_nonempty _ _ _ (fun _ => by simp))
      example_run_one.2.2.2).1⟩

end FirstToken

section Termination

variable {α : Type}

/-! ### The decode steps that ran to their end -/

theorem running_inv_done (L : Nat) (s : Inference α) (h : running_inv L s) :
    s.kv_len = L + completed_decode_steps s := by
  obtain ⟨_, hk, hst, hlast⟩ := h
  have hb : last_step_broke s = false := by
    unfold last_step_broke
    by_cases h2 : 2 ≤ s.sampled.length
    · have hstop : s.stop_triggered = false := by
        cases hs : s.stop_triggered with
        | false => rfl
        | true => have := hst hs; omega
      cases hl : s.sampled.getLast? with
      | none => simp [hstop]
      | some id => simp [hstop, hlast h2 id hl]
    · simp [h2]
  simp [completed_decode_steps, decode_steps_sampled, hb, hk]

theorem decode_loop_done [LinearOrderedField α] (exp : α → α) (state : MedGemmaState α)
    (plat : Platform) (callback : Bool) (L : Nat) (remaining step : Nat) (s : Inference α)
    (h : running_inv L s)
    (hth : (decode_loop exp state plat callback remaining step s).thrown = none) :
    (decode_loop exp state plat callback remaining step s).kv_len =
      L + completed_decode_steps (decode_loop exp state plat callback remaining step s) := by
  induction remaining generalizing step s with
  | zero => exact running_inv_done L s h
  | succ n ih =>
    simp only [decode_loop] at hth ⊢
    by_cases hst : s.stop_triggered = true
    · simp only [hst, if_true] at hth ⊢
      exact running_inv_done L s h
    · simp only [hst, Bool.false_eq_true, if_false] at hth ⊢
      have hst' : s.stop_triggered = false := by simpa using hst
      obtain ⟨hne, hk, _, hlast⟩ := h
      have hlen : 1 ≤ s.sampled.length := List.length_pos.mpr hne
      rcases decode_step_cases exp state plat callback step s with
        ⟨hflag, hthr, _⟩ | ⟨id, hs, hthr, hcase⟩
      · simp only [hflag, Bool.false_eq_true, if_false] at hth
        exact absurd hth hthr
      · rcases hcase with ⟨hE, hflag, _, hstop, hkv, _⟩ | ⟨_, hflag, _, hstop, hkv, _⟩ |
          ⟨hE, hstop, hkv, _, hfl⟩
        · simp only [hflag, Bool.false_eq_true, if_false] at hth ⊢
          have hb : last_step_broke (decode_step exp state plat callback step s).1 = true := by
            simp [last_step_broke, hs, hE]
            omega
          simp only [completed_decode_steps, decode_steps_sampled, hb, hs, hkv, hk, if_true,
            List.length_append, List.length_singleton]
          omega
        · simp only [hflag, Bool.false_eq_true, if_false] at hth ⊢
          have hb : last_step_broke (decode_step exp state plat callback step s).1 = true := by
            simp [last_step_broke, hs, hstop]
            omega
          simp only [completed_decode_steps, decode_steps_sampled, hb, hs, hkv, hk, if_true,
            List.length_append, List.length_singleton]
          omega
        · have hnew : running_inv L (decode_step exp state plat callback step s).1 := by
            refine ⟨by rw [hs]; simp, ?_, ?_, ?_⟩
            · rw [hkv, hk, hs]
              simp only [List.length_append, List.length_singleton]
              omega
            · intro h1
              rw [hstop, hst'] at h1
              exact absurd h1 (by simp)
            · intro _ x hx
              rw [hs] at hx
              simp at hx
              rw [← hx]
              exact hE
          rcases hfl with ⟨hflag, _⟩ | ⟨hflag, _⟩
          · simp only [hflag, if_true] at hth ⊢
            exact ih _ _ hnew hth
          · simp only [hflag, Bool.false_eq_true, if_false] at hth ⊢
            exact running_inv_done L _ hnew

/-- The count of completed decode steps, from the sampled ids and the flag. -/
theorem completed_decode_steps_eq (s : Inference α) (l : List Int) (b : Bool)
    (hs : s.sampled = l) (hst : s.stop_triggered = b) :
    completed_decode_steps s =
      (l.length - 1) -
        (if (decide (2 ≤ l.length) &&
            ((match l.getLast? with
              | some id => decide (id ∈ EOS_IDS)
              | none => false) || b)) = true then 1 else 0) := by
  subst hs hst
  rfl

theorem emit_and_decode_done [LinearOrderedField α] (exp : α → α) (state : MedGemmaState α)
    (plat : Platform) (max_tokens : Int) (callback : Bool) (s : Inference α) (L : Nat)
    (hk : s.kv_len = L) (hs : (s.sampled = [] ∧ s.next_id < 0) ∨ s.sampled = [s.next_id])
    (hth : (emit_and_decode exp state plat max_tokens callback s).thrown = none) :
    (emit_and_decode exp state plat max_tokens callback s).kv_len =
      L + completed_decode_steps (emit_and_decode exp state plat max_tokens callback s) := by
  by_cases hneg : s.next_id < 0
  · unfold emit_and_decode
    rw [if_pos hneg]
    rcases hs with ⟨h, _⟩ | h <;>
      simp [completed_decode_steps, decode_steps_sampled, last_step_broke, h, hk]
  · obtain ⟨hfk, _, hfs, _⟩ := first_token_kv state callback s
    have h1 : s.sampled = [s.next_id] := by
      rcases hs with ⟨_, h⟩ | h
      · exact absurd h hneg
      · exact h
    unfold emit_and_decode at hth ⊢
    rw [if_neg hneg] at hth ⊢
    simp only [] at hth ⊢
    refine decode_loop_done exp state plat callback L _ 0 _ ?_ hth
    refine ⟨by rw [hfs, h1]; simp, by rw [hfk, hk, hfs, h1]; simp, ?_, ?_⟩
    · intro _
      rw [hfs, h1]; rfl
    · intro h2
      rw [hfs, h1] at h2
      simp at h2

theorem generate_done [LinearOrderedField α] (exp : α → α) (state : MedGemmaState α)
    (plat : Platform) (max_tokens : Int) (callback : Bool) (fe : List α)
    (events : List Event) (cache : Option (List Bool))
    (hth : (generate exp state plat max_tokens callback fe
      (init_inference events cache)).thrown = none) :
    (generate exp state plat max_tokens callback fe (init_inference events cache)).kv_len =
      fused_rows fe +
        completed_decode_steps
          (generate exp state plat max_tokens callback fe (init_inference events cache)) := by
  unfold generate at hth ⊢
  unfold fused_rows
  simp only [] at hth ⊢
  cases hpth : (prefill_loop exp state fe (fe.length / embed_dim) (fe.length / embed_dim) 0
      (init_inference events cache)).thrown with
  | some e =>
    simp only [hpth] at hth ⊢
    exact absurd hth (by simp)
  | none =>
    simp only [hpth] at hth ⊢
    by_cases hL : fe.length / embed_dim = 0
    · have h0 : prefill_loop exp state fe (fe.length / embed_dim) (fe.length / embed_dim) 0
          (init_inference events cache) = init_inference events cache := by
        rw [hL]; rfl
      apply emit_and_decode_done exp state plat max_tokens callback _ _ _ _ hth
      · rw [h0, hL]; rfl
      · left; rw [h0]; simp [init_inference]
    · obtain ⟨hk, hs⟩ := prefill_loop_result exp state fe (fe.length / embed_dim)
        (fe.length / embed_dim) 0 (init_inference events cache) (Nat.pos_of_ne_zero hL)
        (by omega) rfl rfl hpth
      exact emit_and_decode_done exp state plat max_tokens callback _ _ hk (Or.inr hs) hth

/-- The inference of the example when the prefill samples an EOS id:
`max_tokens = 2`, logits all zero on the prefill chunk and `[0.29, 0, 0, 0]`
afterwards. One decode step runs to its end. -/
theorem example_run_two :
    (run_medgemma_inference Real.exp no_meminfo
      (some (example_state [] [65]
        fun n => if n = 1 then [0, 0, 0, 0] else [29 / 100, 0, 0, 0])) none [] 2 true
      none).thrown = none ∧
    (run_medgemma_inference Real.exp no_meminfo
      (some (example_state [] [65]
        fun n => if n = 1 then [0, 0, 0, 0] else [29 / 100, 0, 0, 0])) none [] 2 true
      none).sampled = [1, 2] ∧
    (run_medgemma_inference Real.exp no_meminfo
      (some (example_state [] [65]
        fun n => if n = 1 then [0, 0, 0, 0] else [29 / 100, 0, 0, 0])) none [] 2 true
      none).events = [.token 2 [65] false] ∧
    (run_medgemma_inference Real.exp no_meminfo
      (some (example_state [] [65]
        fun n => if n = 1 then [0, 0, 0, 0] else [29 / 100, 0, 0, 0])) none [] 2 true
      none).kv_len = 2 ∧
    (run_medgemma_inference Real.exp no_meminfo
      (some (example_state [] [65]
        fun n => if n = 1 then [0, 0, 0, 0] else [29 / 100, 0, 0, 0])) none [] 2 true
      none).stop_triggered = false := by
  simp [run_medgemma_inference, vision_stage, build_tokens, fuse_loop, generate,
    example_row_rows, prefill_loop, prefill_chunk, effective_max_tokens, init_inference,
    PREFILL_CHUNK, ex_m_sess, ex_e_sess, ex_decode, ex_encode, ex_image_token_id,
    past_len_empty_kv, last_logits, sample_next, sample_example, top_p_one_hot, top_p_zeros,
    Nat.div_self embed_dim_pos, emit_and_decode, first_token, decode_loop, decode_step,
    no_meminfo, catch_exception, List.range_succ, EOS_IDS, check_stop_A, emit, call_back,
    push_generated]

/-- C7 (as amended): in an inference that ends without an exception `kv_len`
never decreases, and it ends at the fused prefill length plus the number of
decode steps that ran to their end: the decode steps that sampled an id, less
the last one when it sampled an EOS id or triggered the stop matcher. With a
callback and a tokenizer that decodes every id, that number is read from the
callback invocations: the token fragments after the first-token one for which
the stop matcher returned false. -/
theorem kv_len_at_termination [LinearOrderedField α] (exp : α → α) (plat : Platform)
    (state : MedGemmaState α) (image : Option (Except String (List α)))
    (prompt : List Nat) (max_tokens : Int) (callback : Bool) (cache : Option (List Bool))
    (patch fe : List α) (am : List Int) (inj : Nat)
    (hv : (vision_stage state plat image callback).2 = .ok patch)
    (hf : fuse_loop state patch (build_tokens state prompt) ([], [], 0) = .ok (fe, am, inj))
    (hth : (run_medgemma_inference exp plat (some state) image prompt max_tokens callback
      cache).thrown = none) :
    (run_medgemma_inference exp plat (some state) image prompt max_tokens callback
      cache).kv_hist.Pairwise (· ≤ ·) ∧
    (run_medgemma_inference exp plat (some state) image prompt max_tokens callback
      cache).kv_hist.getLast? =
      some (run_medgemma_inference exp plat (some state) image prompt max_tokens callback
        cache).kv_len ∧
    (run_medgemma_inference exp plat (some state) image prompt max_tokens callback
      cache).kv_len =
      fused_rows fe +
        completed_decode_steps (run_medgemma_inference exp plat (some state) image prompt
          max_tokens callback cache) ∧
    (callback = true → (∀ id, ∃ text, state.tokenizer.decode id = some text) →
      completed_decode_steps (run_medgemma_inference exp plat (some state) image prompt
          max_tokens callback cache) =
        completed_steps
          (first_emitted (run_medgemma_inference exp plat (some state) image prompt
            max_tokens callback cache).sampled)
          (run_medgemma_inference exp plat (some state) image prompt max_tokens callback
            cache).events) := by
  have hrun := run_eq_generate exp plat state image prompt max_tokens callback cache patch fe
    am inj hv hf
  rw [hrun] at hth ⊢
  have hcatch := catch_exception_none callback _ hth
  rw [hcatch] at hth ⊢
  have hh := generate_hist exp state plat (effective_max_tokens max_tokens) callback fe _
    (hist_inv_init (α := α) (if inj = 0 ∧ image.isSome then
        call_back callback (vision_stage state plat image callback).1
          (.diag warn_not_grounded)
       else (vision_stage state plat image callback).1) cache)
  have hdone := generate_done exp state plat (effective_max_tokens max_tokens) callback fe _
    cache hth
  refine ⟨hh.1, hh.2.2, hdone, ?_⟩
  intro hcb hdecode
  subst hcb
  have hcount : token_count (if inj = 0 ∧ image.isSome then
        call_back true (vision_stage state plat image true).1 (.diag warn_not_grounded)
       else (vision_stage state plat image true).1) = 0 := by
    split_ifs
    · rw [token_count_call_back_diag]; exact token_count_vision state plat image true
    · exact token_count_vision state plat image true
  have hold := generate_steps exp state plat _ fe _ cache hcount hdecode hth
  unfold fused_rows at hdone
  omega

/-- C7 (witness): the inference of `example_run_two`; the fused length is 1,
two ids were sampled and the decode step ran to its end: `kv_len = 1 + 1`. -/
theorem kv_len_at_termination_witness :
    (vision_stage (example_state [] [65]
      fun n => if n = 1 then ([0, 0, 0, 0] : List ℝ) else [29 / 100, 0, 0, 0]) no_meminfo
      none true).2 = .ok [] ∧
    fuse_loop (example_state [] [65]
        fun n => if n = 1 then [0, 0, 0, 0] else [29 / 100, 0, 0, 0]) []
        (build_tokens (example_state [] [65]
          fun n => if n = 1 then [0, 0, 0, 0] else [29 / 100, 0, 0, 0]) []) ([], [], 0) =
      .ok (List.ofFn (fun _ : Fin embed_dim => (0 : ℝ)), [1], 0) ∧
    (run_medgemma_inference Real.exp no_meminfo
      (some (example_state [] [65]
        fun n => if n = 1 then [0, 0, 0, 0] else [29 / 100, 0, 0, 0])) none [] 2 true
      none).thrown = none ∧
    (run_medgemma_inference Real.exp no_meminfo
      (some (example_state [] [65]
        fun n => if n = 1 then [0, 0, 0, 0] else [29 / 100, 0, 0, 0])) none [] 2 true
      none).kv_len =
      fused_rows (List.ofFn (fun _ : Fin embed_dim => (0 : ℝ))) +
        completed_decode_steps (run_medgemma_inference Real.exp no_meminfo
          (some (example_state [] [65]
            fun n => if n = 1 then [0, 0, 0, 0] else [29 / 100, 0, 0, 0])) none [] 2 true
          none) ∧
    completed_decode_steps (run_medgemma_inference Real.exp no_meminfo
      (some (example_state [] [65]
        fun n => if n = 1 then [0, 0, 0, 0] else [29 / 100, 0, 0, 0])) none [] 2 true
      none) = 1 := by
  have hs := example_run_two.2.1
  have hst := example_run_two.2.2.2.2
  refine ⟨rfl, example_fuse _, example_run_two.1,
    (kv_len_at_termination Real.exp no_meminfo
      (example_state [] [65] fun n => if n = 1 then [0, 0, 0, 0] else [29 / 100, 0, 0, 0])
      none [] 2 true none []
      (List.ofFn (fun _ : Fin embed_dim => (0 : ℝ))) [1] 0 rfl (example_fuse _)
      example_run_two.1).2.2.1, ?_⟩
  exact (completed_decode_steps_eq _ [1, 2] false hs hst).trans (by decide)

/-! ### Every sampled token is emitted once -/

end Termination

end MedGemma
